import Mathlib

/-!
# Buffer cache of `kernel/bio.c` (LAB_LOCK variant)

A shallow embedding of the sharded buffer cache: the slot array `bcache.buf`,
the hash buckets `buckets[]` with their pointer-linked chains, the global
`ticks` counter of `kernel/trap.c`, and the operations `binit`, `bget`,
`bread`, `bwrite`, `brelse`, `bpin`, `bunpin`.

Conventions.
* `NBUF` and `BUCKETNUM` come from `param.h`, which is not part of the
  sources at hand; both are parameters.
* A `struct buf *` that points into `bcache.buf` is an index `Fin NBUF`; the
  null pointer is `none`.
* `uint` fields are natural numbers and every `++` / `--` is taken modulo
  `2 ^ 32`.
* `int valid` is only ever assigned the literals `0` and `1` and only ever
  tested with `!`; it is a `Bool` (`true` is `1`).
* Loops over a pointer chain get `NBUF + 1` units of fuel; a chain walk that
  uses them up has entered a cycle, and the C loop would spin for ever.
-/

namespace Bio

/-- Modulus of the C type `uint`. -/
def UINT : Nat := 2 ^ 32

/-- The `struct buf` of `buf.h` with `LAB_LOCK` defined.  `lock` is the sleep
lock: `none` when free, `some pid` when process `pid` holds it. -/
structure Buf (NBUF : Nat) where
  valid : Bool
  disk : Bool
  dev : Nat
  blockno : Nat
  lock : Option Nat
  refcnt : Nat
  ticks : Nat
  next : Option (Fin NBUF)
  data : List Nat
deriving DecidableEq

/-- The global state touched by `bio.c`: the slot array `bcache.buf`, the
bucket heads `buckets[h].head`, the `ticks` counter of `trap.c`, the contents
of the disk and the list of driver calls made so far (slot, write flag). -/
structure State (NBUF : Nat) where
  buf : Fin NBUF → Buf NBUF
  head : Nat → Option (Fin NBUF)
  ticks : Nat
  disk : Nat → Nat → List Nat
  io : List (Fin NBUF × Bool)

/-- Result of a call made by one process with nobody else running. -/
inductive Outcome (NBUF : Nat) (α : Type) where
  | ret (a : α) (s : State NBUF)
  | panic (msg : String) (s : State NBUF)
  | blocked (s : State NBUF)
  | hang

/-- Result of the chain search at the top of `bget`. -/
inductive Lookup (NBUF : Nat) where
  | hit (b : Fin NBUF)
  | miss
  | hang
deriving DecidableEq

variable {NBUF : Nat}

/-- The macro `#define HASH(x) (x % BUCKETNUM)`. -/
def HASH (BUCKETNUM x : Nat) : Nat := x % BUCKETNUM

/-- Store `v` in slot `b` of the array. -/
def State.setBuf (s : State NBUF) (b : Fin NBUF) (v : Buf NBUF) : State NBUF :=
  { s with buf := Function.update s.buf b v }

/-- The assignment `buckets[h].head = p`. -/
def State.setHead (s : State NBUF) (h : Nat) (p : Option (Fin NBUF)) : State NBUF :=
  { s with head := Function.update s.head h p }

/-- The handler `clockintr` of `trap.c`: `ticks++` on a `uint`. -/
def clockintr (s : State NBUF) : State NBUF :=
  { s with ticks := (s.ticks + 1) % UINT }

/-- Function `buckets_insert`: head insertion into the bucket of the item's block
number. -/
def buckets_insert (BUCKETNUM : Nat) (s : State NBUF) (item : Fin NBUF) : State NBUF :=
  let hash := HASH BUCKETNUM (s.buf item).blockno
  let s1 := s.setBuf item { s.buf item with next := s.head hash }
  s1.setHead hash (some item)

/-- The `for` loop of `buckets_remove`, started at `b`: walk while
`b->next != 0`, unlink `item` when `b->next == item`.  `none` when the fuel
runs out. -/
def removeLoop (s : State NBUF) (item : Fin NBUF) : Nat → Fin NBUF → Option (State NBUF)
  | 0, _ => none
  | fuel + 1, b =>
    match (s.buf b).next with
    | none => some s
    | some nx =>
      if nx = item then some (s.setBuf b { s.buf b with next := (s.buf item).next })
      else removeLoop s item fuel nx

/-- Function `buckets_remove`: unlink `item` from the bucket of its block number. -/
def buckets_remove (BUCKETNUM : Nat) (s : State NBUF) (item : Fin NBUF) :
    Option (State NBUF) :=
  let hash := HASH BUCKETNUM (s.buf item).blockno
  match s.head hash with
  | none => some s
  | some h =>
    if h = item then some (s.setHead hash (s.buf item).next)
    else removeLoop s item (NBUF + 1) h

/-- The memory image at boot: static storage is zero-initialised, nothing has
been sent to the driver, and the disk holds `disk`. -/
def boot (disk : Nat → Nat → List Nat) : State NBUF where
  buf := fun _ =>
    { valid := false, disk := false, dev := 0, blockno := 0, lock := none,
      refcnt := 0, ticks := 0, next := none, data := [] }
  head := fun _ => none
  ticks := 0
  disk := disk
  io := []

/-- Function `binit`: every bucket head is set to null, every sleep lock is initialised
(free) and every `next` is set to null. -/
def binit (s : State NBUF) : State NBUF :=
  { s with
    buf := fun i => { s.buf i with lock := none, next := none }
    head := fun _ => none }

/-- The cache right after `binit` on a machine whose disk is all empty
blocks. -/
def fresh : State NBUF := binit (boot (fun _ _ => []))

/-- The search loop of `bget` from pointer `p`:
`for(b = p; b != 0; b = b->next) if(b->dev == dev && b->blockno == blockno)`. -/
def lookupLoop (s : State NBUF) (dev blockno : Nat) :
    Nat → Option (Fin NBUF) → Lookup NBUF
  | 0, _ => Lookup.hang
  | _ + 1, none => Lookup.miss
  | fuel + 1, some b =>
    if (s.buf b).dev = dev ∧ (s.buf b).blockno = blockno then Lookup.hit b
    else lookupLoop s dev blockno fuel (s.buf b).next

/-- The chain search of `bget` in bucket `HASH(blockno)`. -/
def lookup (BUCKETNUM : Nat) (s : State NBUF) (dev blockno : Nat) : Lookup NBUF :=
  lookupLoop s dev blockno (NBUF + 1) (s.head (HASH BUCKETNUM blockno))

/-- One iteration of the victim scan of `bget`, with `recycle` the candidate
so far. -/
def scanStep (s : State NBUF) (recycle : Option (Fin NBUF)) (b : Fin NBUF) :
    Option (Fin NBUF) :=
  if (s.buf b).refcnt = 0 then
    match recycle with
    | none => some b
    | some r => if (s.buf b).ticks < (s.buf r).ticks then some b else some r
  else recycle

/-- The victim scan of `bget`:
`for(b = bcache.buf; b < bcache.buf+NBUF; b++)`. -/
def scan (s : State NBUF) : Option (Fin NBUF) :=
  (List.finRange NBUF).foldl (scanStep s) none

/-- Modelled from the spec: the blocking lock primitive `acquiresleep` of
`sleeplock.c`, which is not among the sources.  The lock has at most one
holder; acquiring a free lock makes `pid` its holder, acquiring a held lock
suspends the caller (`none`). -/
def acquiresleep (s : State NBUF) (pid : Nat) (b : Fin NBUF) : Option (State NBUF) :=
  match (s.buf b).lock with
  | none => some (s.setBuf b { s.buf b with lock := some pid })
  | some _ => none

/-- Modelled from the spec: `holdingsleep` of `sleeplock.c`, true when the
caller is the holder of the slot's lock. -/
def holdingsleep (s : State NBUF) (pid : Nat) (b : Fin NBUF) : Bool :=
  (s.buf b).lock = some pid

/-- Modelled from the spec: `releasesleep` of `sleeplock.c`. -/
def releasesleep (s : State NBUF) (b : Fin NBUF) : State NBUF :=
  s.setBuf b { s.buf b with lock := none }

/-- Modelled from the spec: the disk driver `virtio_disk_rw(b, write)` of
`virtio_disk.c`, which is not among the sources.  A read fills the payload of
`b` from the disk block `(dev, blockno)`, a write stores the payload there;
each call is appended to the driver log. -/
def virtio_disk_rw (s : State NBUF) (b : Fin NBUF) (write : Bool) : State NBUF :=
  if write then
    { s with
      disk := fun d k =>
        if d = (s.buf b).dev ∧ k = (s.buf b).blockno then (s.buf b).data else s.disk d k
      io := s.io ++ [(b, true)] }
  else
    { s with
      buf := Function.update s.buf b
        { s.buf b with data := s.disk (s.buf b).dev (s.buf b).blockno }
      io := s.io ++ [(b, false)] }

/-- The hit branch of `bget` inside the bucket lock: `b->refcnt++`. -/
def bget_hit (s : State NBUF) (b : Fin NBUF) : State NBUF :=
  s.setBuf b { s.buf b with refcnt := ((s.buf b).refcnt + 1) % UINT }

/-- Step 2 of the recycling in `bget`: the five assignments to `recycle`. -/
def bget_init (s : State NBUF) (r : Fin NBUF) (dev blockno : Nat) : State NBUF :=
  s.setBuf r
    { s.buf r with dev := dev, blockno := blockno, valid := false, refcnt := 1,
                   ticks := s.ticks }

/-- The part of `bget` run under `bcache.lock` once the victim `r` is known:
`buckets_remove(recycle)` and the re-initialisation. -/
def bget_recycle (BUCKETNUM : Nat) (s : State NBUF) (r : Fin NBUF) (dev blockno : Nat) :
    Option (State NBUF) :=
  match buckets_remove BUCKETNUM s r with
  | none => none
  | some s1 => some (bget_init s1 r dev blockno)

/-- The last step of `bget` on either path: `acquiresleep(&b->lock); return b`. -/
def bget_sleep (s : State NBUF) (pid : Nat) (b : Fin NBUF) : Outcome NBUF (Fin NBUF) :=
  match acquiresleep s pid b with
  | none => Outcome.blocked s
  | some s1 => Outcome.ret b s1

/-- The call `bget(dev, blockno)` made by process `pid`. -/
def bget (BUCKETNUM : Nat) (s : State NBUF) (pid dev blockno : Nat) :
    Outcome NBUF (Fin NBUF) :=
  match lookup BUCKETNUM s dev blockno with
  | Lookup.hang => Outcome.hang
  | Lookup.hit b => bget_sleep (bget_hit s b) pid b
  | Lookup.miss =>
    match scan s with
    | none => Outcome.panic "bget: no buffers" s
    | some r =>
      match bget_recycle BUCKETNUM s r dev blockno with
      | none => Outcome.hang
      | some s1 => bget_sleep (buckets_insert BUCKETNUM s1 r) pid r

/-- The tail of `bread` once `bget` has returned `b`:
`if(!b->valid) { virtio_disk_rw(b, 0); b->valid = 1; }`. -/
def bread_fill (s : State NBUF) (b : Fin NBUF) : State NBUF :=
  if (s.buf b).valid then s
  else
    let s1 := virtio_disk_rw s b false
    s1.setBuf b { s1.buf b with valid := true }

/-- The call `bread(dev, blockno)` made by process `pid`. -/
def bread (BUCKETNUM : Nat) (s : State NBUF) (pid dev blockno : Nat) :
    Outcome NBUF (Fin NBUF) :=
  match bget BUCKETNUM s pid dev blockno with
  | Outcome.ret b s1 => Outcome.ret b (bread_fill s1 b)
  | Outcome.panic msg s1 => Outcome.panic msg s1
  | Outcome.blocked s1 => Outcome.blocked s1
  | Outcome.hang => Outcome.hang

/-- The call `bwrite(b)` made by process `pid`. -/
def bwrite (s : State NBUF) (pid : Nat) (b : Fin NBUF) : Outcome NBUF Unit :=
  if holdingsleep s pid b then Outcome.ret () (virtio_disk_rw s b true)
  else Outcome.panic "bwrite" s

/-- The statement `b->refcnt--` on the `uint` counter of slot `b`. -/
def refcnt_dec (s : State NBUF) (b : Fin NBUF) : State NBUF :=
  s.setBuf b { s.buf b with refcnt := ((s.buf b).refcnt + (UINT - 1)) % UINT }

/-- The critical section of `brelse`: `b->refcnt--`, then
`if (b->refcnt == 0) b->ticks = ticks`. -/
def brelse_dec (s : State NBUF) (b : Fin NBUF) : State NBUF :=
  if ((refcnt_dec s b).buf b).refcnt = 0 then
    (refcnt_dec s b).setBuf b { (refcnt_dec s b).buf b with ticks := s.ticks }
  else refcnt_dec s b

/-- The call `brelse(b)` made by process `pid`. -/
def brelse (s : State NBUF) (pid : Nat) (b : Fin NBUF) : Outcome NBUF Unit :=
  if holdingsleep s pid b then Outcome.ret () (brelse_dec (releasesleep s b) b)
  else Outcome.panic "brelse" s

/-- The call `bpin(b)`: `b->refcnt++`. -/
def bpin (s : State NBUF) (b : Fin NBUF) : State NBUF :=
  s.setBuf b { s.buf b with refcnt := ((s.buf b).refcnt + 1) % UINT }

/-- The call `bunpin(b)`: `b->refcnt--`. -/
def bunpin (s : State NBUF) (b : Fin NBUF) : State NBUF :=
  refcnt_dec s b

/-- The state carried by an outcome, when it has one. -/
def Outcome.state? {α : Type} : Outcome NBUF α → Option (State NBUF)
  | Outcome.ret _ s => some s
  | Outcome.panic _ s => some s
  | Outcome.blocked s => some s
  | Outcome.hang => none

/-- Slot `r` is the first slot of least `ticks` among the slots with
`refcnt == 0`. -/
def FirstLeast (s : State NBUF) (r : Fin NBUF) : Prop :=
  (s.buf r).refcnt = 0 ∧
  (∀ j, (s.buf j).refcnt = 0 → (s.buf r).ticks ≤ (s.buf j).ticks) ∧
  (∀ j, (s.buf j).refcnt = 0 → (s.buf j).ticks = (s.buf r).ticks → r ≤ j)

/-- Two slot records that differ at most in their `next` pointer. -/
def Buf.eqUpToNext (a b : Buf NBUF) : Prop :=
  ∃ nx, a = { b with next := nx }

/-- What the scan has computed after running over a strictly increasing list
of slots. -/
def ScanPost (s : State NBUF) (l : List (Fin NBUF)) : Option (Fin NBUF) → Prop
  | none => ∀ j ∈ l, (s.buf j).refcnt ≠ 0
  | some r => r ∈ l ∧ (s.buf r).refcnt = 0 ∧
      (∀ j ∈ l, (s.buf j).refcnt = 0 → (s.buf r).ticks ≤ (s.buf j).ticks) ∧
      (∀ j ∈ l, (s.buf j).refcnt = 0 → (s.buf j).ticks = (s.buf r).ticks → r ≤ j)

/-- The state an outcome carries, or `d` when the call hangs. -/
def Outcome.stateD {α : Type} (o : Outcome NBUF α) (d : State NBUF) : State NBUF :=
  (o.state?).getD d

/-- A cache of three slots and thirteen buckets after process 7 has read
block `(1, 10)` and still holds it. -/
def demoBusy : State 3 :=
  (bread 13 fresh 7 1 10).stateD fresh

/-! ## Sequential series of calls -/

/-- One call of the public interface of `bio.c` by process `pid`, or one
timer interrupt (`clockintr`) between two calls. -/
inductive Call (NBUF : Nat) where
  | bread (pid dev blockno : Nat)
  | bwrite (pid : Nat) (b : Fin NBUF)
  | brelse (pid : Nat) (b : Fin NBUF)
  | bpin (b : Fin NBUF)
  | bunpin (b : Fin NBUF)
  | tick
deriving DecidableEq

/-- Run one call to its end.  `some (s', r)` when the call returns, with `r`
the slot returned by `bread`; `none` when it panics, sleeps for ever or
spins. -/
def runCall (BUCKETNUM : Nat) (s : State NBUF) :
    Call NBUF → Option (State NBUF × Option (Fin NBUF))
  | Call.bread pid dev blockno =>
    match bread BUCKETNUM s pid dev blockno with
    | Outcome.ret b s' => some (s', some b)
    | _ => none
  | Call.bwrite pid b =>
    match bwrite s pid b with
    | Outcome.ret _ s' => some (s', none)
    | _ => none
  | Call.brelse pid b =>
    match brelse s pid b with
    | Outcome.ret _ s' => some (s', none)
    | _ => none
  | Call.bpin b => some (bpin s b, none)
  | Call.bunpin b => some (bunpin s b, none)
  | Call.tick => some (clockintr s, none)

/-- Run a series of calls one after the other; `none` as soon as one of them
does not return. -/
def runCalls (BUCKETNUM : Nat) : State NBUF → List (Call NBUF) → Option (State NBUF)
  | s, [] => some s
  | s, c :: cs =>
    match runCall BUCKETNUM s c with
    | none => none
    | some (s', _) => runCalls BUCKETNUM s' cs

/-- States reachable from `binit` by a sequential series of returning calls. -/
def Reachable (BUCKETNUM : Nat) (s : State NBUF) : Prop :=
  ∃ (disk : Nat → Nat → List Nat) (cs : List (Call NBUF)),
    runCalls BUCKETNUM (binit (boot disk)) cs = some s

/-! ## Bucket chains as lists -/

/-- The slots met when following `next` from pointer `p`, at most `fuel` of
them. -/
def chainFrom (s : State NBUF) : Nat → Option (Fin NBUF) → List (Fin NBUF)
  | 0, _ => []
  | _ + 1, none => []
  | fuel + 1, some b => b :: chainFrom s fuel (s.buf b).next

/-- The chain of bucket `h`: the slots linked from `buckets[h].head`. -/
def chain (s : State NBUF) (h : Nat) : List (Fin NBUF) :=
  chainFrom s (NBUF + 1) (s.head h)

/-- Pointer `p` starts a null-terminated chain whose slots are exactly `l`, in
order. -/
def IsChain (s : State NBUF) : Option (Fin NBUF) → List (Fin NBUF) → Prop
  | p, [] => p = none
  | p, b :: l => p = some b ∧ IsChain s (s.buf b).next l

/-- The bucket chains of `s` are the lists `L h`: each is null-terminated and
without repetition, every slot on the chain of bucket `h` has a block number
that hashes to `h`, and no two chained slots carry the same key. -/
def ChainsOK (BUCKETNUM : Nat) (s : State NBUF) (L : Nat → List (Fin NBUF)) : Prop :=
  (∀ h, IsChain s (s.head h) (L h)) ∧
  (∀ h, (L h).Nodup) ∧
  (∀ h b, b ∈ L h → HASH BUCKETNUM (s.buf b).blockno = h) ∧
  (∀ h h' a b, a ∈ L h → b ∈ L h' → (s.buf a).dev = (s.buf b).dev →
    (s.buf a).blockno = (s.buf b).blockno → a = b)

/-- The chains of `s` are well formed: some family of lists describes them. -/
def WellChained (BUCKETNUM : Nat) (s : State NBUF) : Prop :=
  ∃ L : Nat → List (Fin NBUF), ChainsOK BUCKETNUM s L

/-- State `s'` has the bucket heads of `s` and every slot has the `next`, `dev`
and `blockno` it has in `s`. -/
def SameLinks (s' s : State NBUF) : Prop :=
  s'.head = s.head ∧
  ∀ i, (s'.buf i).next = (s.buf i).next ∧ (s'.buf i).dev = (s.buf i).dev ∧
    (s'.buf i).blockno = (s.buf i).blockno

/-! ## Several processes: one step per spinlock critical section -/

/-- Where a process stands inside `bread` / `brelse`.  The points are the
places of `bio.c` where the process holds no spinlock. -/
inductive PC (NBUF : Nat) where
  /-- not inside a call (the last call, if any, has returned) -/
  | idle
  /-- in `bget`, before `acquire(&buckets[hash_in].lock)` and the chain search -/
  | search (dev blockno : Nat)
  /-- in `bget`, the search missed; before `acquire(&bcache.lock)` -/
  | evict (dev blockno : Nat)
  /-- in `bget`, `bcache.lock` released; before the insertion of `r` -/
  | insert (r : Fin NBUF)
  /-- in `bget`, before `acquiresleep(&b->lock)` -/
  | sleep (b : Fin NBUF)
  /-- in `bread`, `bget` has returned `b`; before the test of `b->valid` -/
  | fill (b : Fin NBUF)
  /-- in `brelse`, before the `holdingsleep` test -/
  | release (b : Fin NBUF)
  /-- in `brelse`, sleep lock released; before `acquire(&buckets[hash].lock)` -/
  | dec (b : Fin NBUF)
  /-- stopped in `panic` -/
  | panicked (msg : String)
  /-- caught in a chain walk that never ends -/
  | spinning
deriving DecidableEq

/-- One step of process `pid` standing at `pc`: the code up to the next point
where it holds no spinlock.  `none` when the process cannot move (it is idle,
stopped, or asleep on a held sleep lock). -/
def pstep (BUCKETNUM : Nat) (s : State NBUF) (pid : Nat) :
    PC NBUF → Option (State NBUF × PC NBUF)
  | PC.idle => none
  | PC.search dev blockno =>
    match lookup BUCKETNUM s dev blockno with
    | Lookup.hit b => some (bget_hit s b, PC.sleep b)
    | Lookup.miss => some (s, PC.evict dev blockno)
    | Lookup.hang => some (s, PC.spinning)
  | PC.evict dev blockno =>
    match scan s with
    | none => some (s, PC.panicked "bget: no buffers")
    | some r =>
      match bget_recycle BUCKETNUM s r dev blockno with
      | none => some (s, PC.spinning)
      | some s1 => some (s1, PC.insert r)
  | PC.insert r => some (buckets_insert BUCKETNUM s r, PC.sleep r)
  | PC.sleep b =>
    match acquiresleep s pid b with
    | none => none
    | some s1 => some (s1, PC.fill b)
  | PC.fill b => some (bread_fill s b, PC.idle)
  | PC.release b =>
    if holdingsleep s pid b then some (releasesleep s b, PC.dec b)
    else some (s, PC.panicked "brelse")
  | PC.dec b => some (brelse_dec s b, PC.idle)
  | PC.panicked _ => none
  | PC.spinning => none

/-- The shared state and the position of every process; process `i` is the
one with pid `i`. -/
structure Config (NBUF : Nat) where
  st : State NBUF
  pcs : List (PC NBUF)

/-- Let process `pid` take one step; nothing happens when it cannot move. -/
def Config.step (BUCKETNUM : Nat) (c : Config NBUF) (pid : Nat) : Config NBUF :=
  match c.pcs.get? pid with
  | none => c
  | some pc =>
    match pstep BUCKETNUM c.st pid pc with
    | none => c
    | some (s', pc') => { st := s', pcs := c.pcs.set pid pc' }

/-- Run the processes in the order given by the schedule. -/
def Config.run (BUCKETNUM : Nat) (c : Config NBUF) (sched : List Nat) : Config NBUF :=
  sched.foldl (Config.step BUCKETNUM) c

/-- Two processes that have both just called `bread(1, 10)` on a fresh cache
of two slots. -/
def twoReaders : Config 2 :=
  { st := fresh, pcs := [PC.search 1 10, PC.search 1 10] }

/-- A schedule in which both processes finish their chain search before
either of them recycles a slot. -/
def raceSchedule : List Nat := [0, 1, 0, 1, 0, 1, 0, 1, 0, 1]

/-! ## Counting outstanding references -/

/-- The number of `bread` / `bpin` calls on each slot not yet matched by a
`brelse` / `bunpin`, after call `c` has returned `x`. -/
def countAfter (cnt : Fin NBUF → Nat) : Call NBUF → Option (Fin NBUF) → Fin NBUF → Nat
  | Call.bread _ _ _, some b => Function.update cnt b (cnt b + 1)
  | Call.bpin b, _ => Function.update cnt b (cnt b + 1)
  | Call.brelse _ b, _ => Function.update cnt b (cnt b - 1)
  | Call.bunpin b, _ => Function.update cnt b (cnt b - 1)
  | _, _ => cnt

/-- A `brelse` / `bunpin` on a slot is matched when some earlier `bread` /
`bpin` on that slot is still unmatched. -/
def Call.matched (cnt : Fin NBUF → Nat) : Call NBUF → Bool
  | Call.brelse _ b => decide (1 ≤ cnt b)
  | Call.bunpin b => decide (1 ≤ cnt b)
  | _ => true

/-- Run a series of calls and keep the count of unmatched `bread` / `bpin`
calls per slot; `none` when a call does not return or when a `brelse` /
`bunpin` has no unmatched partner. -/
def runCounted (BUCKETNUM : Nat) :
    State NBUF → (Fin NBUF → Nat) → List (Call NBUF) → Option (State NBUF × (Fin NBUF → Nat))
  | s, cnt, [] => some (s, cnt)
  | s, cnt, c :: cs =>
    if c.matched cnt then
      match runCall BUCKETNUM s c with
      | none => none
      | some (s', x) => runCounted BUCKETNUM s' (countAfter cnt c x) cs
    else none

/-- The count kept in the slot agrees, modulo `2 ^ 32`, with the number of
unmatched `bread` / `bpin` calls. -/
def RefInv (s : State NBUF) (cnt : Fin NBUF → Nat) : Prop :=
  ∀ i, (s.buf i).refcnt = cnt i % UINT

/-- A short matched series on a three-slot cache: read block `(1, 10)`, pin
the slot, release it. -/
def demoSeries : List (Call 3) :=
  [Call.bread 7 1 10, Call.bpin 0, Call.tick, Call.brelse 7 0]

/-- The state and the counts of unmatched calls after `demoSeries`. -/
def demoCounted : State 3 × (Fin 3 → Nat) :=
  (runCounted 13 fresh (fun _ => 0) demoSeries).getD (fresh, fun _ => 0)

/-- A three-slot cache in which block `(1, 10)` was read and released and
slot 0 was then unpinned once more than it was pinned. -/
def demoWrapped : State 3 :=
  (runCalls 13 fresh [Call.bread 7 1 10, Call.brelse 7 0, Call.bunpin 0]).getD fresh

/-- A three-slot cache in which process 7 holds the lock of slot 0 for block
`(1, 10)` while an early `bunpin` has already brought its `refcnt` to 0. -/
def demoUnpinned : State 3 :=
  (runCalls 13 fresh [Call.bread 7 1 10, Call.bunpin 0]).getD fresh

/-- The fields of a slot record other than the link and the payload:
`(valid, dev, blockno, lock, refcnt, ticks)`. -/
def Buf.info (a : Buf NBUF) : Bool × Nat × Nat × Option Nat × Nat × Nat :=
  (a.valid, a.dev, a.blockno, a.lock, a.refcnt, a.ticks)

/-- The chains after slot `r` has been recycled for a block number `blockno`:
`r` leaves the chain it was on and becomes the head of the chain of bucket
`HASH(blockno)`; the other members keep their order. -/
def recycledChains (BUCKETNUM : Nat) (L : Nat → List (Fin NBUF)) (r : Fin NBUF)
    (blockno : Nat) : Nat → List (Fin NBUF) :=
  fun h => if h = HASH BUCKETNUM blockno then r :: (L h).erase r else (L h).erase r

/-- Successive `bread` calls, one per request `(pid, dev, blockno)`, with no
release in between; the result is the final state and the slots returned, in
the order of the requests.  `none` when one of the calls does not return. -/
def breadSeq (BUCKETNUM : Nat) :
    State NBUF → List (Nat × Nat × Nat) → Option (State NBUF × List (Fin NBUF))
  | s, [] => some (s, [])
  | s, (pid, dev, blockno) :: rest =>
    match bread BUCKETNUM s pid dev blockno with
    | Outcome.ret b s' =>
      match breadSeq BUCKETNUM s' rest with
      | some (sf, bs) => some (sf, b :: bs)
      | none => none
    | _ => none

/-- The situation while blocks are read and none is released: the slots of
`held` are counted once and carry keys of `keys`, the others are unused with
a free sleep lock, and only slots of `held` are on a chain. -/
def AllHeld (BUCKETNUM : Nat) (s : State NBUF) (held : Finset (Fin NBUF))
    (keys : List (Nat × Nat)) : Prop :=
  ∃ L, ChainsOK BUCKETNUM s L ∧
    (∀ h i, i ∈ L h → i ∈ held) ∧
    (∀ i, i ∈ held → (s.buf i).refcnt = 1 ∧ ((s.buf i).dev, (s.buf i).blockno) ∈ keys) ∧
    (∀ i, i ∉ held → (s.buf i).refcnt = 0 ∧ (s.buf i).lock = none)

/-- The key `(dev, blockno)` of a request `(pid, dev, blockno)`. -/
def reqKey (q : Nat × Nat × Nat) : Nat × Nat := (q.2.1, q.2.2)

/-- The state after `k` further timer interrupts (`clockintr`). -/
def advance : Nat → State NBUF → State NBUF
  | 0, s => s
  | k + 1, s => advance k (clockintr s)

/-- The chains of `s` are well formed and the slots on them are exactly those
of `C`. -/
def Snap (BUCKETNUM : Nat) (s : State NBUF) (C : Finset (Fin NBUF)) : Prop :=
  ∃ L, ChainsOK BUCKETNUM s L ∧ ∀ i, (∃ h, i ∈ L h) ↔ i ∈ C

/-- One `bread` of `key` after `dRead` timer interrupts, then, after `dRel`
more, the `brelse` of the slot returned. -/
def readRelease (BUCKETNUM : Nat) (s : State NBUF) (pid : Nat) (key : Nat × Nat)
    (dRead dRel : Nat) : Option (Fin NBUF × State NBUF) :=
  match bread BUCKETNUM (advance dRead s) pid key.1 key.2 with
  | Outcome.ret b s1 =>
    match brelse (advance dRel s1) pid b with
    | Outcome.ret _ s2 => some (b, s2)
    | _ => none
  | _ => none

/-- Scenario 2: read and release `k1`, read and release `k2`, read `k3`, with
`d0 .. d4` timer interrupts before the five calls.  The result is the three
slots returned and the final state. -/
def scenario2 (BUCKETNUM : Nat) (s : State NBUF) (pid : Nat) (k1 k2 k3 : Nat × Nat)
    (d0 d1 d2 d3 d4 : Nat) : Option (Fin NBUF × Fin NBUF × Fin NBUF × State NBUF) :=
  match readRelease BUCKETNUM s pid k1 d0 d1 with
  | none => none
  | some (b1, s2) =>
    match readRelease BUCKETNUM s2 pid k2 d2 d3 with
    | none => none
    | some (b2, s4) =>
      match bread BUCKETNUM (advance d4 s4) pid k3.1 k3.2 with
      | Outcome.ret b3 s5 => some (b1, b2, b3, s5)
      | _ => none

/-- Scenario 2 on a fresh two-slot cache with the keys `(1, 10)`, `(1, 20)`,
`(1, 30)` while the timer does not tick. -/
def demoNoTick : Option (Fin 2 × Fin 2 × Fin 2 × State 2) :=
  scenario2 13 fresh 7 (1, 10) (1, 20) (1, 30) 0 0 0 0 0

/-- A series with timer interrupts: read `(1, 10)`, two ticks, read `(1, 20)`,
release it, one more tick. -/
def demoTicking : List (Call 3) :=
  [Call.bread 7 1 10, Call.tick, Call.tick, Call.bread 8 1 20, Call.brelse 8 1, Call.tick]

/-- The state after `demoTicking` on a fresh three-slot cache. -/
def demoTicked : State 3 :=
  (runCalls 13 fresh demoTicking).getD fresh

/-! ## Lock events of one process -/

/-- The spinlocks of `bio.c`: `bcache.lock` and `buckets[h].lock`. -/
inductive Lock where
  | bcache
  | bucket (h : Nat)
deriving DecidableEq

/-- What a process does to locks and to the driver, in program order. -/
inductive Event (NBUF : Nat) where
  | acquire (l : Lock)
  | release (l : Lock)
  | acquiresleep (b : Fin NBUF)
  | releasesleep (b : Fin NBUF)
  | virtio_disk_rw (b : Fin NBUF) (write : Bool)
deriving DecidableEq

/-- The call `bget(dev, blockno)` with the list of its lock events, statement
by statement.  A walk that never ends keeps the lock it was started under. -/
def bget_tr (BUCKETNUM : Nat) (s : State NBUF) (pid dev blockno : Nat) :
    Outcome NBUF (Fin NBUF) × List (Event NBUF) :=
  match lookup BUCKETNUM s dev blockno with
  | Lookup.hang => (Outcome.hang, [Event.acquire (Lock.bucket (HASH BUCKETNUM blockno))])
  | Lookup.hit b =>
    (bget_sleep (bget_hit s b) pid b,
      [Event.acquire (Lock.bucket (HASH BUCKETNUM blockno)),
       Event.release (Lock.bucket (HASH BUCKETNUM blockno)),
       Event.acquiresleep b])
  | Lookup.miss =>
    match scan s with
    | none =>
      (Outcome.panic "bget: no buffers" s,
        [Event.acquire (Lock.bucket (HASH BUCKETNUM blockno)),
         Event.release (Lock.bucket (HASH BUCKETNUM blockno)),
         Event.acquire Lock.bcache])
    | some r =>
      match bget_recycle BUCKETNUM s r dev blockno with
      | none =>
        (Outcome.hang,
          [Event.acquire (Lock.bucket (HASH BUCKETNUM blockno)),
           Event.release (Lock.bucket (HASH BUCKETNUM blockno)),
           Event.acquire Lock.bcache,
           Event.acquire (Lock.bucket (HASH BUCKETNUM (s.buf r).blockno))])
      | some s1 =>
        (bget_sleep (buckets_insert BUCKETNUM s1 r) pid r,
          [Event.acquire (Lock.bucket (HASH BUCKETNUM blockno)),
           Event.release (Lock.bucket (HASH BUCKETNUM blockno)),
           Event.acquire Lock.bcache,
           Event.acquire (Lock.bucket (HASH BUCKETNUM (s.buf r).blockno)),
           Event.release (Lock.bucket (HASH BUCKETNUM (s.buf r).blockno)),
           Event.release Lock.bcache,
           Event.acquire (Lock.bucket (HASH BUCKETNUM blockno)),
           Event.release (Lock.bucket (HASH BUCKETNUM blockno)),
           Event.acquiresleep r])

/-- The call `bread(dev, blockno)` with its events. -/
def bread_tr (BUCKETNUM : Nat) (s : State NBUF) (pid dev blockno : Nat) :
    Outcome NBUF (Fin NBUF) × List (Event NBUF) :=
  match bget_tr BUCKETNUM s pid dev blockno with
  | (Outcome.ret b s1, ev) =>
    (Outcome.ret b (bread_fill s1 b),
      if (s1.buf b).valid then ev else ev ++ [Event.virtio_disk_rw b false])
  | (Outcome.panic msg s1, ev) => (Outcome.panic msg s1, ev)
  | (Outcome.blocked s1, ev) => (Outcome.blocked s1, ev)
  | (Outcome.hang, ev) => (Outcome.hang, ev)

/-- The call `bwrite(b)` with its events. -/
def bwrite_tr (s : State NBUF) (pid : Nat) (b : Fin NBUF) :
    Outcome NBUF Unit × List (Event NBUF) :=
  if holdingsleep s pid b then
    (Outcome.ret () (virtio_disk_rw s b true), [Event.virtio_disk_rw b true])
  else (Outcome.panic "bwrite" s, [])

/-- The call `brelse(b)` with its events. -/
def brelse_tr (BUCKETNUM : Nat) (s : State NBUF) (pid : Nat) (b : Fin NBUF) :
    Outcome NBUF Unit × List (Event NBUF) :=
  if holdingsleep s pid b then
    (Outcome.ret () (brelse_dec (releasesleep s b) b),
      [Event.releasesleep b,
       Event.acquire (Lock.bucket (HASH BUCKETNUM (s.buf b).blockno)),
       Event.release (Lock.bucket (HASH BUCKETNUM (s.buf b).blockno))])
  else (Outcome.panic "brelse" s, [])

/-- The call `bpin(b)` with its events. -/
def bpin_tr (BUCKETNUM : Nat) (s : State NBUF) (b : Fin NBUF) :
    State NBUF × List (Event NBUF) :=
  (bpin s b,
    [Event.acquire (Lock.bucket (HASH BUCKETNUM (s.buf b).blockno)),
     Event.release (Lock.bucket (HASH BUCKETNUM (s.buf b).blockno))])

/-- The call `bunpin(b)` with its events. -/
def bunpin_tr (BUCKETNUM : Nat) (s : State NBUF) (b : Fin NBUF) :
    State NBUF × List (Event NBUF) :=
  (bunpin s b,
    [Event.acquire (Lock.bucket (HASH BUCKETNUM (s.buf b).blockno)),
     Event.release (Lock.bucket (HASH BUCKETNUM (s.buf b).blockno))])

/-- The spinlocks held after event `e`, oldest first, given those held
before.  `none` when a lock already held is acquired again or when the lock
released is not the one acquired last. -/
def lockStep (held : List Lock) : Event NBUF → Option (List Lock)
  | Event.acquire l => if l ∈ held then none else some (held ++ [l])
  | Event.release l => if held.getLast? = some l then some held.dropLast else none
  | _ => some held

/-- The spinlocks held after a list of events. -/
def locksHeld : List Lock → List (Event NBUF) → Option (List Lock)
  | held, [] => some held
  | held, e :: es =>
    match lockStep held e with
    | none => none
    | some held' => locksHeld held' es

/-- The combinations of spinlocks a process may hold: none, one bucket lock,
`bcache.lock`, or `bcache.lock` taken first and one bucket lock inside it. -/
def lockShape : List Lock → Bool
  | [] => true
  | [Lock.bucket _] => true
  | [Lock.bcache] => true
  | [Lock.bcache, Lock.bucket _] => true
  | _ => false

/-- Event `e` is a call that may suspend the process. -/
def Event.blocking : Event NBUF → Bool
  | Event.acquiresleep _ => true
  | Event.virtio_disk_rw _ _ => true
  | _ => false

/-- Check a list of events from the locks `held`: every release is of the
lock acquired last, no held lock is acquired again, the locks held after each
event have a permitted shape, and (when `strict`) no spinlock is held at a
blocking call. -/
def wellLocked (strict : Bool) : List Lock → List (Event NBUF) → Bool
  | held, [] => lockShape held
  | held, e :: es =>
    lockShape held && (!(strict && e.blocking) || decide (held = [])) &&
      match lockStep held e with
      | none => false
      | some held' => wellLocked strict held' es

/-- Along the events `t` of one process, at every point the spinlocks held
are defined (each release is of the lock acquired last) and are none, one
bucket lock, `bcache.lock`, or `bcache.lock` with one bucket lock acquired
inside it. -/
def NestedLocks (t : List (Event NBUF)) : Prop :=
  ∀ k, ∃ held, locksHeld [] (t.take k) = some held ∧
    (held = [] ∨ (∃ h, held = [Lock.bucket h]) ∨ held = [Lock.bcache] ∨
      ∃ h, held = [Lock.bcache, Lock.bucket h])

/-- Along the events `t` of one process, no spinlock is held when a blocking
call (`acquiresleep`, `virtio_disk_rw`) is made. -/
def NoLockAtBlocking (t : List (Event NBUF)) : Prop :=
  ∀ k e, t.get? k = some e → e.blocking = true → locksHeld [] (t.take k) = some []

/-- The pointer reached from `p` after `k` steps along `next`; null stays
null. -/
def walk (s : State NBUF) : Nat → Option (Fin NBUF) → Option (Fin NBUF)
  | 0, p => p
  | _ + 1, none => none
  | k + 1, some b => walk s k (s.buf b).next

/-- A three-slot cache in which blocks `(1, 10)` and `(1, 23)`, both of bucket
10, have been read and then released: the chain of bucket 10 is slot 1
followed by slot 0. -/
def demoChained : State 3 :=
  (runCalls 13 fresh
    [Call.bread 7 1 10, Call.bread 7 1 23, Call.brelse 7 0, Call.brelse 7 1]).getD fresh

/-- A three-slot cache in which every slot is held: blocks `(1, 10)`,
`(1, 11)` and `(1, 12)` have been read and none released. -/
def demoFull : State 3 :=
  (runCalls 13 fresh [Call.bread 7 1 10, Call.bread 7 1 11, Call.bread 7 1 12]).getD fresh

/-! ## Several processes inside `bget`: one step per lock acquisition

The victim scan of `bget` runs under `bcache.lock` alone, the chain search and
the increment on a hit under a bucket lock alone.  Here the section under
`bcache.lock` is cut where `bget` takes the bucket lock of the victim, so
that the steps of a process that holds only a bucket lock can fall between
the scan and the unlinking. -/

/-- Where a process stands inside `bget`.  The points are the places of
`bio.c` where the process holds no bucket lock; at `unlink` and `init` it
holds `bcache.lock`. -/
inductive BgetPC (NBUF : Nat) where
  /-- before `acquire(&buckets[hash_in].lock)` and the chain search -/
  | search (dev blockno : Nat)
  /-- the search missed; before `acquire(&bcache.lock)` and the victim scan -/
  | evict (dev blockno : Nat)
  /-- holding `bcache.lock`, the scan has chosen `recycle`; before
  `acquire(&buckets[hash_out].lock)` -/
  | unlink (recycle : Fin NBUF) (dev blockno : Nat)
  /-- holding `bcache.lock`, the bucket lock released after `buckets_remove`;
  before `recycle->dev = dev` -/
  | init (recycle : Fin NBUF) (dev blockno : Nat)
  /-- after `release(&bcache.lock)`; before the insertion of `recycle` -/
  | insert (recycle : Fin NBUF)
  /-- before `acquiresleep(&b->lock)` -/
  | sleep (b : Fin NBUF)
  /-- after `return b` -/
  | returned (b : Fin NBUF)
  /-- stopped in `panic` -/
  | panicked (msg : String)
  /-- caught in a chain walk that never ends -/
  | spinning
deriving DecidableEq

/-- One step of process `pid` standing at `pc` inside `bget`, with `big` the
holder of `bcache.lock`: the code up to the next point of `BgetPC`.  A bucket
lock is taken and released inside one step, so it is free between steps.
`none` when the process cannot move: it has returned or stopped, it spins on
`bcache.lock`, or it is asleep on a held sleep lock. -/
def bget_step (BUCKETNUM : Nat) (s : State NBUF) (big : Option Nat) (pid : Nat) :
    BgetPC NBUF → Option (State NBUF × Option Nat × BgetPC NBUF)
  | BgetPC.search dev blockno =>
    match lookup BUCKETNUM s dev blockno with
    | Lookup.hit b => some (bget_hit s b, big, BgetPC.sleep b)
    | Lookup.miss => some (s, big, BgetPC.evict dev blockno)
    | Lookup.hang => some (s, big, BgetPC.spinning)
  | BgetPC.evict dev blockno =>
    match big with
    | some _ => none
    | none =>
      match scan s with
      | none => some (s, some pid, BgetPC.panicked "bget: no buffers")
      | some r => some (s, some pid, BgetPC.unlink r dev blockno)
  | BgetPC.unlink r dev blockno =>
    match buckets_remove BUCKETNUM s r with
    | none => some (s, big, BgetPC.spinning)
    | some s1 => some (s1, big, BgetPC.init r dev blockno)
  | BgetPC.init r dev blockno => some (bget_init s r dev blockno, none, BgetPC.insert r)
  | BgetPC.insert r => some (buckets_insert BUCKETNUM s r, big, BgetPC.sleep r)
  | BgetPC.sleep b =>
    match acquiresleep s pid b with
    | none => none
    | some s1 => some (s1, big, BgetPC.returned b)
  | BgetPC.returned _ => none
  | BgetPC.panicked _ => none
  | BgetPC.spinning => none

/-- The shared state, the holder of `bcache.lock` and the position of every
process inside `bget`; process `i` is the one with pid `i`. -/
structure BgetConfig (NBUF : Nat) where
  st : State NBUF
  big : Option Nat
  pcs : List (BgetPC NBUF)

/-- Let process `pid` take one step; nothing happens when it cannot move. -/
def BgetConfig.step (BUCKETNUM : Nat) (c : BgetConfig NBUF) (pid : Nat) : BgetConfig NBUF :=
  match c.pcs.get? pid with
  | none => c
  | some pc =>
    match bget_step BUCKETNUM c.st c.big pid pc with
    | none => c
    | some (s', big', pc') => { st := s', big := big', pcs := c.pcs.set pid pc' }

/-- Run the processes in the order given by the schedule. -/
def BgetConfig.run (BUCKETNUM : Nat) (c : BgetConfig NBUF) (sched : List Nat) :
    BgetConfig NBUF :=
  sched.foldl (BgetConfig.step BUCKETNUM) c

/-- A three-slot cache in which block `(1, 10)` was read into slot 0 and
released: slot 0 is valid, on the chain of bucket 10, with `refcnt == 0`. -/
def demoReleased : State 3 :=
  (runCalls 13 fresh [Call.bread 7 1 10, Call.brelse 7 0]).getD fresh

/-- On `demoReleased`, process 0 has just called `bget(1, 10)`, the block in
slot 0, and process 1 has just called `bget(1, 20)`, a block not cached. -/
def hitAndMiss : BgetConfig 3 :=
  { st := demoReleased, big := none, pcs := [BgetPC.search 1 10, BgetPC.search 1 20] }

end Bio

namespace Kalloc

/-! ## Physical page allocator of `kernel/kalloc.c` (LAB_LOCK variant)

A free list `kmem[i].freelist`, linked through `run->next`, is the list of the
addresses of its pages, head first; the null pointer is the empty list.  A page
has one `next` field, so the lists stand for the memory only while no page is
on two of them or twice on one; `kfree` and `kalloc` keep it so.
`NCPU` comes from `param.h` and is a parameter.  One CPU runs at a time, so
the spinlocks play no part. -/

/-- The free lists `kmem[i].freelist`, one per CPU. -/
abbrev Kmem := Nat → List Nat

/-- The search loop of `mem_steal`: the first CPU `i < NCPU` other than the
stealer whose free list is not empty; `none` stands for `victim == -1`. -/
def findVictim (NCPU : Nat) (kmem : Kmem) (stealer : Nat) : Option Nat :=
  (List.range NCPU).find? (fun i => decide (i ≠ stealer) && decide (kmem i ≠ []))

/-- The value `stealcnt = (freecnt == 1) ? 1 : (freecnt / 2)`, where `freecnt`
is the length of the victim's list.  Both are `int` in the source; the pages
that `kfree` accepts lie below `PHYSTOP`, far fewer than `2 ^ 31`, and the
count is taken in the natural numbers. -/
def stealCount (freecnt : Nat) : Nat :=
  if freecnt = 1 then 1 else freecnt / 2

/-- The loop `while (stealcnt--)` of `mem_steal` on the stealer's and the
victim's lists: each round moves the head of the victim's list to the head of
the stealer's list.  (`stealcnt` never exceeds the length of the victim's
list, so the loop does not run on an empty victim list.) -/
def stealLoop : Nat → List Nat → List Nat → List Nat × List Nat
  | 0, st, vi => (st, vi)
  | _ + 1, st, [] => (st, [])
  | k + 1, st, p :: vi => stealLoop k (p :: st) vi

/-- Function `mem_steal(stealer)`. -/
def mem_steal (NCPU : Nat) (kmem : Kmem) (stealer : Nat) : Kmem :=
  match findVictim NCPU kmem stealer with
  | none => kmem
  | some victim =>
    Function.update
      (Function.update kmem stealer
        (stealLoop (stealCount (kmem victim).length) (kmem stealer) (kmem victim)).1)
      victim (stealLoop (stealCount (kmem victim).length) (kmem stealer) (kmem victim)).2

/-- Function `kalloc()` run on CPU `cpu_id`: the page returned (`none` for the
null pointer) and the free lists afterwards. -/
def kalloc (NCPU : Nat) (kmem : Kmem) (cpu_id : Nat) : Option Nat × Kmem :=
  match kmem cpu_id with
  | r :: rest => (some r, Function.update kmem cpu_id rest)
  | [] =>
    match mem_steal NCPU kmem cpu_id cpu_id with
    | r :: rest => (some r, Function.update (mem_steal NCPU kmem cpu_id) cpu_id rest)
    | [] => (none, mem_steal NCPU kmem cpu_id)

/-- The number of times page `a` occurs on the free lists of the CPUs
`0 .. NCPU-1` taken together. -/
def pageCount (NCPU : Nat) (kmem : Kmem) (a : Nat) : Nat :=
  ((List.range NCPU).map (fun i => (kmem i).count a)).sum

/-- Free lists of four CPUs: CPU 0 and CPU 1 have none, CPU 2 has five pages,
CPU 3 has one. -/
def demoKmem : Kmem :=
  fun i => if i = 2 then [4096, 8192, 12288, 16384, 20480] else if i = 3 then [24576] else []


/-! ### The same code on the memory itself

The lists above stand for linked memory.  Here `mem_steal` is written once
more on the pointers, as the source has it, to show that on free lists that
are null-terminated and share no page it returns and does to the lists what
the functions above do. -/

/-- The memory of the allocator: the heads `kmem[i].freelist` and the field
`next` of the `struct run` at the start of each page, by page address.  The
null pointer is `none`. -/
structure Mem where
  freelist : Nat → Option Nat
  next : Nat → Option Nat

/-- The search loop of `mem_steal` on the memory: the first `i < NCPU` other
than the stealer with `kmem[i].freelist` not null. -/
def Mem.findVictim (NCPU : Nat) (m : Mem) (stealer : Nat) : Option Nat :=
  (List.range NCPU).find? (fun i => decide (i ≠ stealer) && (m.freelist i).isSome)

/-- The loop `while (run != 0) { freecnt++; run = run->next; }`.  The first
argument is fuel; `none` says that the fuel ran out. -/
def Mem.countLoop (m : Mem) : Nat → Option Nat → Nat → Option Nat
  | 0, _, _ => none
  | _ + 1, none, freecnt => some freecnt
  | fuel + 1, some run, freecnt => Mem.countLoop m fuel (m.next run) (freecnt + 1)

/-- One round of the loop `while (stealcnt--)`, statement by statement; `none`
is the dereference of a null pointer. -/
def Mem.stealRound (m : Mem) (stealer victim : Nat) : Option Mem :=
  match Function.update m.freelist stealer (m.freelist victim) victim with
  | none => none
  | some head =>
    match Function.update (Function.update m.freelist stealer (m.freelist victim))
        victim (m.next head) stealer with
    | none => none
    | some moved =>
      some
        { freelist :=
            Function.update (Function.update m.freelist stealer (m.freelist victim))
              victim (m.next head)
          next := Function.update m.next moved (m.freelist stealer) }

/-- The loop `while (stealcnt--)` for a count that is not negative. -/
def Mem.stealLoop (stealer victim : Nat) : Nat → Mem → Option Mem
  | 0, m => some m
  | stealcnt + 1, m =>
    match m.stealRound stealer victim with
    | none => none
    | some m1 => Mem.stealLoop stealer victim stealcnt m1

/-- Function `mem_steal(stealer)` on the memory.  The counting loop has
`PHYSTOP + 1` units of fuel: a list of distinct pages below `PHYSTOP` is
shorter.  `none` says that the call does not return. -/
def Mem.mem_steal (NCPU PHYSTOP : Nat) (m : Mem) (stealer : Nat) : Option Mem :=
  match m.findVictim NCPU stealer with
  | none => some m
  | some victim =>
    match m.countLoop (PHYSTOP + 1) (m.freelist victim) 0 with
    | none => none
    | some freecnt => Mem.stealLoop stealer victim (stealCount freecnt) m

/-- The pointer `head` leads through `next` along exactly the pages of the
list and then to null. -/
def IsList (next : Nat → Option Nat) : Option Nat → List Nat → Prop
  | head, [] => head = none
  | head, p :: l => head = some p ∧ IsList next (next p) l

instance IsList.instDecidable (next : Nat → Option Nat) :
    ∀ (head : Option Nat) (l : List Nat), Decidable (IsList next head l)
  | head, [] => inferInstanceAs (Decidable (head = none))
  | head, p :: l =>
    @instDecidableAnd _ _ (inferInstanceAs (Decidable (head = some p)))
      (IsList.instDecidable next (next p) l)

/-- The pages of the free lists of the CPUs `0 .. NCPU-1`, one list after the
other. -/
def allPages : Nat → Kmem → List Nat
  | 0, _ => []
  | n + 1, kmem => allPages n kmem ++ kmem n

/-- The lists `kmem` are what the memory `m` holds: each head leads along its
list to null, no page is on two lists or twice on one, and every page lies
below `PHYSTOP`. -/
def Represents (NCPU PHYSTOP : Nat) (m : Mem) (kmem : Kmem) : Prop :=
  (∀ i, i < NCPU → IsList m.next (m.freelist i) (kmem i)) ∧
  (allPages NCPU kmem).Nodup ∧
  ∀ a, a ∈ allPages NCPU kmem → a < PHYSTOP

instance Represents.instDecidable (NCPU PHYSTOP : Nat) (m : Mem) (kmem : Kmem) :
    Decidable (Represents NCPU PHYSTOP m kmem) := by
  unfold Represents
  infer_instance

/-- The memory that holds `demoKmem`. -/
def demoMem : Mem where
  freelist := fun i => if i = 2 then some 4096 else if i = 3 then some 24576 else none
  next := fun a =>
    if a = 4096 then some 8192 else if a = 8192 then some 12288
    else if a = 12288 then some 16384 else if a = 16384 then some 20480 else none

end Kalloc

namespace Bio

variable {NBUF : Nat}
/-! ## Basic facts about the state updates -/

@[simp] theorem setBuf_buf_same (s : State NBUF) (b : Fin NBUF) (v : Buf NBUF) :
    (s.setBuf b v).buf b = v := by
  simp [State.setBuf]

theorem setBuf_buf_ne (s : State NBUF) (b : Fin NBUF) (v : Buf NBUF) (i : Fin NBUF)
    (h : i ≠ b) : (s.setBuf b v).buf i = s.buf i := by
  simp [State.setBuf, Function.update_noteq h]

theorem setBuf_buf (s : State NBUF) (b : Fin NBUF) (v : Buf NBUF) (i : Fin NBUF) :
    (s.setBuf b v).buf i = if i = b then v else s.buf i := by
  by_cases h : i = b
  · subst h; simp
  · simp [setBuf_buf_ne _ _ _ _ h, h]

@[simp] theorem setBuf_head (s : State NBUF) (b : Fin NBUF) (v : Buf NBUF) :
    (s.setBuf b v).head = s.head := rfl

@[simp] theorem setBuf_ticks (s : State NBUF) (b : Fin NBUF) (v : Buf NBUF) :
    (s.setBuf b v).ticks = s.ticks := rfl

@[simp] theorem setBuf_disk (s : State NBUF) (b : Fin NBUF) (v : Buf NBUF) :
    (s.setBuf b v).disk = s.disk := rfl

@[simp] theorem setBuf_io (s : State NBUF) (b : Fin NBUF) (v : Buf NBUF) :
    (s.setBuf b v).io = s.io := rfl

@[simp] theorem setHead_buf (s : State NBUF) (h : Nat) (p : Option (Fin NBUF)) :
    (s.setHead h p).buf = s.buf := rfl

@[simp] theorem setHead_ticks (s : State NBUF) (h : Nat) (p : Option (Fin NBUF)) :
    (s.setHead h p).ticks = s.ticks := rfl

@[simp] theorem setHead_disk (s : State NBUF) (h : Nat) (p : Option (Fin NBUF)) :
    (s.setHead h p).disk = s.disk := rfl

@[simp] theorem setHead_io (s : State NBUF) (h : Nat) (p : Option (Fin NBUF)) :
    (s.setHead h p).io = s.io := rfl

theorem setHead_head (s : State NBUF) (h : Nat) (p : Option (Fin NBUF)) (k : Nat) :
    (s.setHead h p).head k = if k = h then p else s.head k := by
  by_cases hk : k = h
  · subst hk; simp [State.setHead]
  · simp [State.setHead, Function.update_noteq hk, hk]

theorem Buf.eqUpToNext_refl (a : Buf NBUF) : a.eqUpToNext a := ⟨a.next, rfl⟩

/-- What `buckets_remove` may touch: `next` pointers and bucket heads only. -/
theorem removeLoop_frame (s : State NBUF) (item : Fin NBUF) :
    ∀ (fuel : Nat) (b : Fin NBUF) (s' : State NBUF), removeLoop s item fuel b = some s' →
      (∀ i, (s'.buf i).eqUpToNext (s.buf i)) ∧ s'.head = s.head ∧ s'.ticks = s.ticks ∧
        s'.disk = s.disk ∧ s'.io = s.io := by
  intro fuel
  induction fuel with
  | zero => intro b s' h; simp [removeLoop] at h
  | succ f ih =>
    intro b s' h
    unfold removeLoop at h
    split at h
    · cases h
      exact ⟨fun i => Buf.eqUpToNext_refl _, rfl, rfl, rfl, rfl⟩
    · rename_i nx _
      by_cases hnx : nx = item
      · rw [if_pos hnx] at h
        cases h
        refine ⟨fun i => ?_, rfl, rfl, rfl, rfl⟩
        rw [setBuf_buf]
        by_cases hi : i = b
        · subst hi; rw [if_pos rfl]; exact ⟨_, rfl⟩
        · rw [if_neg hi]; exact Buf.eqUpToNext_refl _
      · rw [if_neg hnx] at h
        exact ih nx s' h

theorem buckets_remove_frame (BUCKETNUM : Nat) (s s' : State NBUF) (item : Fin NBUF)
    (h : buckets_remove BUCKETNUM s item = some s') :
    (∀ i, (s'.buf i).eqUpToNext (s.buf i)) ∧ s'.ticks = s.ticks ∧
      s'.disk = s.disk ∧ s'.io = s.io := by
  unfold buckets_remove at h
  simp only at h
  split at h
  · cases h
    exact ⟨fun i => Buf.eqUpToNext_refl _, rfl, rfl, rfl⟩
  · rename_i hd _
    by_cases hh : hd = item
    · rw [if_pos hh] at h
      cases h
      exact ⟨fun i => Buf.eqUpToNext_refl _, rfl, rfl, rfl⟩
    · rw [if_neg hh] at h
      obtain ⟨h1, _, h3, h4, h5⟩ := removeLoop_frame s item _ _ _ h
      exact ⟨h1, h3, h4, h5⟩


/-! ## The victim scan -/

theorem scan_foldl_post (s : State NBUF) (l : List (Fin NBUF))
    (hl : l.Pairwise (· < ·)) : ScanPost s l (l.foldl (scanStep s) none) := by
  induction l using List.reverseRecOn with
  | nil => simp [ScanPost]
  | append_singleton l b ih =>
    rw [List.pairwise_append] at hl
    obtain ⟨hl1, -, hlt⟩ := hl
    have ih := ih hl1
    rw [List.foldl_append]
    simp only [List.foldl_cons, List.foldl_nil]
    have hb : ∀ a ∈ l, a < b := fun a ha => hlt a ha b (by simp)
    cases hacc : l.foldl (scanStep s) none with
    | none =>
      rw [hacc] at ih
      simp only [ScanPost] at ih
      by_cases h0 : (s.buf b).refcnt = 0
      · simp only [scanStep, if_pos h0, ScanPost]
        refine ⟨by simp, h0, ?_, ?_⟩
        · intro j hj hj0
          rcases List.mem_append.1 hj with hj | hj
          · exact absurd hj0 (ih j hj)
          · simp at hj; subst hj; exact le_refl _
        · intro j hj hj0 _
          rcases List.mem_append.1 hj with hj | hj
          · exact absurd hj0 (ih j hj)
          · simp at hj; subst hj; exact le_refl _
      · simp only [scanStep, if_neg h0, ScanPost]
        intro j hj
        rcases List.mem_append.1 hj with hj | hj
        · exact ih j hj
        · simp at hj; subst hj; exact h0
    | some r =>
      rw [hacc] at ih
      simp only [ScanPost] at ih
      obtain ⟨hr, hr0, hmin, hfirst⟩ := ih
      by_cases h0 : (s.buf b).refcnt = 0
      · by_cases hlt2 : (s.buf b).ticks < (s.buf r).ticks
        · simp only [scanStep, if_pos h0, if_pos hlt2, ScanPost]
          refine ⟨by simp, h0, ?_, ?_⟩
          · intro j hj hj0
            rcases List.mem_append.1 hj with hj | hj
            · have := hmin j hj hj0; omega
            · simp at hj; subst hj; exact le_refl _
          · intro j hj hj0 hje
            rcases List.mem_append.1 hj with hj | hj
            · have := hmin j hj hj0; omega
            · simp at hj; subst hj; exact le_refl _
        · simp only [scanStep, if_pos h0, if_neg hlt2, ScanPost]
          refine ⟨by simp [hr], hr0, ?_, ?_⟩
          · intro j hj hj0
            rcases List.mem_append.1 hj with hj | hj
            · exact hmin j hj hj0
            · simp at hj; subst hj; omega
          · intro j hj hj0 hje
            rcases List.mem_append.1 hj with hj | hj
            · exact hfirst j hj hj0 hje
            · simp at hj; subst hj; exact le_of_lt (hb r hr)
      · simp only [scanStep, if_neg h0, ScanPost]
        refine ⟨by simp [hr], hr0, ?_, ?_⟩
        · intro j hj hj0
          rcases List.mem_append.1 hj with hj | hj
          · exact hmin j hj hj0
          · simp at hj; subst hj; exact absurd hj0 h0
        · intro j hj hj0 hje
          rcases List.mem_append.1 hj with hj | hj
          · exact hfirst j hj hj0 hje
          · simp at hj; subst hj; exact absurd hj0 h0

theorem finRange_pairwise_lt (n : Nat) : (List.finRange n).Pairwise (· < ·) := by
  exact List.pairwise_lt_finRange n

theorem scan_some (s : State NBUF) (r : Fin NBUF) (h : scan s = some r) : FirstLeast s r := by
  have hp := scan_foldl_post s (List.finRange NBUF) (finRange_pairwise_lt NBUF)
  unfold scan at h
  rw [h] at hp
  obtain ⟨_, h0, hmin, hfirst⟩ := hp
  exact ⟨h0, fun j hj => hmin j (List.mem_finRange j) hj,
    fun j hj he => hfirst j (List.mem_finRange j) hj he⟩

theorem scan_none (s : State NBUF) (h : scan s = none) : ∀ j, (s.buf j).refcnt ≠ 0 := by
  have hp := scan_foldl_post s (List.finRange NBUF) (finRange_pairwise_lt NBUF)
  unfold scan at h
  rw [h] at hp
  exact fun j => hp j (List.mem_finRange j)

theorem scan_eq_none_iff (s : State NBUF) : scan s = none ↔ ∀ j, (s.buf j).refcnt ≠ 0 := by
  constructor
  · exact scan_none s
  · intro h
    cases hs : scan s with
    | none => rfl
    | some r => exact absurd (scan_some s r hs).1 (h r)

theorem firstLeast_unique (s : State NBUF) (a b : Fin NBUF) (ha : FirstLeast s a)
    (hb : FirstLeast s b) : a = b := by
  obtain ⟨a0, amin, afirst⟩ := ha
  obtain ⟨b0, bmin, bfirst⟩ := hb
  have h1 := amin b b0
  have h2 := bmin a a0
  have he : (s.buf a).ticks = (s.buf b).ticks := le_antisymm h1 h2
  exact le_antisymm (afirst b b0 he.symm) (bfirst a a0 he)

/-! ## Frame facts for `bget` -/

theorem Buf.eqUpToNext.fields {a b : Buf NBUF} (h : a.eqUpToNext b) :
    a.valid = b.valid ∧ a.disk = b.disk ∧ a.dev = b.dev ∧ a.blockno = b.blockno ∧
      a.lock = b.lock ∧ a.refcnt = b.refcnt ∧ a.ticks = b.ticks ∧ a.data = b.data := by
  obtain ⟨nx, rfl⟩ := h
  exact ⟨rfl, rfl, rfl, rfl, rfl, rfl, rfl, rfl⟩

theorem bget_sleep_cases (s : State NBUF) (pid : Nat) (b : Fin NBUF) :
    ((s.buf b).lock = none ∧
      bget_sleep s pid b = Outcome.ret b (s.setBuf b { s.buf b with lock := some pid })) ∨
    ((s.buf b).lock ≠ none ∧ bget_sleep s pid b = Outcome.blocked s) := by
  unfold bget_sleep acquiresleep
  cases h : (s.buf b).lock with
  | none => left; simp
  | some q => right; simp

theorem bget_of_hit (BUCKETNUM : Nat) (s : State NBUF) (pid dev blockno : Nat) (b : Fin NBUF)
    (h : lookup BUCKETNUM s dev blockno = Lookup.hit b) :
    bget BUCKETNUM s pid dev blockno = bget_sleep (bget_hit s b) pid b := by
  unfold bget; rw [h]

theorem bget_of_hang (BUCKETNUM : Nat) (s : State NBUF) (pid dev blockno : Nat)
    (h : lookup BUCKETNUM s dev blockno = Lookup.hang) :
    bget BUCKETNUM s pid dev blockno = Outcome.hang := by
  unfold bget; rw [h]

theorem bget_of_miss_none (BUCKETNUM : Nat) (s : State NBUF) (pid dev blockno : Nat)
    (h : lookup BUCKETNUM s dev blockno = Lookup.miss) (hs : scan s = none) :
    bget BUCKETNUM s pid dev blockno = Outcome.panic "bget: no buffers" s := by
  unfold bget; rw [h]; simp only; rw [hs]

theorem bget_of_miss_hang (BUCKETNUM : Nat) (s : State NBUF) (pid dev blockno : Nat)
    (r : Fin NBUF) (h : lookup BUCKETNUM s dev blockno = Lookup.miss) (hs : scan s = some r)
    (hr : bget_recycle BUCKETNUM s r dev blockno = none) :
    bget BUCKETNUM s pid dev blockno = Outcome.hang := by
  unfold bget; rw [h]; simp only; rw [hs]; simp only; rw [hr]

theorem bget_of_miss_some (BUCKETNUM : Nat) (s s1 : State NBUF) (pid dev blockno : Nat)
    (r : Fin NBUF) (h : lookup BUCKETNUM s dev blockno = Lookup.miss) (hs : scan s = some r)
    (hr : bget_recycle BUCKETNUM s r dev blockno = some s1) :
    bget BUCKETNUM s pid dev blockno = bget_sleep (buckets_insert BUCKETNUM s1 r) pid r := by
  unfold bget; rw [h]; simp only; rw [hs]; simp only; rw [hr]

/-- The slot record of `r` after `bget_recycle`: the new key, `valid = 0`,
`refcnt = 1`, the current `ticks`; the lock, the payload and `disk` are kept. -/
theorem bget_recycle_buf_self (BUCKETNUM : Nat) (s s1 : State NBUF) (r : Fin NBUF)
    (dev blockno : Nat) (h : bget_recycle BUCKETNUM s r dev blockno = some s1) :
    (s1.buf r).dev = dev ∧ (s1.buf r).blockno = blockno ∧ (s1.buf r).valid = false ∧
      (s1.buf r).refcnt = 1 ∧ (s1.buf r).ticks = s.ticks ∧ (s1.buf r).lock = (s.buf r).lock ∧
      (s1.buf r).data = (s.buf r).data ∧ (s1.buf r).disk = (s.buf r).disk := by
  unfold bget_recycle at h
  cases hrm : buckets_remove BUCKETNUM s r with
  | none => rw [hrm] at h; simp at h
  | some s0 =>
    rw [hrm] at h
    simp only [Option.some.injEq] at h
    subst h
    obtain ⟨hb, ht, _, _⟩ := buckets_remove_frame BUCKETNUM s s0 r hrm
    obtain ⟨_, hd, _, _, hl, _, _, hda⟩ := (hb r).fields
    simp [bget_init, ht, hl, hda, hd]

theorem bget_recycle_buf_other (BUCKETNUM : Nat) (s s1 : State NBUF) (r : Fin NBUF)
    (dev blockno : Nat) (h : bget_recycle BUCKETNUM s r dev blockno = some s1)
    (i : Fin NBUF) (hi : i ≠ r) : (s1.buf i).eqUpToNext (s.buf i) := by
  unfold bget_recycle at h
  cases hrm : buckets_remove BUCKETNUM s r with
  | none => rw [hrm] at h; simp at h
  | some s0 =>
    rw [hrm] at h
    simp only [Option.some.injEq] at h
    subst h
    obtain ⟨hb, _, _, _⟩ := buckets_remove_frame BUCKETNUM s s0 r hrm
    simp only [bget_init]
    rw [setBuf_buf_ne _ _ _ _ hi]
    exact hb i

theorem bget_recycle_globals (BUCKETNUM : Nat) (s s1 : State NBUF) (r : Fin NBUF)
    (dev blockno : Nat) (h : bget_recycle BUCKETNUM s r dev blockno = some s1) :
    s1.ticks = s.ticks ∧ s1.disk = s.disk ∧ s1.io = s.io := by
  unfold bget_recycle at h
  cases hrm : buckets_remove BUCKETNUM s r with
  | none => rw [hrm] at h; simp at h
  | some s0 =>
    rw [hrm] at h
    simp only [Option.some.injEq] at h
    subst h
    obtain ⟨_, h1, h2, h3⟩ := buckets_remove_frame BUCKETNUM s s0 r hrm
    simp [bget_init, h1, h2, h3]

theorem buckets_insert_buf (BUCKETNUM : Nat) (s : State NBUF) (r i : Fin NBUF) :
    ((buckets_insert BUCKETNUM s r).buf i).eqUpToNext (s.buf i) := by
  simp only [buckets_insert, setHead_buf]
  rw [setBuf_buf]
  by_cases hi : i = r
  · subst hi; rw [if_pos rfl]; exact ⟨_, rfl⟩
  · rw [if_neg hi]; exact Buf.eqUpToNext_refl _

theorem buckets_insert_globals (BUCKETNUM : Nat) (s : State NBUF) (r : Fin NBUF) :
    (buckets_insert BUCKETNUM s r).ticks = s.ticks ∧
      (buckets_insert BUCKETNUM s r).disk = s.disk ∧
      (buckets_insert BUCKETNUM s r).io = s.io := by
  simp [buckets_insert]

/-- The state left by the miss path of `bget` with victim `r`, whether the
final `acquiresleep` succeeds or suspends the caller. -/
theorem bget_miss_state (BUCKETNUM : Nat) (s s1 s' : State NBUF) (pid dev blockno : Nat)
    (r : Fin NBUF) (h : lookup BUCKETNUM s dev blockno = Lookup.miss) (hs : scan s = some r)
    (hr : bget_recycle BUCKETNUM s r dev blockno = some s1)
    (hst : (bget BUCKETNUM s pid dev blockno).state? = some s') :
    (∀ i, i ≠ r → (s'.buf i).eqUpToNext (s.buf i)) ∧
      (s'.buf r).dev = dev ∧ (s'.buf r).blockno = blockno ∧ (s'.buf r).valid = false ∧
      (s'.buf r).refcnt = 1 ∧ (s'.buf r).ticks = s.ticks ∧ (s'.buf r).data = (s.buf r).data ∧
      s'.ticks = s.ticks ∧ s'.disk = s.disk ∧ s'.io = s.io := by
  rw [bget_of_miss_some BUCKETNUM s s1 pid dev blockno r h hs hr] at hst
  obtain ⟨hd, hb, hv, hc, ht, hl, hda, _⟩ := bget_recycle_buf_self BUCKETNUM s s1 r dev blockno hr
  obtain ⟨g1, g2, g3⟩ := bget_recycle_globals BUCKETNUM s s1 r dev blockno hr
  obtain ⟨k1, k2, k3⟩ := buckets_insert_globals BUCKETNUM s1 r
  have hins := buckets_insert_buf BUCKETNUM s1 r
  obtain ⟨iv, _, idv, ib, il, ic, it, ida⟩ := (hins r).fields
  have hother : ∀ i, i ≠ r →
      ((buckets_insert BUCKETNUM s1 r).buf i).eqUpToNext (s.buf i) := by
    intro i hi
    obtain ⟨n1, e1⟩ := hins i
    obtain ⟨n2, e2⟩ := bget_recycle_buf_other BUCKETNUM s s1 r dev blockno hr i hi
    exact ⟨n1, by rw [e1, e2]⟩
  rcases bget_sleep_cases (buckets_insert BUCKETNUM s1 r) pid r with ⟨_, e⟩ | ⟨_, e⟩
  · rw [e] at hst
    simp only [Outcome.state?, Option.some.injEq] at hst
    subst hst
    refine ⟨?_, ?_, ?_, ?_, ?_, ?_, ?_, ?_, ?_, ?_⟩
    · intro i hi
      rw [setBuf_buf_ne _ _ _ _ hi]
      exact hother i hi
    all_goals simp [*]
  · rw [e] at hst
    simp only [Outcome.state?, Option.some.injEq] at hst
    subst hst
    exact ⟨hother, by simp [*], by simp [*], by simp [*], by simp [*], by simp [*],
      by simp [*], by simp [*], by simp [*], by simp [*]⟩

/-- The state left by the hit path of `bget` on slot `b`. -/
theorem bget_hit_state (BUCKETNUM : Nat) (s s' : State NBUF) (pid dev blockno : Nat)
    (b : Fin NBUF) (h : lookup BUCKETNUM s dev blockno = Lookup.hit b)
    (hst : (bget BUCKETNUM s pid dev blockno).state? = some s') :
    (∀ i, i ≠ b → s'.buf i = s.buf i) ∧
      (s'.buf b).dev = (s.buf b).dev ∧ (s'.buf b).blockno = (s.buf b).blockno ∧
      (s'.buf b).valid = (s.buf b).valid ∧
      (s'.buf b).refcnt = ((s.buf b).refcnt + 1) % UINT ∧
      (s'.buf b).ticks = (s.buf b).ticks ∧ (s'.buf b).next = (s.buf b).next ∧
      (s'.buf b).data = (s.buf b).data ∧
      s'.head = s.head ∧ s'.ticks = s.ticks ∧ s'.disk = s.disk ∧ s'.io = s.io := by
  rw [bget_of_hit BUCKETNUM s pid dev blockno b h] at hst
  rcases bget_sleep_cases (bget_hit s b) pid b with ⟨_, e⟩ | ⟨_, e⟩
  · rw [e] at hst
    simp only [Outcome.state?, Option.some.injEq] at hst
    subst hst
    refine ⟨?_, ?_⟩
    · intro i hi
      rw [setBuf_buf_ne _ _ _ _ hi]
      simp only [bget_hit]
      rw [setBuf_buf_ne _ _ _ _ hi]
    · simp [bget_hit]
  · rw [e] at hst
    simp only [Outcome.state?, Option.some.injEq] at hst
    subst hst
    refine ⟨?_, ?_⟩
    · intro i hi
      simp only [bget_hit]
      rw [setBuf_buf_ne _ _ _ _ hi]
    · simp [bget_hit]

/-! ## Chains -/

theorem IsChain_congr (s s' : State NBUF) :
    ∀ (l : List (Fin NBUF)) (p : Option (Fin NBUF)),
      (∀ b ∈ l, (s'.buf b).next = (s.buf b).next) → IsChain s p l → IsChain s' p l := by
  intro l
  induction l with
  | nil => intro p _ h; exact h
  | cons b l ih =>
    intro p hn h
    obtain ⟨hp, hrest⟩ := h
    refine ⟨hp, ?_⟩
    rw [hn b (by simp)]
    exact ih _ (fun c hc => hn c (by simp [hc])) hrest

theorem IsChain_unique (s : State NBUF) :
    ∀ (l l' : List (Fin NBUF)) (p : Option (Fin NBUF)),
      IsChain s p l → IsChain s p l' → l = l' := by
  intro l
  induction l with
  | nil =>
    intro l' p h h'
    cases l' with
    | nil => rfl
    | cons b l' =>
      simp only [IsChain] at h h'
      rw [h] at h'
      exact absurd h'.1 (by simp)
  | cons b l ih =>
    intro l' p h h'
    cases l' with
    | nil =>
      simp only [IsChain] at h h'
      rw [h'] at h
      exact absurd h.1 (by simp)
    | cons b' l' =>
      obtain ⟨hp, hrest⟩ := h
      obtain ⟨hp', hrest'⟩ := h'
      rw [hp] at hp'
      have hb : b = b' := Option.some.inj hp'
      subst hb
      rw [ih l' _ hrest hrest']

theorem chainFrom_of_isChain (s : State NBUF) :
    ∀ (l : List (Fin NBUF)) (p : Option (Fin NBUF)) (fuel : Nat),
      IsChain s p l → l.length < fuel → chainFrom s fuel p = l := by
  intro l
  induction l with
  | nil =>
    intro p fuel h hf
    simp only [IsChain] at h
    subst h
    cases fuel with
    | zero => simp at hf
    | succ f => rfl
  | cons b l ih =>
    intro p fuel h hf
    obtain ⟨hp, hrest⟩ := h
    subst hp
    cases fuel with
    | zero => simp at hf
    | succ f =>
      simp only [chainFrom]
      rw [ih _ f hrest (by simpa using hf)]

theorem nodup_length_le (l : List (Fin NBUF)) (h : l.Nodup) : l.length ≤ NBUF := by
  have := List.Nodup.length_le_card h
  simpa using this

theorem chain_of_isChain (s : State NBUF) (h : Nat) (l : List (Fin NBUF))
    (hc : IsChain s (s.head h) l) (hn : l.Nodup) : chain s h = l := by
  unfold chain
  exact chainFrom_of_isChain s l _ _ hc (Nat.lt_succ_of_le (nodup_length_le l hn))

/-- The search loop on a null-terminated chain: it ends, with the first slot
of the chain that carries the key, or with a miss when there is none. -/
theorem lookupLoop_of_isChain (s : State NBUF) (dev blockno : Nat) :
    ∀ (l : List (Fin NBUF)) (p : Option (Fin NBUF)) (fuel : Nat),
      IsChain s p l → l.length < fuel →
      (lookupLoop s dev blockno fuel p = Lookup.miss ∧
        ∀ b ∈ l, ¬ ((s.buf b).dev = dev ∧ (s.buf b).blockno = blockno)) ∨
      (∃ b, lookupLoop s dev blockno fuel p = Lookup.hit b ∧ b ∈ l ∧
        (s.buf b).dev = dev ∧ (s.buf b).blockno = blockno) := by
  intro l
  induction l with
  | nil =>
    intro p fuel h hf
    simp only [IsChain] at h
    subst h
    cases fuel with
    | zero => simp at hf
    | succ f => left; exact ⟨rfl, by simp⟩
  | cons b l ih =>
    intro p fuel h hf
    obtain ⟨hp, hrest⟩ := h
    subst hp
    cases fuel with
    | zero => simp at hf
    | succ f =>
      by_cases hk : (s.buf b).dev = dev ∧ (s.buf b).blockno = blockno
      · right
        exact ⟨b, by simp [lookupLoop, hk], by simp, hk.1, hk.2⟩
      · have hstep : lookupLoop s dev blockno (f + 1) (some b) =
            lookupLoop s dev blockno f (s.buf b).next := by
          simp only [lookupLoop, if_neg hk]
        rw [hstep]
        rcases ih _ f hrest (by simpa using hf) with ⟨hm, hall⟩ | ⟨c, hc, hcl, hck⟩
        · left
          refine ⟨hm, ?_⟩
          intro c hc
          rcases List.mem_cons.1 hc with rfl | hc
          · exact hk
          · exact hall c hc
        · right
          exact ⟨c, hc, by simp [hcl], hck⟩

/-- The unlink loop on a null-terminated chain without repetition that does
not start at `item`: it ends; when `item` is on the chain its predecessor
`pred` gets `item->next` and the chain loses `item`; otherwise nothing is
written. -/
theorem removeLoop_of_isChain (s : State NBUF) (item : Fin NBUF) :
    ∀ (l : List (Fin NBUF)) (b : Fin NBUF) (fuel : Nat),
      IsChain s (some b) l → l.Nodup → b ≠ item → l.length ≤ fuel →
      (item ∉ l ∧ removeLoop s item fuel b = some s) ∨
      (item ∈ l ∧ ∃ pred, pred ∈ l ∧ pred ≠ item ∧
        removeLoop s item fuel b =
          some (s.setBuf pred { s.buf pred with next := (s.buf item).next }) ∧
        IsChain (s.setBuf pred { s.buf pred with next := (s.buf item).next })
          (some b) (l.erase item)) := by
  intro l
  induction l with
  | nil =>
    intro b fuel h
    simp [IsChain] at h
  | cons b' l' ih =>
    intro b fuel h hnd hne hf
    obtain ⟨hp, hrest⟩ := h
    have hb : b = b' := Option.some.inj hp
    subst hb
    rw [List.nodup_cons] at hnd
    obtain ⟨hbl, hnd'⟩ := hnd
    cases fuel with
    | zero => simp at hf
    | succ f =>
      have hf' : l'.length ≤ f := by simpa using hf
      cases l' with
      | nil =>
        simp only [IsChain] at hrest
        left
        refine ⟨by simpa using hne.symm, ?_⟩
        simp [removeLoop, hrest]
      | cons c l'' =>
        obtain ⟨hnx, hrest'⟩ := hrest
        by_cases hc : c = item
        · right
          subst hc
          refine ⟨by simp, b, by simp, hne, ?_, ?_⟩
          · simp [removeLoop, hnx]
          · have hbc : b ≠ c := hne
            have herase : (b :: c :: l'').erase c = b :: l'' := by
              rw [List.erase_cons_tail (by simpa using hbc)]
              simp
            rw [herase]
            refine ⟨rfl, ?_⟩
            rw [setBuf_buf_same]
            apply IsChain_congr s _ l'' _ _ hrest'
            intro x hx
            have hxb : x ≠ b := by
              rintro rfl
              exact hbl (by simp [hx])
            rw [setBuf_buf_ne _ _ _ _ hxb]
        · have hstep : removeLoop s item (f + 1) b = removeLoop s item f c := by
            simp [removeLoop, hnx, hc]
          rw [hstep]
          rcases ih c f ⟨rfl, hrest'⟩ hnd' hc hf' with ⟨hni, hr⟩ | ⟨hi, pred, hpl, hpi, hr, hch⟩
          · left
            refine ⟨?_, hr⟩
            intro hmem
            rcases List.mem_cons.1 hmem with h1 | h1
            · exact hne h1.symm
            · exact hni h1
          · right
            refine ⟨by simp [hi], pred, by simp [hpl], hpi, hr, ?_⟩
            have herase : (b :: c :: l'').erase item = b :: (c :: l'').erase item := by
              rw [List.erase_cons_tail (by simpa using hne)]
            rw [herase]
            refine ⟨rfl, ?_⟩
            have hpb : b ≠ pred := by
              rintro rfl
              exact hbl hpl
            rw [setBuf_buf_ne _ _ _ _ hpb, hnx]
            exact hch

theorem isChain_none (s : State NBUF) (l : List (Fin NBUF)) (h : IsChain s none l) :
    l = [] := by
  cases l with
  | nil => rfl
  | cons b l => simp [IsChain] at h

theorem isChain_some (s : State NBUF) (b : Fin NBUF) (l : List (Fin NBUF))
    (h : IsChain s (some b) l) : ∃ l', l = b :: l' ∧ IsChain s (s.buf b).next l' := by
  cases l with
  | nil => simp [IsChain] at h
  | cons c l =>
    obtain ⟨hp, hrest⟩ := h
    have hb : b = c := Option.some.inj hp
    subst hb
    exact ⟨l, rfl, hrest⟩

/-- On well-formed chains `buckets_remove` ends and every chain is the old
one without `r`. -/
theorem buckets_remove_isChain (BUCKETNUM : Nat) (s : State NBUF)
    (L : Nat → List (Fin NBUF)) (r : Fin NBUF) (hok : ChainsOK BUCKETNUM s L) :
    ∃ s1, buckets_remove BUCKETNUM s r = some s1 ∧
      ∀ h, IsChain s1 (s1.head h) ((L h).erase r) := by
  obtain ⟨hch, hnd, hhash, _⟩ := hok
  have honly : ∀ h, r ∈ L h → h = HASH BUCKETNUM (s.buf r).blockno :=
    fun h hr => (hhash h r hr).symm
  unfold buckets_remove
  simp only
  cases hhd : s.head (HASH BUCKETNUM (s.buf r).blockno) with
  | none =>
    refine ⟨s, rfl, ?_⟩
    have hempty : L (HASH BUCKETNUM (s.buf r).blockno) = [] := by
      have := hch (HASH BUCKETNUM (s.buf r).blockno)
      rw [hhd] at this
      exact isChain_none s _ this
    intro h
    have hr : r ∉ L h := by
      intro hr
      have := honly h hr
      subst this
      rw [hempty] at hr
      simp at hr
    rw [List.erase_of_not_mem hr]
    exact hch h
  | some hd =>
    have hc0 := hch (HASH BUCKETNUM (s.buf r).blockno)
    rw [hhd] at hc0
    obtain ⟨l', hl', hrest⟩ := isChain_some s hd _ hc0
    by_cases hhr : hd = r
    · subst hhr
      refine ⟨s.setHead (HASH BUCKETNUM (s.buf hd).blockno) (s.buf hd).next, by simp, ?_⟩
      intro h
      by_cases hh : h = HASH BUCKETNUM (s.buf hd).blockno
      · subst hh
        rw [hl']
        simp only [List.erase_cons_head]
        rw [setHead_head, if_pos rfl]
        exact IsChain_congr s _ l' _ (fun _ _ => rfl) hrest
      · have hr : hd ∉ L h := fun hr => hh (honly h hr)
        rw [List.erase_of_not_mem hr, setHead_head, if_neg hh]
        exact IsChain_congr s _ (L h) _ (fun _ _ => rfl) (hch h)
    · simp only [if_neg hhr]
      have hlen : (L (HASH BUCKETNUM (s.buf r).blockno)).length ≤ NBUF + 1 :=
        Nat.le_succ_of_le (nodup_length_le _ (hnd _))
      rcases removeLoop_of_isChain s r _ hd (NBUF + 1) hc0 (hnd _) hhr hlen with
        ⟨hni, hres⟩ | ⟨hi, pred, hpl, _, hres, hnew⟩
      · refine ⟨s, hres, ?_⟩
        intro h
        have hr : r ∉ L h := by
          intro hr
          have := honly h hr
          subst this
          exact hni hr
        rw [List.erase_of_not_mem hr]
        exact hch h
      · refine ⟨_, hres, ?_⟩
        intro h
        by_cases hh : h = HASH BUCKETNUM (s.buf r).blockno
        · subst hh
          rw [setBuf_head, hhd]
          exact hnew
        · have hr : r ∉ L h := fun hr => hh (honly h hr)
          have hp : pred ∉ L h := by
            intro hp
            have h1 := hhash h pred hp
            have h2 := hhash _ pred hpl
            exact hh (h1.symm.trans h2)
          rw [List.erase_of_not_mem hr, setBuf_head]
          apply IsChain_congr s _ (L h) _ _ (hch h)
          intro x hx
          have hxp : x ≠ pred := by
            rintro rfl
            exact hp hx
          rw [setBuf_buf_ne _ _ _ _ hxp]

/-- Predicate `ChainsOK` only looks at the bucket heads and, for chained slots, at
`next`, `dev` and `blockno`. -/
theorem chainsOK_of_same (BUCKETNUM : Nat) (s s' : State NBUF) (L : Nat → List (Fin NBUF))
    (hhead : s'.head = s.head)
    (hsame : ∀ h b, b ∈ L h → (s'.buf b).next = (s.buf b).next ∧
      (s'.buf b).dev = (s.buf b).dev ∧ (s'.buf b).blockno = (s.buf b).blockno)
    (hok : ChainsOK BUCKETNUM s L) : ChainsOK BUCKETNUM s' L := by
  obtain ⟨hch, hnd, hhash, huniq⟩ := hok
  refine ⟨?_, hnd, ?_, ?_⟩
  · intro h
    rw [hhead]
    exact IsChain_congr s s' (L h) _ (fun b hb => (hsame h b hb).1) (hch h)
  · intro h b hb
    rw [(hsame h b hb).2.2]
    exact hhash h b hb
  · intro h h' a b ha hb hd hk
    rw [(hsame h a ha).2.1, (hsame h' b hb).2.1] at hd
    rw [(hsame h a ha).2.2, (hsame h' b hb).2.2] at hk
    exact huniq h h' a b ha hb hd hk

/-- After `buckets_remove` the chains are well formed and `r` is on none. -/
theorem buckets_remove_chainsOK (BUCKETNUM : Nat) (s : State NBUF)
    (L : Nat → List (Fin NBUF)) (r : Fin NBUF) (hok : ChainsOK BUCKETNUM s L) :
    ∃ s1, buckets_remove BUCKETNUM s r = some s1 ∧
      ChainsOK BUCKETNUM s1 (fun h => (L h).erase r) ∧ ∀ h, r ∉ (L h).erase r := by
  obtain ⟨s1, hs1, hch1⟩ := buckets_remove_isChain BUCKETNUM s L r hok
  obtain ⟨hfr, _, _, _⟩ := buckets_remove_frame BUCKETNUM s s1 r hs1
  obtain ⟨_, hnd, hhash, huniq⟩ := hok
  refine ⟨s1, hs1, ⟨hch1, fun h => (hnd h).erase r, ?_, ?_⟩,
    fun h => List.Nodup.not_mem_erase (hnd h)⟩
  · intro h b hb
    obtain ⟨_, _, _, hbk, _⟩ := (hfr b).fields
    rw [hbk]
    exact hhash h b (List.mem_of_mem_erase hb)
  · intro h h' a b ha hb hd hk
    obtain ⟨_, _, had, hak, _⟩ := (hfr a).fields
    obtain ⟨_, _, hbd, hbk, _⟩ := (hfr b).fields
    rw [had, hbd] at hd
    rw [hak, hbk] at hk
    exact huniq h h' a b (List.mem_of_mem_erase ha) (List.mem_of_mem_erase hb) hd hk

/-- Head insertion of a slot that is on no chain and whose key no chained slot
carries keeps the chains well formed. -/
theorem buckets_insert_chainsOK (BUCKETNUM : Nat) (s : State NBUF)
    (L : Nat → List (Fin NBUF)) (r : Fin NBUF) (hok : ChainsOK BUCKETNUM s L)
    (hr : ∀ h, r ∉ L h)
    (hfresh : ∀ h b, b ∈ L h →
      ¬ ((s.buf b).dev = (s.buf r).dev ∧ (s.buf b).blockno = (s.buf r).blockno)) :
    ChainsOK BUCKETNUM (buckets_insert BUCKETNUM s r)
      (fun h => if h = HASH BUCKETNUM (s.buf r).blockno then r :: L h else L h) := by
  obtain ⟨hch, hnd, hhash, huniq⟩ := hok
  have hbuf : ∀ i, i ≠ r → (buckets_insert BUCKETNUM s r).buf i = s.buf i := by
    intro i hi
    simp only [buckets_insert, setHead_buf]
    rw [setBuf_buf_ne _ _ _ _ hi]
  have hself := (buckets_insert_buf BUCKETNUM s r r).fields
  obtain ⟨_, _, hsd, hsk, _⟩ := hself
  have hmem : ∀ h b, b ∈ L h → b ≠ r := by
    rintro h b hb rfl
    exact hr h hb
  refine ⟨?_, ?_, ?_, ?_⟩
  · intro h
    by_cases hh : h = HASH BUCKETNUM (s.buf r).blockno
    · subst hh
      simp only [if_true]
      refine ⟨by simp [buckets_insert, setHead_head], ?_⟩
      have hn : ((buckets_insert BUCKETNUM s r).buf r).next =
          s.head (HASH BUCKETNUM (s.buf r).blockno) := by
        simp [buckets_insert]
      rw [hn]
      apply IsChain_congr s _ _ _ _ (hch _)
      intro b hb
      rw [hbuf b (hmem _ b hb)]
    · simp only [if_neg hh]
      have hhd : (buckets_insert BUCKETNUM s r).head h = s.head h := by
        simp [buckets_insert, setHead_head, hh]
      rw [hhd]
      apply IsChain_congr s _ _ _ _ (hch h)
      intro b hb
      rw [hbuf b (hmem _ b hb)]
  · intro h
    by_cases hh : h = HASH BUCKETNUM (s.buf r).blockno
    · simp only [if_pos hh]
      exact List.nodup_cons.2 ⟨hr h, hnd h⟩
    · simp only [if_neg hh]
      exact hnd h
  · intro h b hb
    by_cases hh : h = HASH BUCKETNUM (s.buf r).blockno
    · simp only [if_pos hh] at hb
      rcases List.mem_cons.1 hb with rfl | hb
      · rw [hsk]; exact hh.symm
      · rw [hbuf b (hmem _ b hb)]; exact hhash h b hb
    · simp only [if_neg hh] at hb
      rw [hbuf b (hmem _ b hb)]; exact hhash h b hb
  · intro h h' a b ha hb hd hk
    have ha' : a = r ∨ a ∈ L h := by
      by_cases hh : h = HASH BUCKETNUM (s.buf r).blockno
      · simp only [if_pos hh] at ha
        exact List.mem_cons.1 ha
      · simp only [if_neg hh] at ha
        exact Or.inr ha
    have hb' : b = r ∨ b ∈ L h' := by
      by_cases hh : h' = HASH BUCKETNUM (s.buf r).blockno
      · simp only [if_pos hh] at hb
        exact List.mem_cons.1 hb
      · simp only [if_neg hh] at hb
        exact Or.inr hb
    rcases ha' with rfl | ha' <;> rcases hb' with rfl | hb'
    · rfl
    · rw [hbuf b (hmem _ b hb'), hsd] at hd
      rw [hbuf b (hmem _ b hb'), hsk] at hk
      exact absurd ⟨hd.symm, hk.symm⟩ (hfresh h' b hb')
    · rw [hbuf a (hmem _ a ha'), hsd] at hd
      rw [hbuf a (hmem _ a ha'), hsk] at hk
      exact absurd ⟨hd, hk⟩ (hfresh h a ha')
    · rw [hbuf a (hmem _ a ha'), hbuf b (hmem _ b hb')] at hd hk
      exact huniq h h' a b ha' hb' hd hk

/-- On well-formed chains the search of `bget` ends: a miss when no slot of
the bucket's chain carries the key, a hit on a chained slot that carries it
otherwise. -/
theorem lookup_of_chainsOK (BUCKETNUM : Nat) (s : State NBUF) (L : Nat → List (Fin NBUF))
    (dev blockno : Nat) (hok : ChainsOK BUCKETNUM s L) :
    (lookup BUCKETNUM s dev blockno = Lookup.miss ∧
      ∀ h b, b ∈ L h → ¬ ((s.buf b).dev = dev ∧ (s.buf b).blockno = blockno)) ∨
    (∃ b, lookup BUCKETNUM s dev blockno = Lookup.hit b ∧
      b ∈ L (HASH BUCKETNUM blockno) ∧ (s.buf b).dev = dev ∧ (s.buf b).blockno = blockno) := by
  obtain ⟨hch, hnd, hhash, _⟩ := hok
  have hlen : (L (HASH BUCKETNUM blockno)).length < NBUF + 1 :=
    Nat.lt_succ_of_le (nodup_length_le _ (hnd _))
  rcases lookupLoop_of_isChain s dev blockno _ _ (NBUF + 1) (hch (HASH BUCKETNUM blockno)) hlen
    with ⟨hm, hall⟩ | ⟨b, hb, hbl, hbk⟩
  · left
    refine ⟨hm, ?_⟩
    intro h b hb hk
    have hh := hhash h b hb
    rw [hk.2] at hh
    subst hh
    exact hall b hb hk
  · right
    exact ⟨b, hb, hbl, hbk⟩

/-- The recycling of `bget` keeps the chains well formed: the victim leaves
its old chain and becomes the head of the chain of the new key. -/
theorem bget_miss_chainsOK (BUCKETNUM : Nat) (s : State NBUF) (L : Nat → List (Fin NBUF))
    (dev blockno : Nat) (r : Fin NBUF) (hok : ChainsOK BUCKETNUM s L)
    (hmiss : lookup BUCKETNUM s dev blockno = Lookup.miss) :
    ∃ s1, bget_recycle BUCKETNUM s r dev blockno = some s1 ∧
      ChainsOK BUCKETNUM (buckets_insert BUCKETNUM s1 r)
        (fun h => if h = HASH BUCKETNUM blockno then r :: (L h).erase r else (L h).erase r) := by
  have hfresh0 : ∀ h b, b ∈ L h → ¬ ((s.buf b).dev = dev ∧ (s.buf b).blockno = blockno) := by
    rcases lookup_of_chainsOK BUCKETNUM s L dev blockno hok with ⟨_, hall⟩ | ⟨b, hb, _⟩
    · exact hall
    · rw [hmiss] at hb; cases hb
  obtain ⟨s0, hs0, hok0, hr0⟩ := buckets_remove_chainsOK BUCKETNUM s L r hok
  obtain ⟨hfr, _, _, _⟩ := buckets_remove_frame BUCKETNUM s s0 r hs0
  have hrec : bget_recycle BUCKETNUM s r dev blockno = some (bget_init s0 r dev blockno) := by
    unfold bget_recycle; rw [hs0]
  refine ⟨_, hrec, ?_⟩
  have hne : ∀ h b, b ∈ (L h).erase r → b ≠ r := by
    rintro h b hb rfl
    exact hr0 h hb
  have hbuf : ∀ h b, b ∈ (L h).erase r → (bget_init s0 r dev blockno).buf b = s0.buf b := by
    intro h b hb
    simp only [bget_init]
    rw [setBuf_buf_ne _ _ _ _ (hne h b hb)]
  have hok1 : ChainsOK BUCKETNUM (bget_init s0 r dev blockno) (fun h => (L h).erase r) := by
    refine chainsOK_of_same BUCKETNUM s0 (bget_init s0 r dev blockno)
      (fun h => (L h).erase r) rfl ?_ hok0
    intro h b hb
    rw [hbuf h b hb]
    exact ⟨rfl, rfl, rfl⟩
  have hkey : ((bget_init s0 r dev blockno).buf r).dev = dev ∧
      ((bget_init s0 r dev blockno).buf r).blockno = blockno := by
    simp [bget_init]
  have := buckets_insert_chainsOK BUCKETNUM (bget_init s0 r dev blockno)
    (fun h => (L h).erase r) r hok1 hr0 (by
      intro h b hb
      rw [hbuf h b hb, hkey.1, hkey.2]
      obtain ⟨_, _, hd, hk, _⟩ := (hfr b).fields
      rw [hd, hk]
      exact hfresh0 h b (List.mem_of_mem_erase hb))
  rw [hkey.2] at this
  exact this

/-! ## Calls that leave the index alone -/

theorem SameLinks.refl (s : State NBUF) : SameLinks s s :=
  ⟨rfl, fun _ => ⟨rfl, rfl, rfl⟩⟩

theorem SameLinks.trans {s1 s2 s3 : State NBUF} (h12 : SameLinks s1 s2)
    (h23 : SameLinks s2 s3) : SameLinks s1 s3 := by
  refine ⟨h12.1.trans h23.1, fun i => ?_⟩
  obtain ⟨a1, a2, a3⟩ := h12.2 i
  obtain ⟨b1, b2, b3⟩ := h23.2 i
  exact ⟨a1.trans b1, a2.trans b2, a3.trans b3⟩

theorem sameLinks_setBuf (s : State NBUF) (b : Fin NBUF) (v : Buf NBUF)
    (hn : v.next = (s.buf b).next) (hd : v.dev = (s.buf b).dev)
    (hk : v.blockno = (s.buf b).blockno) : SameLinks (s.setBuf b v) s := by
  refine ⟨rfl, fun i => ?_⟩
  rw [setBuf_buf]
  by_cases hi : i = b
  · subst hi; rw [if_pos rfl]; exact ⟨hn, hd, hk⟩
  · rw [if_neg hi]; exact ⟨rfl, rfl, rfl⟩

theorem chainsOK_of_sameLinks (BUCKETNUM : Nat) (s s' : State NBUF)
    (L : Nat → List (Fin NBUF)) (h : SameLinks s' s) (hok : ChainsOK BUCKETNUM s L) :
    ChainsOK BUCKETNUM s' L :=
  chainsOK_of_same BUCKETNUM s s' L h.1 (fun _ b _ => h.2 b) hok

theorem sameLinks_clockintr (s : State NBUF) : SameLinks (clockintr s) s :=
  ⟨rfl, fun _ => ⟨rfl, rfl, rfl⟩⟩

theorem sameLinks_bget_hit (s : State NBUF) (b : Fin NBUF) : SameLinks (bget_hit s b) s :=
  sameLinks_setBuf s b _ rfl rfl rfl

theorem sameLinks_bpin (s : State NBUF) (b : Fin NBUF) : SameLinks (bpin s b) s :=
  sameLinks_setBuf s b _ rfl rfl rfl

theorem sameLinks_releasesleep (s : State NBUF) (b : Fin NBUF) :
    SameLinks (releasesleep s b) s :=
  sameLinks_setBuf s b _ rfl rfl rfl

theorem sameLinks_refcnt_dec (s : State NBUF) (b : Fin NBUF) :
    SameLinks (refcnt_dec s b) s :=
  sameLinks_setBuf s b _ rfl rfl rfl

theorem sameLinks_brelse_dec (s : State NBUF) (b : Fin NBUF) :
    SameLinks (brelse_dec s b) s := by
  unfold brelse_dec
  split
  · exact SameLinks.trans (sameLinks_setBuf (refcnt_dec s b) b _ rfl rfl rfl)
      (sameLinks_refcnt_dec s b)
  · exact sameLinks_refcnt_dec s b

theorem sameLinks_bunpin (s : State NBUF) (b : Fin NBUF) : SameLinks (bunpin s b) s :=
  sameLinks_refcnt_dec s b

theorem sameLinks_virtio_disk_rw (s : State NBUF) (b : Fin NBUF) (w : Bool) :
    SameLinks (virtio_disk_rw s b w) s := by
  unfold virtio_disk_rw
  cases w with
  | true => exact ⟨rfl, fun _ => ⟨rfl, rfl, rfl⟩⟩
  | false =>
    simp only [Bool.false_eq_true, if_false]
    exact sameLinks_setBuf s b _ rfl rfl rfl

theorem sameLinks_bread_fill (s : State NBUF) (b : Fin NBUF) :
    SameLinks (bread_fill s b) s := by
  unfold bread_fill
  split
  · exact SameLinks.refl s
  · exact SameLinks.trans
      (sameLinks_setBuf (virtio_disk_rw s b false) b
        { (virtio_disk_rw s b false).buf b with valid := true } rfl rfl rfl)
      (sameLinks_virtio_disk_rw s b false)

theorem sameLinks_acquiresleep (s s' : State NBUF) (pid : Nat) (b : Fin NBUF)
    (h : acquiresleep s pid b = some s') : SameLinks s' s := by
  unfold acquiresleep at h
  split at h
  · cases h; exact sameLinks_setBuf s b _ rfl rfl rfl
  · cases h

theorem sameLinks_bget_sleep (s s' : State NBUF) (pid : Nat) (b c : Fin NBUF)
    (h : bget_sleep s pid b = Outcome.ret c s') : c = b ∧ SameLinks s' s := by
  unfold bget_sleep at h
  cases ha : acquiresleep s pid b with
  | none => rw [ha] at h; cases h
  | some s1 =>
    rw [ha] at h
    cases h
    exact ⟨rfl, sameLinks_acquiresleep s _ pid b ha⟩

theorem bwrite_cases (s : State NBUF) (pid : Nat) (b : Fin NBUF) :
    (holdingsleep s pid b = true ∧
      bwrite s pid b = Outcome.ret () (virtio_disk_rw s b true)) ∨
    (holdingsleep s pid b = false ∧ bwrite s pid b = Outcome.panic "bwrite" s) := by
  unfold bwrite
  cases h : holdingsleep s pid b
  · right; exact ⟨rfl, rfl⟩
  · left; exact ⟨rfl, rfl⟩

theorem brelse_cases (s : State NBUF) (pid : Nat) (b : Fin NBUF) :
    (holdingsleep s pid b = true ∧
      brelse s pid b = Outcome.ret () (brelse_dec (releasesleep s b) b)) ∨
    (holdingsleep s pid b = false ∧ brelse s pid b = Outcome.panic "brelse" s) := by
  unfold brelse
  cases h : holdingsleep s pid b
  · right; exact ⟨rfl, rfl⟩
  · left; exact ⟨rfl, rfl⟩

theorem wellChained_boot (BUCKETNUM : Nat) (disk : Nat → Nat → List Nat) :
    WellChained BUCKETNUM (binit (boot disk) : State NBUF) :=
  ⟨fun _ => [], fun _ => rfl, fun _ => List.nodup_nil, fun _ _ hb => by simp at hb,
    fun _ _ _ _ ha => by simp at ha⟩

theorem bread_ret_inv (BUCKETNUM : Nat) (s s' : State NBUF) (pid dev blockno : Nat)
    (b : Fin NBUF) (h : bread BUCKETNUM s pid dev blockno = Outcome.ret b s') :
    ∃ s1, bget BUCKETNUM s pid dev blockno = Outcome.ret b s1 ∧ s' = bread_fill s1 b := by
  unfold bread at h
  cases hg : bget BUCKETNUM s pid dev blockno with
  | ret c s1 => rw [hg] at h; cases h; exact ⟨s1, rfl, rfl⟩
  | panic m s1 => rw [hg] at h; cases h
  | blocked s1 => rw [hg] at h; cases h
  | hang => rw [hg] at h; cases h

theorem wellChained_bget (BUCKETNUM : Nat) (s s' : State NBUF) (pid dev blockno : Nat)
    (b : Fin NBUF) (hw : WellChained BUCKETNUM s)
    (h : bget BUCKETNUM s pid dev blockno = Outcome.ret b s') : WellChained BUCKETNUM s' := by
  obtain ⟨L, hok⟩ := hw
  cases hl : lookup BUCKETNUM s dev blockno with
  | hang => rw [bget_of_hang BUCKETNUM s pid dev blockno hl] at h; cases h
  | hit c =>
    rw [bget_of_hit BUCKETNUM s pid dev blockno c hl] at h
    obtain ⟨_, hsl⟩ := sameLinks_bget_sleep _ _ _ _ _ h
    exact ⟨L, chainsOK_of_sameLinks BUCKETNUM s s' L (hsl.trans (sameLinks_bget_hit s c)) hok⟩
  | miss =>
    cases hs : scan s with
    | none => rw [bget_of_miss_none BUCKETNUM s pid dev blockno hl hs] at h; cases h
    | some r =>
      obtain ⟨s1, hrec, hok1⟩ := bget_miss_chainsOK BUCKETNUM s L dev blockno r hok hl
      rw [bget_of_miss_some BUCKETNUM s s1 pid dev blockno r hl hs hrec] at h
      obtain ⟨_, hsl⟩ := sameLinks_bget_sleep _ _ _ _ _ h
      exact ⟨_, chainsOK_of_sameLinks BUCKETNUM _ s' _ hsl hok1⟩

theorem wellChained_runCall (BUCKETNUM : Nat) (s s' : State NBUF) (c : Call NBUF)
    (x : Option (Fin NBUF)) (hw : WellChained BUCKETNUM s)
    (h : runCall BUCKETNUM s c = some (s', x)) : WellChained BUCKETNUM s' := by
  have keep : ∀ t : State NBUF, SameLinks t s → WellChained BUCKETNUM t := by
    intro t ht
    obtain ⟨L, hok⟩ := hw
    exact ⟨L, chainsOK_of_sameLinks BUCKETNUM s t L ht hok⟩
  cases c with
  | bread pid dev blockno =>
    simp only [runCall] at h
    cases hb : bread BUCKETNUM s pid dev blockno with
    | ret b s1 =>
      rw [hb] at h
      simp only [Option.some.injEq, Prod.mk.injEq] at h
      obtain ⟨rfl, _⟩ := h
      obtain ⟨s0, hg, rfl⟩ := bread_ret_inv BUCKETNUM s _ pid dev blockno b hb
      obtain ⟨L, hok⟩ := wellChained_bget BUCKETNUM s s0 pid dev blockno b hw hg
      exact ⟨L, chainsOK_of_sameLinks BUCKETNUM s0 _ L (sameLinks_bread_fill s0 b) hok⟩
    | panic m s1 => rw [hb] at h; simp at h
    | blocked s1 => rw [hb] at h; simp at h
    | hang => rw [hb] at h; simp at h
  | bwrite pid b =>
    simp only [runCall] at h
    rcases bwrite_cases s pid b with ⟨_, e⟩ | ⟨_, e⟩
    · rw [e] at h
      simp only [Option.some.injEq, Prod.mk.injEq] at h
      obtain ⟨rfl, _⟩ := h
      exact keep _ (sameLinks_virtio_disk_rw s b true)
    · rw [e] at h; simp at h
  | brelse pid b =>
    simp only [runCall] at h
    rcases brelse_cases s pid b with ⟨_, e⟩ | ⟨_, e⟩
    · rw [e] at h
      simp only [Option.some.injEq, Prod.mk.injEq] at h
      obtain ⟨rfl, _⟩ := h
      exact keep _ ((sameLinks_brelse_dec _ b).trans (sameLinks_releasesleep s b))
    · rw [e] at h; simp at h
  | bpin b =>
    simp only [runCall, Option.some.injEq, Prod.mk.injEq] at h
    obtain ⟨rfl, _⟩ := h
    exact keep _ (sameLinks_bpin s b)
  | bunpin b =>
    simp only [runCall, Option.some.injEq, Prod.mk.injEq] at h
    obtain ⟨rfl, _⟩ := h
    exact keep _ (sameLinks_bunpin s b)
  | tick =>
    simp only [runCall, Option.some.injEq, Prod.mk.injEq] at h
    obtain ⟨rfl, _⟩ := h
    exact keep _ (sameLinks_clockintr s)

theorem wellChained_runCalls (BUCKETNUM : Nat) :
    ∀ (cs : List (Call NBUF)) (s s' : State NBUF), WellChained BUCKETNUM s →
      runCalls BUCKETNUM s cs = some s' → WellChained BUCKETNUM s' := by
  intro cs
  induction cs with
  | nil => intro s s' hw h; simp only [runCalls, Option.some.injEq] at h; subst h; exact hw
  | cons c cs ih =>
    intro s s' hw h
    simp only [runCalls] at h
    cases hc : runCall BUCKETNUM s c with
    | none => rw [hc] at h; simp at h
    | some p =>
      obtain ⟨s1, x⟩ := p
      rw [hc] at h
      exact ih s1 s' (wellChained_runCall BUCKETNUM s s1 c x hw hc) h

theorem wellChained_of_reachable (BUCKETNUM : Nat) (s : State NBUF)
    (h : Reachable BUCKETNUM s) : WellChained BUCKETNUM s := by
  obtain ⟨disk, cs, hrun⟩ := h
  exact wellChained_runCalls BUCKETNUM cs _ s (wellChained_boot BUCKETNUM disk) hrun

/-! ## One process alone takes the steps of the sequential call -/

theorem bget_sleep_ret_inv (s s' : State NBUF) (pid : Nat) (b c : Fin NBUF)
    (h : bget_sleep s pid b = Outcome.ret c s') : c = b ∧ acquiresleep s pid b = some s' := by
  unfold bget_sleep at h
  cases ha : acquiresleep s pid b with
  | none => rw [ha] at h; cases h
  | some s1 => rw [ha] at h; cases h; exact ⟨rfl, rfl⟩

/-- A process running alone reaches, step by step, the state the sequential
`bread` returns. -/
theorem solo_bread (BUCKETNUM : Nat) (s s' : State NBUF) (dev blockno : Nat) (b : Fin NBUF)
    (h : bread BUCKETNUM s 0 dev blockno = Outcome.ret b s') :
    Config.run BUCKETNUM { st := s, pcs := [PC.search dev blockno] } [0, 0, 0, 0, 0] =
      { st := s', pcs := [PC.idle] } := by
  obtain ⟨s1, hg, rfl⟩ := bread_ret_inv BUCKETNUM s s' 0 dev blockno b h
  cases hl : lookup BUCKETNUM s dev blockno with
  | hang => rw [bget_of_hang BUCKETNUM s 0 dev blockno hl] at hg; cases hg
  | hit c =>
    rw [bget_of_hit BUCKETNUM s 0 dev blockno c hl] at hg
    obtain ⟨rfl, ha⟩ := bget_sleep_ret_inv _ _ _ _ _ hg
    simp [Config.run, Config.step, pstep, hl, ha]
  | miss =>
    cases hs : scan s with
    | none => rw [bget_of_miss_none BUCKETNUM s 0 dev blockno hl hs] at hg; cases hg
    | some r =>
      cases hr : bget_recycle BUCKETNUM s r dev blockno with
      | none => rw [bget_of_miss_hang BUCKETNUM s 0 dev blockno r hl hs hr] at hg; cases hg
      | some s2 =>
        rw [bget_of_miss_some BUCKETNUM s s2 0 dev blockno r hl hs hr] at hg
        obtain ⟨rfl, ha⟩ := bget_sleep_ret_inv _ _ _ _ _ hg
        simp [Config.run, Config.step, pstep, hl, hs, hr, ha]

/-! ## Reference counts -/

theorem UINT_eq : UINT = 4294967296 := by
  norm_num [UINT]

theorem bread_fill_buf_other (s : State NBUF) (b i : Fin NBUF) (hi : i ≠ b) :
    (bread_fill s b).buf i = s.buf i := by
  unfold bread_fill
  split
  · rfl
  · simp only [virtio_disk_rw, Bool.false_eq_true, if_false]
    rw [setBuf_buf_ne _ _ _ _ hi]
    simp [Function.update_noteq hi]

theorem bread_fill_buf_self (s : State NBUF) (b : Fin NBUF) :
    ((bread_fill s b).buf b).valid = true ∧
      ((bread_fill s b).buf b).dev = (s.buf b).dev ∧
      ((bread_fill s b).buf b).blockno = (s.buf b).blockno ∧
      ((bread_fill s b).buf b).lock = (s.buf b).lock ∧
      ((bread_fill s b).buf b).refcnt = (s.buf b).refcnt ∧
      ((bread_fill s b).buf b).ticks = (s.buf b).ticks ∧
      ((bread_fill s b).buf b).next = (s.buf b).next := by
  unfold bread_fill
  by_cases hv : (s.buf b).valid = true
  · rw [if_pos hv]
    exact ⟨hv, rfl, rfl, rfl, rfl, rfl, rfl⟩
  · rw [if_neg hv]
    simp [virtio_disk_rw]

theorem bread_fill_io (s : State NBUF) (b : Fin NBUF) :
    ((s.buf b).valid = true → (bread_fill s b).io = s.io) ∧
    ((s.buf b).valid = false → (bread_fill s b).io = s.io ++ [(b, false)]) := by
  unfold bread_fill
  constructor
  · intro hv
    rw [if_pos hv]
  · intro hv
    rw [if_neg (by simp [hv])]
    simp [virtio_disk_rw]

theorem bread_fill_globals (s : State NBUF) (b : Fin NBUF) :
    (bread_fill s b).head = s.head ∧ (bread_fill s b).ticks = s.ticks := by
  unfold bread_fill
  split
  · exact ⟨rfl, rfl⟩
  · simp [virtio_disk_rw]

/-- The state a returning `bget` leaves: the returned slot carries the key,
its lock is held by the caller and its count is one more (modulo `2 ^ 32`)
than before; no other slot changes its `refcnt`, `valid` or lock. -/
theorem bget_ret_state (BUCKETNUM : Nat) (s s' : State NBUF) (pid dev blockno : Nat)
    (b : Fin NBUF) (h : bget BUCKETNUM s pid dev blockno = Outcome.ret b s') :
    (s'.buf b).dev = dev ∧ (s'.buf b).blockno = blockno ∧ (s'.buf b).lock = some pid ∧
      (s'.buf b).refcnt = ((s.buf b).refcnt + 1) % UINT ∧ (s.buf b).lock = none ∧
      (∀ i, i ≠ b → (s'.buf i).eqUpToNext (s.buf i)) ∧
      s'.ticks = s.ticks ∧ s'.disk = s.disk ∧ s'.io = s.io ∧
      ((lookup BUCKETNUM s dev blockno = Lookup.hit b ∧ (s'.buf b).valid = (s.buf b).valid) ∨
        (lookup BUCKETNUM s dev blockno = Lookup.miss ∧ scan s = some b ∧
          (s'.buf b).valid = false ∧ (s'.buf b).refcnt = 1)) := by
  have hst : (bget BUCKETNUM s pid dev blockno).state? = some s' := by rw [h]; rfl
  cases hl : lookup BUCKETNUM s dev blockno with
  | hang => rw [bget_of_hang BUCKETNUM s pid dev blockno hl] at h; cases h
  | hit c =>
    have h' := h
    rw [bget_of_hit BUCKETNUM s pid dev blockno c hl] at h'
    obtain ⟨rfl, ha⟩ := bget_sleep_ret_inv _ _ _ _ _ h'
    obtain ⟨ho, hd, hk, hv, hc, _, _, _, _, g1, g2, g3⟩ :=
      bget_hit_state BUCKETNUM s s' pid dev blockno b hl hst
    have hkey : (s.buf b).dev = dev ∧ (s.buf b).blockno = blockno := by
      unfold lookup at hl
      have : ∀ (fuel : Nat) (p : Option (Fin NBUF)),
          lookupLoop s dev blockno fuel p = Lookup.hit b →
            (s.buf b).dev = dev ∧ (s.buf b).blockno = blockno := by
        intro fuel
        induction fuel with
        | zero => intro p hp; simp [lookupLoop] at hp
        | succ f ih =>
          intro p hp
          cases p with
          | none => simp [lookupLoop] at hp
          | some x =>
            simp only [lookupLoop] at hp
            split at hp
            · rename_i hx
              cases hp
              exact hx
            · exact ih _ hp
      exact this _ _ hl
    have hlock : (s'.buf b).lock = some pid ∧ (s.buf b).lock = none := by
      unfold acquiresleep at ha
      cases hlk : ((bget_hit s b).buf b).lock with
      | none =>
        rw [hlk] at ha
        simp only [Option.some.injEq] at ha
        subst ha
        refine ⟨by simp, ?_⟩
        simpa [bget_hit] using hlk
      | some q => rw [hlk] at ha; cases ha
    refine ⟨by rw [hd]; exact hkey.1, by rw [hk]; exact hkey.2, hlock.1, hc, hlock.2, ?_,
      g1, g2, g3, Or.inl ⟨rfl, hv⟩⟩
    intro i hi
    rw [ho i hi]
    exact Buf.eqUpToNext_refl _
  | miss =>
    cases hs : scan s with
    | none => rw [bget_of_miss_none BUCKETNUM s pid dev blockno hl hs] at h; cases h
    | some r =>
      cases hr : bget_recycle BUCKETNUM s r dev blockno with
      | none => rw [bget_of_miss_hang BUCKETNUM s pid dev blockno r hl hs hr] at h; cases h
      | some s1 =>
        have h' := h
        rw [bget_of_miss_some BUCKETNUM s s1 pid dev blockno r hl hs hr] at h'
        obtain ⟨rfl, ha⟩ := bget_sleep_ret_inv _ _ _ _ _ h'
        obtain ⟨ho, hd, hk, hv, hc, _, _, g1, g2, g3⟩ :=
          bget_miss_state BUCKETNUM s s1 s' pid dev blockno b hl hs hr hst
        have h0 := (scan_some s b hs).1
        have hlock : (s'.buf b).lock = some pid ∧ (s.buf b).lock = none := by
          unfold acquiresleep at ha
          cases hlk : ((buckets_insert BUCKETNUM s1 b).buf b).lock with
          | none =>
            rw [hlk] at ha
            simp only [Option.some.injEq] at ha
            subst ha
            refine ⟨by simp, ?_⟩
            obtain ⟨_, _, _, _, il, _⟩ := (buckets_insert_buf BUCKETNUM s1 b b).fields
            obtain ⟨_, _, _, _, _, rl, _⟩ :=
              bget_recycle_buf_self BUCKETNUM s s1 b dev blockno hr
            rw [← rl, ← il]
            exact hlk
          | some q => rw [hlk] at ha; cases ha
        refine ⟨hd, hk, hlock.1, ?_, hlock.2, ho, g1, g2, g3, Or.inr ⟨rfl, rfl, hv, hc⟩⟩
        rw [hc, h0, UINT_eq]

/-- A returning `bread` adds one (modulo `2 ^ 32`) to the count of the slot
it returns and leaves every other count alone. -/
theorem bread_refcnt (BUCKETNUM : Nat) (s s' : State NBUF) (pid dev blockno : Nat)
    (b : Fin NBUF) (h : bread BUCKETNUM s pid dev blockno = Outcome.ret b s') :
    (s'.buf b).refcnt = ((s.buf b).refcnt + 1) % UINT ∧
      ∀ i, i ≠ b → (s'.buf i).refcnt = (s.buf i).refcnt := by
  obtain ⟨s1, hg, rfl⟩ := bread_ret_inv BUCKETNUM s s' pid dev blockno b h
  obtain ⟨_, _, _, hc, _, ho, _⟩ := bget_ret_state BUCKETNUM s s1 pid dev blockno b hg
  obtain ⟨_, _, _, _, fc, _⟩ := bread_fill_buf_self s1 b
  refine ⟨by rw [fc, hc], ?_⟩
  intro i hi
  rw [bread_fill_buf_other s1 b i hi]
  exact (ho i hi).fields.2.2.2.2.2.1

theorem refcnt_dec_buf_self (s : State NBUF) (b : Fin NBUF) :
    (refcnt_dec s b).buf b =
      { s.buf b with refcnt := ((s.buf b).refcnt + (UINT - 1)) % UINT } :=
  setBuf_buf_same _ _ _

theorem brelse_dec_refcnt (s : State NBUF) (b : Fin NBUF) :
    ((brelse_dec s b).buf b).refcnt = ((s.buf b).refcnt + (UINT - 1)) % UINT ∧
      ∀ i, i ≠ b → (brelse_dec s b).buf i = s.buf i := by
  unfold brelse_dec
  split
  · refine ⟨?_, fun i hi => ?_⟩
    · rw [setBuf_buf_same, refcnt_dec_buf_self]
    · rw [setBuf_buf_ne _ _ _ _ hi]
      exact setBuf_buf_ne _ _ _ _ hi
  · refine ⟨?_, fun i hi => ?_⟩
    · rw [refcnt_dec_buf_self]
    · exact setBuf_buf_ne _ _ _ _ hi

theorem brelse_refcnt (s s' : State NBUF) (pid : Nat) (b : Fin NBUF) (u : Unit)
    (h : brelse s pid b = Outcome.ret u s') :
    (s'.buf b).refcnt = ((s.buf b).refcnt + (UINT - 1)) % UINT ∧
      ∀ i, i ≠ b → (s'.buf i).refcnt = (s.buf i).refcnt := by
  rcases brelse_cases s pid b with ⟨_, e⟩ | ⟨_, e⟩
  · rw [e] at h
    cases h
    obtain ⟨h1, h2⟩ := brelse_dec_refcnt (releasesleep s b) b
    refine ⟨by rw [h1]; simp [releasesleep], ?_⟩
    intro i hi
    rw [h2 i hi]
    simp only [releasesleep]
    rw [setBuf_buf_ne _ _ _ _ hi]
  · rw [e] at h; cases h

theorem bwrite_buf (s s' : State NBUF) (pid : Nat) (b : Fin NBUF) (u : Unit)
    (h : bwrite s pid b = Outcome.ret u s') :
    s'.buf = s.buf ∧ s'.head = s.head ∧ s'.ticks = s.ticks ∧ s'.io = s.io ++ [(b, true)] := by
  rcases bwrite_cases s pid b with ⟨_, e⟩ | ⟨_, e⟩
  · rw [e] at h
    cases h
    simp [virtio_disk_rw]
  · rw [e] at h; cases h

theorem refcnt_inc_mod (r c : Nat) (h : r = c % UINT) : (r + 1) % UINT = (c + 1) % UINT := by
  subst h
  rw [UINT_eq]
  omega

theorem refcnt_dec_mod (r c : Nat) (h : r = c % UINT) (hc : 1 ≤ c) :
    (r + (UINT - 1)) % UINT = (c - 1) % UINT := by
  subst h
  rw [UINT_eq]
  omega

theorem refInv_runCall (BUCKETNUM : Nat) (s s' : State NBUF) (cnt : Fin NBUF → Nat)
    (c : Call NBUF) (x : Option (Fin NBUF)) (hinv : RefInv s cnt)
    (hm : c.matched cnt = true) (h : runCall BUCKETNUM s c = some (s', x)) :
    RefInv s' (countAfter cnt c x) := by
  cases c with
  | bread pid dev blockno =>
    simp only [runCall] at h
    cases hb : bread BUCKETNUM s pid dev blockno with
    | ret b s1 =>
      rw [hb] at h
      simp only [Option.some.injEq, Prod.mk.injEq] at h
      obtain ⟨rfl, rfl⟩ := h
      obtain ⟨h1, h2⟩ := bread_refcnt BUCKETNUM s _ pid dev blockno b hb
      intro i
      simp only [countAfter]
      by_cases hi : i = b
      · subst hi
        rw [h1, Function.update_same]
        exact refcnt_inc_mod _ _ (hinv i)
      · rw [h2 i hi, hinv i, Function.update_noteq hi]
    | panic m s1 => rw [hb] at h; simp at h
    | blocked s1 => rw [hb] at h; simp at h
    | hang => rw [hb] at h; simp at h
  | bwrite pid b =>
    simp only [runCall] at h
    cases hb : bwrite s pid b with
    | ret u s1 =>
      rw [hb] at h
      simp only [Option.some.injEq, Prod.mk.injEq] at h
      obtain ⟨rfl, rfl⟩ := h
      obtain ⟨h1, _⟩ := bwrite_buf s _ pid b u hb
      intro i
      simp only [countAfter]
      rw [h1]
      exact hinv i
    | panic m s1 => rw [hb] at h; simp at h
    | blocked s1 => rw [hb] at h; simp at h
    | hang => rw [hb] at h; simp at h
  | brelse pid b =>
    simp only [runCall] at h
    simp only [Call.matched, decide_eq_true_eq] at hm
    cases hb : brelse s pid b with
    | ret u s1 =>
      rw [hb] at h
      simp only [Option.some.injEq, Prod.mk.injEq] at h
      obtain ⟨rfl, rfl⟩ := h
      obtain ⟨h1, h2⟩ := brelse_refcnt s _ pid b u hb
      intro i
      simp only [countAfter]
      by_cases hi : i = b
      · subst hi
        rw [h1, Function.update_same]
        exact refcnt_dec_mod _ _ (hinv i) hm
      · rw [h2 i hi, hinv i, Function.update_noteq hi]
    | panic m s1 => rw [hb] at h; simp at h
    | blocked s1 => rw [hb] at h; simp at h
    | hang => rw [hb] at h; simp at h
  | bpin b =>
    simp only [runCall, Option.some.injEq, Prod.mk.injEq] at h
    obtain ⟨rfl, rfl⟩ := h
    intro i
    simp only [countAfter, bpin]
    by_cases hi : i = b
    · subst hi
      rw [setBuf_buf_same, Function.update_same]
      exact refcnt_inc_mod _ _ (hinv i)
    · rw [setBuf_buf_ne _ _ _ _ hi, hinv i, Function.update_noteq hi]
  | bunpin b =>
    simp only [runCall, Option.some.injEq, Prod.mk.injEq] at h
    obtain ⟨rfl, rfl⟩ := h
    simp only [Call.matched, decide_eq_true_eq] at hm
    intro i
    simp only [countAfter, bunpin, refcnt_dec]
    by_cases hi : i = b
    · subst hi
      rw [setBuf_buf_same, Function.update_same]
      exact refcnt_dec_mod _ _ (hinv i) hm
    · rw [setBuf_buf_ne _ _ _ _ hi, hinv i, Function.update_noteq hi]
  | tick =>
    simp only [runCall, Option.some.injEq, Prod.mk.injEq] at h
    obtain ⟨rfl, rfl⟩ := h
    intro i
    exact hinv i

theorem refInv_runCounted (BUCKETNUM : Nat) :
    ∀ (cs : List (Call NBUF)) (s s' : State NBUF) (cnt cnt' : Fin NBUF → Nat),
      RefInv s cnt → runCounted BUCKETNUM s cnt cs = some (s', cnt') → RefInv s' cnt' := by
  intro cs
  induction cs with
  | nil =>
    intro s s' cnt cnt' hinv h
    simp only [runCounted, Option.some.injEq, Prod.mk.injEq] at h
    obtain ⟨rfl, rfl⟩ := h
    exact hinv
  | cons c cs ih =>
    intro s s' cnt cnt' hinv h
    simp only [runCounted] at h
    by_cases hm : c.matched cnt = true
    · rw [if_pos hm] at h
      cases hc : runCall BUCKETNUM s c with
      | none => rw [hc] at h; simp at h
      | some p =>
        obtain ⟨s1, x⟩ := p
        rw [hc] at h
        exact ih s1 s' _ cnt' (refInv_runCall BUCKETNUM s s1 cnt c x hinv hm hc) h
    · rw [if_neg hm] at h
      cases h

theorem refInv_boot (disk : Nat → Nat → List Nat) :
    RefInv (binit (boot disk) : State NBUF) (fun _ => 0) := by
  intro i
  simp [binit, boot]

/-- A run of `k` calls `bpin(b)` returns and adds `k` to the number of
unmatched calls on `b`. -/
theorem runCounted_bpin (BUCKETNUM : Nat) (b : Fin NBUF) :
    ∀ (k : Nat) (s : State NBUF) (cnt : Fin NBUF → Nat),
      ∃ s' cnt', runCounted BUCKETNUM s cnt (List.replicate k (Call.bpin b)) = some (s', cnt') ∧
        cnt' b = cnt b + k := by
  intro k
  induction k with
  | zero => intro s cnt; exact ⟨s, cnt, rfl, rfl⟩
  | succ k ih =>
    intro s cnt
    obtain ⟨s', cnt', hrun, hc⟩ := ih (bpin s b) (Function.update cnt b (cnt b + 1))
    refine ⟨s', cnt', ?_, ?_⟩
    · simp only [List.replicate_succ, runCounted, Call.matched, if_true, runCall, countAfter]
      exact hrun
    · rw [hc, Function.update_same]
      omega

theorem bget_sleep_of_free (s : State NBUF) (pid : Nat) (b : Fin NBUF)
    (h : (s.buf b).lock = none) : ∃ s', bget_sleep s pid b = Outcome.ret b s' := by
  rcases bget_sleep_cases s pid b with ⟨_, e⟩ | ⟨hn, _⟩
  · exact ⟨_, e⟩
  · exact absurd h hn

theorem bread_of_bget_ret (BUCKETNUM : Nat) (s s1 : State NBUF) (pid dev blockno : Nat)
    (b : Fin NBUF) (h : bget BUCKETNUM s pid dev blockno = Outcome.ret b s1) :
    bread BUCKETNUM s pid dev blockno = Outcome.ret b (bread_fill s1 b) := by
  unfold bread; rw [h]

theorem brelse_dec_of_ne_zero (s : State NBUF) (b : Fin NBUF)
    (h : ((s.buf b).refcnt + (UINT - 1)) % UINT ≠ 0) : brelse_dec s b = refcnt_dec s b := by
  unfold brelse_dec
  rw [if_neg]
  rw [refcnt_dec_buf_self]
  exact h

theorem brelse_dec_of_zero (s : State NBUF) (b : Fin NBUF)
    (h : ((s.buf b).refcnt + (UINT - 1)) % UINT = 0) :
    brelse_dec s b =
      (refcnt_dec s b).setBuf b { (refcnt_dec s b).buf b with ticks := s.ticks } := by
  unfold brelse_dec
  rw [if_pos]
  rw [refcnt_dec_buf_self]
  exact h

theorem wrap_at_zero : (0 + (UINT - 1)) % UINT = UINT - 1 := by
  rw [UINT_eq]

theorem dec_of_pos (c : Nat) (h1 : 1 ≤ c) (h2 : c < UINT) :
    (c + (UINT - 1)) % UINT = c - 1 := by
  rw [UINT_eq] at h2 ⊢
  omega

theorem chainFrom_congr (s s' : State NBUF) (hn : ∀ i, (s'.buf i).next = (s.buf i).next) :
    ∀ (fuel : Nat) (p : Option (Fin NBUF)), chainFrom s' fuel p = chainFrom s fuel p := by
  intro fuel
  induction fuel with
  | zero => intro p; rfl
  | succ f ih =>
    intro p
    cases p with
    | none => rfl
    | some b => simp only [chainFrom, hn b, ih]

theorem chain_eq_of_sameLinks (s s' : State NBUF) (h : SameLinks s' s) (k : Nat) :
    chain s' k = chain s k := by
  unfold chain
  rw [h.1]
  exact chainFrom_congr s s' (fun i => (h.2 i).1) _ _

/-- The record of slot `b` after the critical section of `brelse`, for a
count within the range of `uint`. -/
theorem brelse_dec_buf_self (s : State NBUF) (b : Fin NBUF) (h1 : 1 ≤ (s.buf b).refcnt)
    (h2 : (s.buf b).refcnt < UINT) :
    (brelse_dec s b).buf b =
      { s.buf b with
        refcnt := (s.buf b).refcnt - 1
        ticks := if (s.buf b).refcnt = 1 then s.ticks else (s.buf b).ticks } := by
  have hd := dec_of_pos _ h1 h2
  by_cases hone : (s.buf b).refcnt = 1
  · have hz : ((s.buf b).refcnt + (UINT - 1)) % UINT = 0 := by rw [hd, hone]
    rw [brelse_dec_of_zero s b hz, setBuf_buf_same, refcnt_dec_buf_self, hz, if_pos hone, hone]
  · have hz : ((s.buf b).refcnt + (UINT - 1)) % UINT ≠ 0 := by rw [hd]; omega
    rw [brelse_dec_of_ne_zero s b hz, refcnt_dec_buf_self, hd, if_neg hone]

/-! ## What a returning `bget` / `bread` does on well-formed chains -/

theorem Buf.eqUpToNext.info_eq {a b : Buf NBUF} (h : a.eqUpToNext b) : a.info = b.info := by
  obtain ⟨nx, rfl⟩ := h
  rfl

theorem scan_of_firstLeast (s : State NBUF) (r : Fin NBUF) (h : FirstLeast s r) :
    scan s = some r := by
  cases hs : scan s with
  | none => exact absurd h.1 (scan_none s hs r)
  | some r' => rw [firstLeast_unique s r' r (scan_some s r' hs) h]

/-- The miss path of `bget` on well-formed chains, with the victim's sleep
lock free: the call returns the victim `r`, re-keyed, not valid, counted
once, stamped with the global `ticks` and locked by the caller; `r` is the
head of the chain of the new key, every chain keeps its other members in
order, and the other slots change at most their `next`. -/
theorem bget_miss_spec (BUCKETNUM : Nat) (s : State NBUF) (L : Nat → List (Fin NBUF))
    (pid dev blockno : Nat) (r : Fin NBUF) (hok : ChainsOK BUCKETNUM s L)
    (hmiss : lookup BUCKETNUM s dev blockno = Lookup.miss) (hs : scan s = some r)
    (hfree : (s.buf r).lock = none) :
    ∃ s', bget BUCKETNUM s pid dev blockno = Outcome.ret r s' ∧
      ChainsOK BUCKETNUM s' (recycledChains BUCKETNUM L r blockno) ∧
      (s'.buf r).info = (false, dev, blockno, some pid, 1, s.ticks) ∧
      (s'.buf r).data = (s.buf r).data ∧
      (∀ i, i ≠ r → (s'.buf i).eqUpToNext (s.buf i)) ∧
      s'.ticks = s.ticks ∧ s'.disk = s.disk ∧ s'.io = s.io := by
  obtain ⟨s1, hrec, hok1⟩ := bget_miss_chainsOK BUCKETNUM s L dev blockno r hok hmiss
  have hfree' : ((buckets_insert BUCKETNUM s1 r).buf r).lock = none := by
    obtain ⟨_, _, _, _, il, _⟩ := (buckets_insert_buf BUCKETNUM s1 r r).fields
    obtain ⟨_, _, _, _, _, rl, _⟩ := bget_recycle_buf_self BUCKETNUM s s1 r dev blockno hrec
    rw [il, rl]
    exact hfree
  obtain ⟨s2, hs2⟩ := bget_sleep_of_free (buckets_insert BUCKETNUM s1 r) pid r hfree'
  have hg : bget BUCKETNUM s pid dev blockno = Outcome.ret r s2 := by
    rw [bget_of_miss_some BUCKETNUM s s1 pid dev blockno r hmiss hs hrec]; exact hs2
  obtain ⟨_, hlinks⟩ := sameLinks_bget_sleep _ _ _ _ _ hs2
  obtain ⟨hd, hk, hl, _, _, ho, g1, g2, g3, hcase⟩ :=
    bget_ret_state BUCKETNUM s s2 pid dev blockno r hg
  have hst : (bget BUCKETNUM s pid dev blockno).state? = some s2 := by rw [hg]; rfl
  obtain ⟨_, _, _, hv, hc, ht, hda, _⟩ :=
    bget_miss_state BUCKETNUM s s1 s2 pid dev blockno r hmiss hs hrec hst
  refine ⟨s2, hg, chainsOK_of_sameLinks BUCKETNUM _ s2 _ hlinks hok1, ?_, hda, ho, g1, g2, g3⟩
  simp only [Buf.info, hv, hd, hk, hl, hc, ht]

/-- The hit path of `bget` with the slot's sleep lock free: the call returns
the slot found, counted once more and locked by the caller; nothing else
changes. -/
theorem bget_hit_spec (BUCKETNUM : Nat) (s : State NBUF) (pid dev blockno : Nat)
    (b : Fin NBUF) (hhit : lookup BUCKETNUM s dev blockno = Lookup.hit b)
    (hfree : (s.buf b).lock = none) :
    ∃ s', bget BUCKETNUM s pid dev blockno = Outcome.ret b s' ∧
      s'.buf b = { s.buf b with lock := some pid,
                                refcnt := ((s.buf b).refcnt + 1) % UINT } ∧
      (∀ i, i ≠ b → s'.buf i = s.buf i) ∧
      s'.head = s.head ∧ s'.ticks = s.ticks ∧ s'.disk = s.disk ∧ s'.io = s.io := by
  have hfree' : ((bget_hit s b).buf b).lock = none := by
    simpa [bget_hit] using hfree
  rcases bget_sleep_cases (bget_hit s b) pid b with ⟨_, e⟩ | ⟨hn, _⟩
  · have hg : bget BUCKETNUM s pid dev blockno = Outcome.ret b
        ((bget_hit s b).setBuf b { (bget_hit s b).buf b with lock := some pid }) := by
      rw [bget_of_hit BUCKETNUM s pid dev blockno b hhit]; exact e
    refine ⟨_, hg, ?_, ?_, rfl, rfl, rfl, rfl⟩
    · simp [bget_hit]
    · intro i hi
      rw [setBuf_buf_ne _ _ _ _ hi]
      simp only [bget_hit]
      exact setBuf_buf_ne _ _ _ _ hi
  · exact absurd hfree' hn

theorem chain_recycled (BUCKETNUM : Nat) (s s' : State NBUF) (L : Nat → List (Fin NBUF))
    (r : Fin NBUF) (blockno : Nat) (hok : ChainsOK BUCKETNUM s L)
    (hok' : ChainsOK BUCKETNUM s' (recycledChains BUCKETNUM L r blockno)) (h : Nat) :
    chain s' h =
      if h = HASH BUCKETNUM blockno then r :: (chain s h).erase r else (chain s h).erase r := by
  rw [chain_of_isChain s' h _ (hok'.1 h) (hok'.2.1 h), chain_of_isChain s h _ (hok.1 h) (hok.2.1 h)]
  rfl

theorem lookup_hit_key (BUCKETNUM : Nat) (s : State NBUF) (dev blockno : Nat) (b : Fin NBUF)
    (h : lookup BUCKETNUM s dev blockno = Lookup.hit b) :
    (s.buf b).dev = dev ∧ (s.buf b).blockno = blockno := by
  unfold lookup at h
  have : ∀ (fuel : Nat) (p : Option (Fin NBUF)),
      lookupLoop s dev blockno fuel p = Lookup.hit b →
        (s.buf b).dev = dev ∧ (s.buf b).blockno = blockno := by
    intro fuel
    induction fuel with
    | zero => intro p hp; simp [lookupLoop] at hp
    | succ f ih =>
      intro p hp
      cases p with
      | none => simp [lookupLoop] at hp
      | some x =>
        simp only [lookupLoop] at hp
        split at hp
        · rename_i hx
          cases hp
          exact hx
        · exact ih _ hp
  exact this _ _ h

/-- On well-formed chains a chained slot that carries the key is what the
search finds. -/
theorem lookup_hit_of_mem (BUCKETNUM : Nat) (s : State NBUF) (L : Nat → List (Fin NBUF))
    (dev blockno : Nat) (b : Fin NBUF) (h : Nat) (hok : ChainsOK BUCKETNUM s L)
    (hb : b ∈ L h) (hd : (s.buf b).dev = dev) (hk : (s.buf b).blockno = blockno) :
    lookup BUCKETNUM s dev blockno = Lookup.hit b := by
  rcases lookup_of_chainsOK BUCKETNUM s L dev blockno hok with ⟨_, hall⟩ | ⟨c, hc, hcl, hcd, hck⟩
  · exact absurd ⟨hd, hk⟩ (hall h b hb)
  · have : c = b := hok.2.2.2 _ h c b hcl hb (hcd.trans hd.symm) (hck.trans hk.symm)
    rw [← this]; exact hc

/-- A miss of `bread` on well-formed chains, victim's lock free. -/
theorem bread_miss_spec (BUCKETNUM : Nat) (s : State NBUF) (L : Nat → List (Fin NBUF))
    (pid dev blockno : Nat) (r : Fin NBUF) (hok : ChainsOK BUCKETNUM s L)
    (hmiss : lookup BUCKETNUM s dev blockno = Lookup.miss) (hs : scan s = some r)
    (hfree : (s.buf r).lock = none) :
    ∃ s', bread BUCKETNUM s pid dev blockno = Outcome.ret r s' ∧
      ChainsOK BUCKETNUM s' (recycledChains BUCKETNUM L r blockno) ∧
      (s'.buf r).info = (true, dev, blockno, some pid, 1, s.ticks) ∧
      (∀ i, i ≠ r → (s'.buf i).eqUpToNext (s.buf i)) ∧
      s'.ticks = s.ticks ∧ s'.io = s.io ++ [(r, false)] := by
  obtain ⟨s1, hg, hok1, hinfo, _, hother, g1, _, g3⟩ :=
    bget_miss_spec BUCKETNUM s L pid dev blockno r hok hmiss hs hfree
  simp only [Buf.info, Prod.mk.injEq] at hinfo
  obtain ⟨hv, hd, hk, hl, hc, ht⟩ := hinfo
  obtain ⟨fv, fd, fk, fl, fc, ft, _⟩ := bread_fill_buf_self s1 r
  refine ⟨bread_fill s1 r, bread_of_bget_ret BUCKETNUM s s1 pid dev blockno r hg,
    chainsOK_of_sameLinks BUCKETNUM s1 _ _ (sameLinks_bread_fill s1 r) hok1, ?_, ?_, ?_, ?_⟩
  · simp only [Buf.info, fv, fd, fk, fl, fc, ft, hd, hk, hl, hc, ht]
  · intro i hi
    rw [bread_fill_buf_other s1 r i hi]
    exact hother i hi
  · rw [(bread_fill_globals s1 r).2, g1]
  · rw [(bread_fill_io s1 r).2 hv, g3]

/-- A hit of `bread` with the slot's lock free. -/
theorem bread_hit_spec (BUCKETNUM : Nat) (s : State NBUF) (pid dev blockno : Nat)
    (b : Fin NBUF) (hhit : lookup BUCKETNUM s dev blockno = Lookup.hit b)
    (hfree : (s.buf b).lock = none) :
    ∃ s', bread BUCKETNUM s pid dev blockno = Outcome.ret b s' ∧
      (s'.buf b).info = (true, (s.buf b).dev, (s.buf b).blockno, some pid,
        ((s.buf b).refcnt + 1) % UINT, (s.buf b).ticks) ∧
      (∀ i, i ≠ b → s'.buf i = s.buf i) ∧ SameLinks s' s ∧ s'.ticks = s.ticks ∧
      ((s.buf b).valid = true → s'.io = s.io) := by
  obtain ⟨s1, hg, hself, hother, hh, g1, _, g3⟩ :=
    bget_hit_spec BUCKETNUM s pid dev blockno b hhit hfree
  obtain ⟨fv, fd, fk, fl, fc, ft, _⟩ := bread_fill_buf_self s1 b
  have hlinks1 : SameLinks s1 s := by
    refine ⟨hh, fun i => ?_⟩
    by_cases hi : i = b
    · subst hi; rw [hself]; exact ⟨rfl, rfl, rfl⟩
    · rw [hother i hi]; exact ⟨rfl, rfl, rfl⟩
  refine ⟨bread_fill s1 b, bread_of_bget_ret BUCKETNUM s s1 pid dev blockno b hg, ?_, ?_,
    (sameLinks_bread_fill s1 b).trans hlinks1, ?_, ?_⟩
  · simp only [Buf.info, fv, fd, fk, fl, fc, ft, hself]
  · intro i hi
    rw [bread_fill_buf_other s1 b i hi]
    exact hother i hi
  · rw [(bread_fill_globals s1 b).2, g1]
  · intro hv
    rw [(bread_fill_io s1 b).1 (by rw [hself]; exact hv), g3]

/-! ## Reading without releasing -/

theorem allHeld_boot (BUCKETNUM : Nat) (disk : Nat → Nat → List Nat) :
    AllHeld BUCKETNUM (binit (boot disk) : State NBUF) ∅ [] := by
  obtain ⟨L, hok⟩ := @wellChained_boot NBUF BUCKETNUM disk
  have hempty : ∀ h, L h = [] := by
    intro h
    exact isChain_none _ _ (hok.1 h)
  refine ⟨L, hok, ?_, ?_, ?_⟩
  · intro h i hi
    rw [hempty h] at hi
    simp at hi
  · intro i hi
    simp at hi
  · intro i _
    exact ⟨rfl, rfl⟩

theorem allHeld_miss (BUCKETNUM : Nat) (s : State NBUF) (held : Finset (Fin NBUF))
    (keys : List (Nat × Nat)) (dev blockno : Nat) (h : AllHeld BUCKETNUM s held keys)
    (hnew : (dev, blockno) ∉ keys) : lookup BUCKETNUM s dev blockno = Lookup.miss := by
  obtain ⟨L, hok, hsub, hheld, _⟩ := h
  rcases lookup_of_chainsOK BUCKETNUM s L dev blockno hok with ⟨hm, _⟩ | ⟨b, _, hbl, hd, hk⟩
  · exact hm
  · have := (hheld b (hsub _ b hbl)).2
    rw [hd, hk] at this
    exact absurd this hnew

theorem allHeld_step (BUCKETNUM : Nat) (s : State NBUF) (held : Finset (Fin NBUF))
    (keys : List (Nat × Nat)) (pid dev blockno : Nat) (h : AllHeld BUCKETNUM s held keys)
    (hnew : (dev, blockno) ∉ keys) (hroom : held.card < NBUF) :
    ∃ r s', bread BUCKETNUM s pid dev blockno = Outcome.ret r s' ∧ r ∉ held ∧
      AllHeld BUCKETNUM s' (insert r held) ((dev, blockno) :: keys) := by
  have hmiss := allHeld_miss BUCKETNUM s held keys dev blockno h hnew
  obtain ⟨L, hok, hsub, hheld, hfree⟩ := h
  have hex : ∃ i, i ∉ held := by
    by_contra hall
    push_neg at hall
    have : held = Finset.univ := Finset.eq_univ_iff_forall.2 hall
    rw [this, Finset.card_univ, Fintype.card_fin] at hroom
    exact lt_irrefl _ hroom
  obtain ⟨i0, hi0⟩ := hex
  cases hs : scan s with
  | none => exact absurd (hfree i0 hi0).1 (scan_none s hs i0)
  | some r =>
    have hr0 := (scan_some s r hs).1
    have hrn : r ∉ held := by
      intro hr
      have := (hheld r hr).1
      omega
    obtain ⟨s', hb, hok', hinfo, hother, _, _⟩ :=
      bread_miss_spec BUCKETNUM s L pid dev blockno r hok hmiss hs (hfree r hrn).2
    simp only [Buf.info, Prod.mk.injEq] at hinfo
    obtain ⟨_, hd, hk, _, hc, _⟩ := hinfo
    refine ⟨r, s', hb, hrn, _, hok', ?_, ?_, ?_⟩
    · intro h i hi
      simp only [recycledChains] at hi
      split at hi
      · rcases List.mem_cons.1 hi with rfl | hi
        · exact Finset.mem_insert_self _ _
        · exact Finset.mem_insert_of_mem (hsub h i (List.mem_of_mem_erase hi))
      · exact Finset.mem_insert_of_mem (hsub h i (List.mem_of_mem_erase hi))
    · intro i hi
      by_cases hir : i = r
      · subst hir
        exact ⟨hc, by rw [hd, hk]; simp⟩
      · have hib : i ∈ held := by
          rcases Finset.mem_insert.1 hi with h1 | h1
          · exact absurd h1 hir
          · exact h1
        obtain ⟨_, _, e3, e4, _, e6, _⟩ := (hother i hir).fields
        rw [e3, e4, e6]
        exact ⟨(hheld i hib).1, List.mem_cons_of_mem _ (hheld i hib).2⟩
    · intro i hi
      have hir : i ≠ r := by
        rintro rfl
        exact hi (Finset.mem_insert_self _ _)
      have hib : i ∉ held := fun hh => hi (Finset.mem_insert_of_mem hh)
      obtain ⟨_, _, _, _, e5, e6, _⟩ := (hother i hir).fields
      rw [e5, e6]
      exact hfree i hib

theorem bread_of_bget_panic (BUCKETNUM : Nat) (s s1 : State NBUF) (pid dev blockno : Nat)
    (msg : String) (h : bget BUCKETNUM s pid dev blockno = Outcome.panic msg s1) :
    bread BUCKETNUM s pid dev blockno = Outcome.panic msg s1 := by
  unfold bread; rw [h]

theorem allHeld_full (BUCKETNUM : Nat) (s : State NBUF) (keys : List (Nat × Nat))
    (pid dev blockno : Nat) (h : AllHeld BUCKETNUM s Finset.univ keys)
    (hnew : (dev, blockno) ∉ keys) :
    bread BUCKETNUM s pid dev blockno = Outcome.panic "bget: no buffers" s := by
  have hmiss := allHeld_miss BUCKETNUM s Finset.univ keys dev blockno h hnew
  obtain ⟨L, _, _, hheld, _⟩ := h
  have hnone : scan s = none := by
    rw [scan_eq_none_iff]
    intro j
    rw [(hheld j (Finset.mem_univ j)).1]
    decide
  exact bread_of_bget_panic BUCKETNUM s s pid dev blockno _
    (bget_of_miss_none BUCKETNUM s pid dev blockno hmiss hnone)

theorem breadSeq_allHeld (BUCKETNUM : Nat) :
    ∀ (reqs : List (Nat × Nat × Nat)) (s : State NBUF) (held : Finset (Fin NBUF))
      (keys : List (Nat × Nat)), AllHeld BUCKETNUM s held keys →
      held.card + reqs.length ≤ NBUF → (reqs.map reqKey).Nodup →
      (∀ q, q ∈ reqs → reqKey q ∉ keys) →
      ∃ sf bs held' keys', breadSeq BUCKETNUM s reqs = some (sf, bs) ∧
        bs.Nodup ∧ bs.length = reqs.length ∧ (∀ b, b ∈ bs → b ∉ held) ∧
        AllHeld BUCKETNUM sf held' keys' ∧ held'.card = held.card + reqs.length ∧
        (∀ k, k ∈ keys' → k ∈ keys ∨ k ∈ reqs.map reqKey) := by
  intro reqs
  induction reqs with
  | nil =>
    intro s held keys h _ _ _
    exact ⟨s, [], held, keys, rfl, List.nodup_nil, rfl, by simp, h, by simp,
      fun k hk => Or.inl hk⟩
  | cons q rest ih =>
    intro s held keys h hroom hnd hfresh
    obtain ⟨pid, dev, blockno⟩ := q
    rw [List.map_cons, List.nodup_cons] at hnd
    obtain ⟨hq, hnd'⟩ := hnd
    have hlen : held.card < NBUF := by
      simp only [List.length_cons] at hroom
      omega
    have hnew : (dev, blockno) ∉ keys := hfresh (pid, dev, blockno) (by simp)
    obtain ⟨r, s', hb, hrn, h'⟩ :=
      allHeld_step BUCKETNUM s held keys pid dev blockno h hnew hlen
    have hcard : (insert r held).card = held.card + 1 := Finset.card_insert_of_not_mem hrn
    obtain ⟨sf, bs, held', keys', hrun, hbn, hbl, hbh, hfin, hfc, hfk⟩ :=
      ih s' (insert r held) ((dev, blockno) :: keys) h'
        (by rw [hcard]; simp only [List.length_cons] at hroom; omega) hnd'
        (by
          intro q' hq' hmem
          rcases List.mem_cons.1 hmem with h1 | h1
          · apply hq
            have : reqKey q' ∈ rest.map reqKey := List.mem_map_of_mem _ hq'
            rw [h1] at this
            exact this
          · exact hfresh q' (by simp [hq']) h1)
    refine ⟨sf, r :: bs, held', keys', ?_, ?_, ?_, ?_, hfin, ?_, ?_⟩
    · simp only [breadSeq, hb, hrun]
    · rw [List.nodup_cons]
      exact ⟨fun hr => hbh r hr (Finset.mem_insert_self _ _), hbn⟩
    · simp [hbl]
    · intro b hbm
      rcases List.mem_cons.1 hbm with rfl | hbm
      · exact hrn
      · exact fun hh => hbh b hbm (Finset.mem_insert_of_mem hh)
    · rw [hfc, hcard]
      simp only [List.length_cons]
      omega
    · intro k hk
      rcases hfk k hk with h1 | h1
      · rcases List.mem_cons.1 h1 with h2 | h2
        · right; rw [h2]; simp [reqKey]
        · left; exact h2
      · right; simp only [List.map_cons]; exact List.mem_cons_of_mem _ h1

/-! ## Snapshots: the chained slots and the slot records -/

theorem advance_frame (k : Nat) :
    ∀ s : State NBUF, (advance k s).buf = s.buf ∧ (advance k s).head = s.head ∧
      (advance k s).disk = s.disk ∧ (advance k s).io = s.io := by
  induction k with
  | zero => intro s; exact ⟨rfl, rfl, rfl, rfl⟩
  | succ k ih =>
    intro s
    obtain ⟨h1, h2, h3, h4⟩ := ih (clockintr s)
    exact ⟨h1, h2, h3, h4⟩

theorem advance_ticks (k : Nat) :
    ∀ s : State NBUF, s.ticks + k < UINT → (advance k s).ticks = s.ticks + k := by
  induction k with
  | zero => intro s _; rfl
  | succ k ih =>
    intro s h
    have h1 : (clockintr s).ticks = s.ticks + 1 := by
      simp only [clockintr]
      exact Nat.mod_eq_of_lt (by omega)
    have := ih (clockintr s) (by rw [h1]; omega)
    simp only [advance]
    rw [this, h1]
    omega

theorem sameLinks_advance (k : Nat) (s : State NBUF) : SameLinks (advance k s) s := by
  obtain ⟨h1, h2, _, _⟩ := advance_frame k s
  exact ⟨h2, fun i => by rw [h1]; exact ⟨rfl, rfl, rfl⟩⟩

theorem snap_boot (BUCKETNUM : Nat) (disk : Nat → Nat → List Nat) :
    Snap BUCKETNUM (binit (boot disk) : State NBUF) ∅ := by
  obtain ⟨L, hok⟩ := @wellChained_boot NBUF BUCKETNUM disk
  have hempty : ∀ h, L h = [] := fun h => isChain_none _ _ (hok.1 h)
  refine ⟨L, hok, fun i => ⟨?_, ?_⟩⟩
  · rintro ⟨h, hi⟩
    rw [hempty h] at hi
    simp at hi
  · intro hi
    simp at hi

theorem snap_of_sameLinks (BUCKETNUM : Nat) (s s' : State NBUF) (C : Finset (Fin NBUF))
    (hl : SameLinks s' s) (h : Snap BUCKETNUM s C) : Snap BUCKETNUM s' C := by
  obtain ⟨L, hok, hC⟩ := h
  exact ⟨L, chainsOK_of_sameLinks BUCKETNUM s s' L hl hok, hC⟩

theorem snap_lookup_miss (BUCKETNUM : Nat) (s : State NBUF) (C : Finset (Fin NBUF))
    (dev blockno : Nat) (h : Snap BUCKETNUM s C)
    (hnew : ∀ i, i ∈ C → ¬ ((s.buf i).dev = dev ∧ (s.buf i).blockno = blockno)) :
    lookup BUCKETNUM s dev blockno = Lookup.miss := by
  obtain ⟨L, hok, hC⟩ := h
  rcases lookup_of_chainsOK BUCKETNUM s L dev blockno hok with ⟨hm, _⟩ | ⟨b, _, hbl, hd, hk⟩
  · exact hm
  · exact absurd ⟨hd, hk⟩ (hnew b ((hC b).1 ⟨_, hbl⟩))

theorem snap_lookup_hit (BUCKETNUM : Nat) (s : State NBUF) (C : Finset (Fin NBUF))
    (dev blockno : Nat) (b : Fin NBUF) (h : Snap BUCKETNUM s C) (hb : b ∈ C)
    (hd : (s.buf b).dev = dev) (hk : (s.buf b).blockno = blockno) :
    lookup BUCKETNUM s dev blockno = Lookup.hit b := by
  obtain ⟨L, hok, hC⟩ := h
  obtain ⟨h, hbl⟩ := (hC b).2 hb
  exact lookup_hit_of_mem BUCKETNUM s L dev blockno b h hok hbl hd hk

/-- A `bread` that misses, seen on the snapshot. -/
theorem snap_miss (BUCKETNUM : Nat) (s : State NBUF) (C : Finset (Fin NBUF))
    (pid dev blockno : Nat) (r : Fin NBUF) (h : Snap BUCKETNUM s C)
    (hnew : ∀ i, i ∈ C → ¬ ((s.buf i).dev = dev ∧ (s.buf i).blockno = blockno))
    (hr : FirstLeast s r) (hfree : (s.buf r).lock = none) :
    ∃ s', bread BUCKETNUM s pid dev blockno = Outcome.ret r s' ∧
      Snap BUCKETNUM s' (insert r C) ∧
      (s'.buf r).info = (true, dev, blockno, some pid, 1, s.ticks) ∧
      (∀ i, i ≠ r → (s'.buf i).info = (s.buf i).info) ∧
      s'.ticks = s.ticks ∧ s'.io = s.io ++ [(r, false)] := by
  have hmiss := snap_lookup_miss BUCKETNUM s C dev blockno h hnew
  obtain ⟨L, hok, hC⟩ := h
  obtain ⟨s', hb, hok', hinfo, hother, ht, hio⟩ :=
    bread_miss_spec BUCKETNUM s L pid dev blockno r hok hmiss (scan_of_firstLeast s r hr) hfree
  refine ⟨s', hb, ⟨_, hok', ?_⟩, hinfo, fun i hi => (hother i hi).info_eq, ht, hio⟩
  intro i
  constructor
  · rintro ⟨h, hi⟩
    simp only [recycledChains] at hi
    split at hi
    · rcases List.mem_cons.1 hi with rfl | hi
      · exact Finset.mem_insert_self _ _
      · exact Finset.mem_insert_of_mem ((hC i).1 ⟨h, List.mem_of_mem_erase hi⟩)
    · exact Finset.mem_insert_of_mem ((hC i).1 ⟨h, List.mem_of_mem_erase hi⟩)
  · intro hi
    by_cases hir : i = r
    · subst hir
      exact ⟨HASH BUCKETNUM blockno, by simp [recycledChains]⟩
    · rcases Finset.mem_insert.1 hi with h1 | h1
      · exact absurd h1 hir
      · obtain ⟨h, hil⟩ := (hC i).2 h1
        refine ⟨h, ?_⟩
        have : i ∈ (L h).erase r := (List.mem_erase_of_ne hir).2 hil
        simp only [recycledChains]
        split
        · exact List.mem_cons_of_mem _ this
        · exact this

/-- A `bread` that hits, seen on the snapshot. -/
theorem snap_hit (BUCKETNUM : Nat) (s : State NBUF) (C : Finset (Fin NBUF))
    (pid dev blockno : Nat) (b : Fin NBUF) (h : Snap BUCKETNUM s C) (hb : b ∈ C)
    (hd : (s.buf b).dev = dev) (hk : (s.buf b).blockno = blockno)
    (hfree : (s.buf b).lock = none) :
    ∃ s', bread BUCKETNUM s pid dev blockno = Outcome.ret b s' ∧
      Snap BUCKETNUM s' C ∧
      (s'.buf b).info = (true, dev, blockno, some pid,
        ((s.buf b).refcnt + 1) % UINT, (s.buf b).ticks) ∧
      (∀ i, i ≠ b → s'.buf i = s.buf i) ∧ s'.ticks = s.ticks ∧
      ((s.buf b).valid = true → s'.io = s.io) := by
  have hhit := snap_lookup_hit BUCKETNUM s C dev blockno b h hb hd hk
  obtain ⟨s', hbr, hinfo, hother, hl, ht, hio⟩ :=
    bread_hit_spec BUCKETNUM s pid dev blockno b hhit hfree
  rw [hd, hk] at hinfo
  exact ⟨s', hbr, snap_of_sameLinks BUCKETNUM s s' C hl h, hinfo, hother, ht, hio⟩

/-- A `brelse` by the holder, seen on the snapshot. -/
theorem snap_brelse (BUCKETNUM : Nat) (s : State NBUF) (C : Finset (Fin NBUF))
    (pid : Nat) (b : Fin NBUF) (h : Snap BUCKETNUM s C) (hheld : (s.buf b).lock = some pid)
    (hpos : 1 ≤ (s.buf b).refcnt) (hrange : (s.buf b).refcnt < UINT) :
    ∃ s', brelse s pid b = Outcome.ret () s' ∧ Snap BUCKETNUM s' C ∧
      (s'.buf b).info = ((s.buf b).valid, (s.buf b).dev, (s.buf b).blockno, none,
        (s.buf b).refcnt - 1, if (s.buf b).refcnt = 1 then s.ticks else (s.buf b).ticks) ∧
      (∀ i, i ≠ b → s'.buf i = s.buf i) ∧ s'.ticks = s.ticks ∧ s'.io = s.io := by
  rcases brelse_cases s pid b with ⟨_, e⟩ | ⟨hf, _⟩
  · have hr : ((releasesleep s b).buf b) = { s.buf b with lock := none } := by
      simp [releasesleep]
    have hself := brelse_dec_buf_self (releasesleep s b) b (by rw [hr]; exact hpos)
      (by rw [hr]; exact hrange)
    rw [hr] at hself
    have hlinks : SameLinks (brelse_dec (releasesleep s b) b) s :=
      (sameLinks_brelse_dec _ b).trans (sameLinks_releasesleep s b)
    have hglob : (brelse_dec (releasesleep s b) b).ticks = s.ticks ∧
        (brelse_dec (releasesleep s b) b).io = s.io := by
      unfold brelse_dec
      split <;> exact ⟨rfl, rfl⟩
    refine ⟨_, e, snap_of_sameLinks BUCKETNUM s _ C hlinks h, ?_, ?_, hglob.1, hglob.2⟩
    · rw [hself]
      rfl
    · intro i hi
      rw [(brelse_dec_refcnt (releasesleep s b) b).2 i hi]
      simp only [releasesleep]
      exact setBuf_buf_ne _ _ _ _ hi
  · have : holdingsleep s pid b = true := by simp [holdingsleep, hheld]
    rw [this] at hf; cases hf

theorem firstLeast_congr (s s' : State NBUF) (r : Fin NBUF) (hb : s'.buf = s.buf)
    (h : FirstLeast s r) : FirstLeast s' r := by
  unfold FirstLeast at h ⊢
  rw [hb]
  exact h

/-- One read of a key that is not cached followed by the release of the slot,
seen on the snapshot: the victim ends up on a chain, valid, unused, unlocked
and stamped with the `ticks` value at the release. -/
theorem readRelease_miss (BUCKETNUM : Nat) (s : State NBUF) (C : Finset (Fin NBUF))
    (pid : Nat) (key : Nat × Nat) (r : Fin NBUF) (dRead dRel : Nat)
    (h : Snap BUCKETNUM s C)
    (hnew : ∀ i, i ∈ C → ¬ ((s.buf i).dev = key.1 ∧ (s.buf i).blockno = key.2))
    (hr : FirstLeast s r) (hfree : (s.buf r).lock = none)
    (hwrap : s.ticks + dRead + dRel < UINT) :
    ∃ s2, readRelease BUCKETNUM s pid key dRead dRel = some (r, s2) ∧
      Snap BUCKETNUM s2 (insert r C) ∧
      (s2.buf r).info = (true, key.1, key.2, none, 0, s.ticks + dRead + dRel) ∧
      (∀ i, i ≠ r → (s2.buf i).info = (s.buf i).info) ∧
      s2.ticks = s.ticks + dRead + dRel := by
  obtain ⟨a1, a2, _, _⟩ := advance_frame dRead s
  have at1 := advance_ticks dRead s (by omega)
  obtain ⟨s1, hb1, hsnap1, hinfo1, hother1, ht1, _⟩ :=
    snap_miss BUCKETNUM (advance dRead s) C pid key.1 key.2 r
      (snap_of_sameLinks BUCKETNUM s _ C (sameLinks_advance dRead s) h)
      (by rw [a1]; exact hnew) (firstLeast_congr s _ r a1 hr) (by rw [a1]; exact hfree)
  simp only [Buf.info, Prod.mk.injEq] at hinfo1
  obtain ⟨i1, i2, i3, i4, i5, i6⟩ := hinfo1
  obtain ⟨b1, b2, _, _⟩ := advance_frame dRel s1
  have bt1 := advance_ticks dRel s1 (by rw [ht1, at1]; omega)
  obtain ⟨s2, hb2, hsnap2, hinfo2, hother2, ht2, _⟩ :=
    snap_brelse BUCKETNUM (advance dRel s1) (insert r C) pid r
      (snap_of_sameLinks BUCKETNUM s1 _ _ (sameLinks_advance dRel s1) hsnap1)
      (by rw [b1]; exact i4) (by rw [b1, i5]) (by rw [b1, i5, UINT_eq]; decide)
  refine ⟨s2, ?_, hsnap2, ?_, ?_, ?_⟩
  · simp only [readRelease, hb1, hb2]
  · rw [hinfo2, b1, i1, i2, i3, i5, bt1, ht1, at1]
    simp
  · intro i hi
    rw [hother2 i hi, b1, hother1 i hi, a1]
  · rw [ht2, bt1, ht1, at1]

/-! ## Every returning `bread` is a hit or a recycling -/

theorem bread_ret_cases (BUCKETNUM : Nat) (s s' : State NBUF) (L : Nat → List (Fin NBUF))
    (pid dev blockno : Nat) (b : Fin NBUF) (hok : ChainsOK BUCKETNUM s L)
    (h : bread BUCKETNUM s pid dev blockno = Outcome.ret b s') :
    (lookup BUCKETNUM s dev blockno = Lookup.hit b ∧ (∃ k, b ∈ L k) ∧
      ChainsOK BUCKETNUM s' L ∧
      (s'.buf b).info = (true, (s.buf b).dev, (s.buf b).blockno, some pid,
        ((s.buf b).refcnt + 1) % UINT, (s.buf b).ticks) ∧
      (∀ i, i ≠ b → s'.buf i = s.buf i) ∧ s'.ticks = s.ticks) ∨
    (lookup BUCKETNUM s dev blockno = Lookup.miss ∧ scan s = some b ∧
      ChainsOK BUCKETNUM s' (recycledChains BUCKETNUM L b blockno) ∧
      (s'.buf b).info = (true, dev, blockno, some pid, 1, s.ticks) ∧
      (∀ i, i ≠ b → (s'.buf i).eqUpToNext (s.buf i)) ∧ s'.ticks = s.ticks) := by
  obtain ⟨s1, hg, _⟩ := bread_ret_inv BUCKETNUM s s' pid dev blockno b h
  obtain ⟨_, _, _, _, hfree, _, _, _, _, hcase⟩ :=
    bget_ret_state BUCKETNUM s s1 pid dev blockno b hg
  rcases hcase with ⟨hhit, _⟩ | ⟨hmiss, hs, _⟩
  · left
    obtain ⟨s2, hb2, hinfo, hother, hl, ht, _⟩ :=
      bread_hit_spec BUCKETNUM s pid dev blockno b hhit hfree
    rw [h] at hb2
    cases hb2
    have hmem : ∃ k, b ∈ L k := by
      rcases lookup_of_chainsOK BUCKETNUM s L dev blockno hok with ⟨hm, _⟩ | ⟨c, hc, hcl, _⟩
      · rw [hhit] at hm; cases hm
      · rw [hhit] at hc
        cases hc
        exact ⟨_, hcl⟩
    exact ⟨hhit, hmem, chainsOK_of_sameLinks BUCKETNUM s s' L hl hok, hinfo, hother, ht⟩
  · right
    obtain ⟨s2, hb2, hok', hinfo, hother, ht, _⟩ :=
      bread_miss_spec BUCKETNUM s L pid dev blockno b hok hmiss hs hfree
    rw [h] at hb2
    cases hb2
    exact ⟨hmiss, hs, hok', hinfo, hother, ht⟩

theorem runCall_bread_inv (BUCKETNUM : Nat) (s s' : State NBUF) (pid dev blockno : Nat)
    (x : Option (Fin NBUF))
    (h : runCall BUCKETNUM s (Call.bread pid dev blockno) = some (s', x)) :
    ∃ b, bread BUCKETNUM s pid dev blockno = Outcome.ret b s' ∧ x = some b := by
  simp only [runCall] at h
  cases hb : bread BUCKETNUM s pid dev blockno with
  | ret b s1 =>
    rw [hb] at h
    simp only [Option.some.injEq, Prod.mk.injEq] at h
    obtain ⟨rfl, rfl⟩ := h
    exact ⟨b, rfl, rfl⟩
  | panic m s1 => rw [hb] at h; simp at h
  | blocked s1 => rw [hb] at h; simp at h
  | hang => rw [hb] at h; simp at h

theorem brelse_dec_ticks (s : State NBUF) (b : Fin NBUF) :
    (brelse_dec s b).ticks = s.ticks ∧
    (∀ i, ((brelse_dec s b).buf i).ticks = (s.buf i).ticks ∨
      ((brelse_dec s b).buf i).ticks = s.ticks) ∧
    (((brelse_dec s b).buf b).refcnt = 0 → ((brelse_dec s b).buf b).ticks = s.ticks) := by
  by_cases hz : ((s.buf b).refcnt + (UINT - 1)) % UINT = 0
  · rw [brelse_dec_of_zero s b hz]
    refine ⟨rfl, ?_, fun _ => by simp⟩
    intro i
    by_cases hi : i = b
    · subst hi; right; simp
    · left
      rw [setBuf_buf_ne _ _ _ _ hi]
      simp only [refcnt_dec]
      rw [setBuf_buf_ne _ _ _ _ hi]
  · rw [brelse_dec_of_ne_zero s b hz]
    refine ⟨rfl, ?_, ?_⟩
    · intro i
      left
      simp only [refcnt_dec, setBuf_buf]
      split <;> simp [*]
    · intro h0
      rw [refcnt_dec_buf_self] at h0
      exact absurd h0 hz

/-- A call other than a timer interrupt leaves the global `ticks` alone and
each slot's `ticks` is afterwards what it was or the global value. -/
theorem runCall_ticks (BUCKETNUM : Nat) (s s' : State NBUF) (c : Call NBUF)
    (x : Option (Fin NBUF)) (hw : WellChained BUCKETNUM s)
    (h : runCall BUCKETNUM s c = some (s', x)) (hc : c ≠ Call.tick) :
    s'.ticks = s.ticks ∧
      ∀ i, (s'.buf i).ticks = (s.buf i).ticks ∨ (s'.buf i).ticks = s.ticks := by
  cases c with
  | bread pid dev blockno =>
    obtain ⟨L, hok⟩ := hw
    obtain ⟨b, hb, _⟩ := runCall_bread_inv BUCKETNUM s s' pid dev blockno x h
    rcases bread_ret_cases BUCKETNUM s s' L pid dev blockno b hok hb with
      ⟨_, _, _, hinfo, hother, ht⟩ | ⟨_, _, _, hinfo, hother, ht⟩
    · refine ⟨ht, fun i => ?_⟩
      left
      by_cases hi : i = b
      · subst hi
        simp only [Buf.info, Prod.mk.injEq] at hinfo
        exact hinfo.2.2.2.2.2
      · rw [hother i hi]
    · refine ⟨ht, fun i => ?_⟩
      by_cases hi : i = b
      · subst hi
        right
        simp only [Buf.info, Prod.mk.injEq] at hinfo
        exact hinfo.2.2.2.2.2
      · left
        exact (hother i hi).fields.2.2.2.2.2.2.1
  | bwrite pid b =>
    simp only [runCall] at h
    rcases bwrite_cases s pid b with ⟨_, e⟩ | ⟨_, e⟩
    · rw [e] at h
      simp only [Option.some.injEq, Prod.mk.injEq] at h
      obtain ⟨rfl, _⟩ := h
      obtain ⟨h1, _, h3, _⟩ := bwrite_buf s _ pid b () e
      exact ⟨h3, fun i => Or.inl (by rw [h1])⟩
    · rw [e] at h; simp at h
  | brelse pid b =>
    simp only [runCall] at h
    rcases brelse_cases s pid b with ⟨_, e⟩ | ⟨_, e⟩
    · rw [e] at h
      simp only [Option.some.injEq, Prod.mk.injEq] at h
      obtain ⟨rfl, _⟩ := h
      obtain ⟨t1, t2, _⟩ := brelse_dec_ticks (releasesleep s b) b
      refine ⟨t1, fun i => ?_⟩
      have hr : ((releasesleep s b).buf i).ticks = (s.buf i).ticks := by
        simp only [releasesleep, setBuf_buf]
        split <;> simp [*]
      rcases t2 i with h1 | h1
      · left; rw [h1, hr]
      · right; rw [h1]; rfl
    · rw [e] at h; simp at h
  | bpin b =>
    simp only [runCall, Option.some.injEq, Prod.mk.injEq] at h
    obtain ⟨rfl, _⟩ := h
    refine ⟨rfl, fun i => Or.inl ?_⟩
    simp only [bpin, setBuf_buf]
    split <;> simp [*]
  | bunpin b =>
    simp only [runCall, Option.some.injEq, Prod.mk.injEq] at h
    obtain ⟨rfl, _⟩ := h
    refine ⟨rfl, fun i => Or.inl ?_⟩
    simp only [bunpin, refcnt_dec, setBuf_buf]
    split <;> simp [*]
  | tick => exact absurd rfl hc

theorem ticks_runCalls (BUCKETNUM : Nat) :
    ∀ (cs : List (Call NBUF)) (s s' : State NBUF), WellChained BUCKETNUM s →
      s.ticks + cs.count Call.tick < UINT → (∀ i, (s.buf i).ticks ≤ s.ticks) →
      runCalls BUCKETNUM s cs = some s' →
      s'.ticks = s.ticks + cs.count Call.tick ∧ ∀ i, (s'.buf i).ticks ≤ s'.ticks := by
  intro cs
  induction cs with
  | nil =>
    intro s s' _ _ hinv h
    simp only [runCalls, Option.some.injEq] at h
    subst h
    exact ⟨by simp, hinv⟩
  | cons c cs ih =>
    intro s s' hw hwrap hinv h
    simp only [runCalls] at h
    cases hc : runCall BUCKETNUM s c with
    | none => rw [hc] at h; simp at h
    | some p =>
      obtain ⟨s1, x⟩ := p
      rw [hc] at h
      have hw1 := wellChained_runCall BUCKETNUM s s1 c x hw hc
      by_cases htick : c = Call.tick
      · subst htick
        simp only [runCall, Option.some.injEq, Prod.mk.injEq] at hc
        obtain ⟨rfl, _⟩ := hc
        rw [List.count_cons_self] at hwrap ⊢
        have ht1 : (clockintr s).ticks = s.ticks + 1 := by
          simp only [clockintr]
          exact Nat.mod_eq_of_lt (by omega)
        obtain ⟨r1, r2⟩ := ih (clockintr s) s' hw1 (by rw [ht1]; omega)
          (by
            intro i
            rw [ht1]
            exact Nat.le_succ_of_le (hinv i)) h
        exact ⟨by rw [r1, ht1]; omega, r2⟩
      · have hcount : (c :: cs).count Call.tick = cs.count Call.tick :=
          List.count_cons_of_ne (fun hh => htick hh.symm) _
        rw [hcount] at hwrap ⊢
        obtain ⟨t1, t2⟩ := runCall_ticks BUCKETNUM s s1 c x hw hc htick
        obtain ⟨r1, r2⟩ := ih s1 s' hw1 (by rw [t1]; exact hwrap)
          (by
            intro i
            rw [t1]
            rcases t2 i with h1 | h1
            · rw [h1]; exact hinv i
            · rw [h1]) h
        exact ⟨by rw [r1, t1], r2⟩

/-! ## Lock events -/

theorem bget_tr_fst (BUCKETNUM : Nat) (s : State NBUF) (pid dev blockno : Nat) :
    (bget_tr BUCKETNUM s pid dev blockno).1 = bget BUCKETNUM s pid dev blockno := by
  unfold bget_tr bget
  cases lookup BUCKETNUM s dev blockno with
  | hang => rfl
  | hit b => rfl
  | miss =>
    simp only
    cases scan s with
    | none => rfl
    | some r =>
      simp only
      cases bget_recycle BUCKETNUM s r dev blockno with
      | none => rfl
      | some s1 => rfl

theorem bread_tr_fst (BUCKETNUM : Nat) (s : State NBUF) (pid dev blockno : Nat) :
    (bread_tr BUCKETNUM s pid dev blockno).1 = bread BUCKETNUM s pid dev blockno := by
  unfold bread_tr bread
  rw [← bget_tr_fst]
  rcases hb : bget_tr BUCKETNUM s pid dev blockno with ⟨o, ev⟩
  cases o <;> rfl

theorem bwrite_tr_fst (s : State NBUF) (pid : Nat) (b : Fin NBUF) :
    (bwrite_tr s pid b).1 = bwrite s pid b := by
  unfold bwrite_tr bwrite
  split <;> rfl

theorem brelse_tr_fst (BUCKETNUM : Nat) (s : State NBUF) (pid : Nat) (b : Fin NBUF) :
    (brelse_tr BUCKETNUM s pid b).1 = brelse s pid b := by
  unfold brelse_tr brelse
  split <;> rfl

/-- A list of events that passes the check: after each of its prefixes the
locks held are defined and of a permitted shape, and (when strict) no
spinlock is held at a blocking call. -/
theorem wellLocked_prefix (strict : Bool) :
    ∀ (evs : List (Event NBUF)) (held : List Lock), wellLocked strict held evs = true →
      ∀ k, ∃ held', locksHeld held (evs.take k) = some held' ∧ lockShape held' = true ∧
        (strict = true → ∀ e, evs.get? k = some e → e.blocking = true → held' = []) := by
  intro evs
  induction evs with
  | nil =>
    intro held h k
    simp only [wellLocked] at h
    refine ⟨held, by simp [locksHeld], h, ?_⟩
    intro _ e he
    simp at he
  | cons e es ih =>
    intro held h k
    simp only [wellLocked, Bool.and_eq_true, Bool.or_eq_true, Bool.not_eq_true',
      decide_eq_true_eq] at h
    obtain ⟨⟨hshape, hblock⟩, hrest⟩ := h
    cases k with
    | zero =>
      refine ⟨held, by simp [locksHeld], hshape, ?_⟩
      intro hs e' he' hb
      simp only [List.get?_cons_zero, Option.some.injEq] at he'
      subst he'
      rcases hblock with h1 | h1
      · simp [hs, hb] at h1
      · exact h1
    | succ k =>
      cases hstep : lockStep held e with
      | none => rw [hstep] at hrest; simp at hrest
      | some held1 =>
        rw [hstep] at hrest
        obtain ⟨held', h1, h2, h3⟩ := ih held1 hrest k
        refine ⟨held', ?_, h2, ?_⟩
        · simp only [List.take_succ_cons, locksHeld, hstep]
          exact h1
        · intro hs e' he'
          simp only [List.get?_cons_succ] at he'
          exact h3 hs e' he'

theorem lockShape_iff (held : List Lock) :
    lockShape held = true ↔
      (held = [] ∨ (∃ h, held = [Lock.bucket h]) ∨ held = [Lock.bcache] ∨
        ∃ h, held = [Lock.bcache, Lock.bucket h]) := by
  constructor
  · intro h
    match held, h with
    | [], _ => exact Or.inl rfl
    | [Lock.bucket k], _ => exact Or.inr (Or.inl ⟨k, rfl⟩)
    | [Lock.bcache], _ => exact Or.inr (Or.inr (Or.inl rfl))
    | [Lock.bcache, Lock.bucket k], _ => exact Or.inr (Or.inr (Or.inr ⟨k, rfl⟩))
  · rintro (rfl | ⟨k, rfl⟩ | rfl | ⟨k, rfl⟩) <;> rfl

theorem bget_tr_wellLocked (BUCKETNUM : Nat) (s : State NBUF) (pid dev blockno : Nat) :
    wellLocked true [] (bget_tr BUCKETNUM s pid dev blockno).2 = true := by
  unfold bget_tr
  cases lookup BUCKETNUM s dev blockno with
  | hang => simp [wellLocked, lockStep, lockShape, Event.blocking]
  | hit b => simp [wellLocked, lockStep, lockShape, Event.blocking]
  | miss =>
    simp only
    cases scan s with
    | none => simp [wellLocked, lockStep, lockShape, Event.blocking]
    | some r =>
      simp only
      cases bget_recycle BUCKETNUM s r dev blockno with
      | none => simp [wellLocked, lockStep, lockShape, Event.blocking]
      | some s1 => simp [wellLocked, lockStep, lockShape, Event.blocking]

theorem wellLocked_append_blocking (evs : List (Event NBUF)) (e : Event NBUF) :
    ∀ held, wellLocked true held evs = true → locksHeld held evs = some [] →
      lockStep [] e = some [] → wellLocked true held (evs ++ [e]) = true := by
  induction evs with
  | nil =>
    intro held _ hl he
    simp only [locksHeld, Option.some.injEq] at hl
    subst hl
    simp [wellLocked, lockShape, he]
  | cons a es ih =>
    intro held h hl he
    simp only [wellLocked, Bool.and_eq_true] at h
    obtain ⟨h1, h2⟩ := h
    simp only [List.cons_append, wellLocked, Bool.and_eq_true]
    refine ⟨h1, ?_⟩
    cases hstep : lockStep held a with
    | none => rw [hstep] at h2; simp at h2
    | some held1 =>
      rw [hstep] at h2
      simp only [locksHeld, hstep] at hl
      exact ih held1 h2 hl he

/-- When `bget` returns, all events have been emitted and no spinlock is
held. -/
theorem bget_tr_ret_free (BUCKETNUM : Nat) (s s1 : State NBUF) (pid dev blockno : Nat)
    (b : Fin NBUF) (ev : List (Event NBUF))
    (h : bget_tr BUCKETNUM s pid dev blockno = (Outcome.ret b s1, ev)) :
    locksHeld [] ev = some [] := by
  unfold bget_tr at h
  cases hl : lookup BUCKETNUM s dev blockno with
  | hang => rw [hl] at h; simp at h
  | hit c =>
    rw [hl] at h
    simp only [Prod.mk.injEq] at h
    rw [← h.2]
    simp [locksHeld, lockStep]
  | miss =>
    rw [hl] at h
    simp only at h
    cases hs : scan s with
    | none => rw [hs] at h; simp at h
    | some r =>
      rw [hs] at h
      simp only at h
      cases hr : bget_recycle BUCKETNUM s r dev blockno with
      | none => rw [hr] at h; simp at h
      | some s2 =>
        rw [hr] at h
        simp only [Prod.mk.injEq] at h
        rw [← h.2]
        simp [locksHeld, lockStep]

theorem bread_tr_wellLocked (BUCKETNUM : Nat) (s : State NBUF) (pid dev blockno : Nat) :
    wellLocked true [] (bread_tr BUCKETNUM s pid dev blockno).2 = true := by
  have hg := bget_tr_wellLocked BUCKETNUM s pid dev blockno
  unfold bread_tr
  rcases hb : bget_tr BUCKETNUM s pid dev blockno with ⟨o, ev⟩
  rw [hb] at hg
  cases o with
  | ret b s1 =>
    simp only
    split
    · exact hg
    · exact wellLocked_append_blocking ev _ [] hg
        (bget_tr_ret_free BUCKETNUM s s1 pid dev blockno b ev hb) rfl
  | panic m s1 => exact hg
  | blocked s1 => exact hg
  | hang => exact hg

theorem bwrite_tr_wellLocked (s : State NBUF) (pid : Nat) (b : Fin NBUF) :
    wellLocked true [] (bwrite_tr s pid b).2 = true := by
  unfold bwrite_tr
  split <;> simp [wellLocked, lockStep, lockShape, Event.blocking]

theorem brelse_tr_wellLocked (BUCKETNUM : Nat) (s : State NBUF) (pid : Nat) (b : Fin NBUF) :
    wellLocked true [] (brelse_tr BUCKETNUM s pid b).2 = true := by
  unfold brelse_tr
  split <;> simp [wellLocked, lockStep, lockShape, Event.blocking]

theorem bpin_tr_wellLocked (BUCKETNUM : Nat) (s : State NBUF) (b : Fin NBUF) :
    wellLocked true [] (bpin_tr BUCKETNUM s b).2 = true := by
  simp [bpin_tr, wellLocked, lockStep, lockShape, Event.blocking]

theorem bunpin_tr_wellLocked (BUCKETNUM : Nat) (s : State NBUF) (b : Fin NBUF) :
    wellLocked true [] (bunpin_tr BUCKETNUM s b).2 = true := by
  simp [bunpin_tr, wellLocked, lockStep, lockShape, Event.blocking]

theorem nestedLocks_of_wellLocked (t : List (Event NBUF))
    (h : wellLocked true [] t = true) : NestedLocks t := by
  intro k
  obtain ⟨held, h1, h2, _⟩ := wellLocked_prefix true t [] h k
  exact ⟨held, h1, (lockShape_iff held).1 h2⟩

theorem noLockAtBlocking_of_wellLocked (t : List (Event NBUF))
    (h : wellLocked true [] t = true) : NoLockAtBlocking t := by
  intro k e he hb
  obtain ⟨held, h1, _, h3⟩ := wellLocked_prefix true t [] h k
  rw [h1, h3 rfl e he hb]

/-! ## The fuel of the chain walks is enough

A walk that uses up `NBUF + 1` units of fuel has met some slot twice, and the
C loop, which does not write to the chain while it searches, never ends. -/

theorem walk_none (s : State NBUF) : ∀ k, walk s k none = none := by
  intro k
  cases k <;> rfl

theorem walk_add (s : State NBUF) :
    ∀ (a b : Nat) (p : Option (Fin NBUF)), walk s (a + b) p = walk s a (walk s b p) := by
  intro a b
  induction b with
  | zero => intro p; rfl
  | succ b ih =>
    intro p
    cases p with
    | none => rw [walk_none, walk_none, walk_none]
    | some x =>
      show walk s (a + b) (s.buf x).next = walk s a (walk s b (s.buf x).next)
      exact ih _

theorem lookupLoop_hang_iff (s : State NBUF) (dev blockno : Nat) :
    ∀ (fuel : Nat) (p : Option (Fin NBUF)),
      lookupLoop s dev blockno fuel p = Lookup.hang ↔
        ∀ j, j < fuel → ∃ b, walk s j p = some b ∧
          ¬ ((s.buf b).dev = dev ∧ (s.buf b).blockno = blockno) := by
  intro fuel
  induction fuel with
  | zero =>
    intro p
    simp [lookupLoop]
  | succ f ih =>
    intro p
    cases p with
    | none =>
      simp only [lookupLoop]
      constructor
      · intro h; cases h
      · intro h
        obtain ⟨b, hb, _⟩ := h 0 (Nat.succ_pos f)
        cases hb
    | some x =>
      simp only [lookupLoop]
      by_cases hk : (s.buf x).dev = dev ∧ (s.buf x).blockno = blockno
      · rw [if_pos hk]
        constructor
        · intro h; cases h
        · intro h
          obtain ⟨b, hb, hnb⟩ := h 0 (Nat.succ_pos f)
          simp only [walk, Option.some.injEq] at hb
          subst hb
          exact absurd hk hnb
      · rw [if_neg hk, ih]
        constructor
        · intro h j hj
          cases j with
          | zero => exact ⟨x, rfl, hk⟩
          | succ j => exact h j (by omega)
        · intro h j hj
          exact h (j + 1) (by omega)

/-- A walk that repeats a pointer stays among the pointers seen before the
repetition. -/
theorem walk_periodic (s : State NBUF) (p : Option (Fin NBUF)) (i j : Nat) (hij : i < j)
    (h : walk s i p = walk s j p) : ∀ m, ∃ k, k < j ∧ walk s m p = walk s k p := by
  intro m
  induction m using Nat.strong_induction_on with
  | _ m ih =>
    by_cases hm : m < j
    · exact ⟨m, hm, rfl⟩
    · have hmj : m = (m - j) + j := by omega
      have h1 : walk s m p = walk s ((m - j) + i) p := by
        rw [walk_add s (m - j) i p, h, ← walk_add s (m - j) j p, ← hmj]
      obtain ⟨k, hk, hk2⟩ := ih ((m - j) + i) (by omega)
      exact ⟨k, hk, h1.trans hk2⟩

/-- More fuel does not help a search that has used up `NBUF + 1` units. -/
theorem lookupLoop_hang_forever (s : State NBUF) (dev blockno : Nat) (p : Option (Fin NBUF))
    (h : lookupLoop s dev blockno (NBUF + 1) p = Lookup.hang) :
    ∀ fuel, lookupLoop s dev blockno fuel p = Lookup.hang := by
  rw [lookupLoop_hang_iff] at h
  have hsome : ∀ j : Fin (NBUF + 1), ∃ b, walk s j.val p = some b := by
    intro j
    obtain ⟨b, hb, _⟩ := h j.val j.isLt
    exact ⟨b, hb⟩
  choose f hf using hsome
  obtain ⟨a, b, hab, hfab⟩ := Fintype.exists_ne_map_eq_of_card_lt f (by simp)
  have hwalk : walk s a.val p = walk s b.val p := by rw [hf a, hf b, hfab]
  have hne : a.val ≠ b.val := fun hh => hab (Fin.ext hh)
  intro fuel
  rw [lookupLoop_hang_iff]
  intro m _
  rcases Nat.lt_or_gt_of_ne hne with hlt | hgt
  · obtain ⟨k, hk, hk2⟩ := walk_periodic s p a.val b.val hlt hwalk m
    obtain ⟨x, hx, hnx⟩ := h k (by have := b.isLt; omega)
    exact ⟨x, by rw [hk2, hx], hnx⟩
  · obtain ⟨k, hk, hk2⟩ := walk_periodic s p b.val a.val hgt hwalk.symm m
    obtain ⟨x, hx, hnx⟩ := h k (by have := a.isLt; omega)
    exact ⟨x, by rw [hk2, hx], hnx⟩

theorem lookupLoop_more_fuel (s : State NBUF) (dev blockno : Nat) :
    ∀ (fuel : Nat) (p : Option (Fin NBUF)),
      lookupLoop s dev blockno fuel p ≠ Lookup.hang →
      lookupLoop s dev blockno (fuel + 1) p = lookupLoop s dev blockno fuel p := by
  intro fuel
  induction fuel with
  | zero => intro p h; exact absurd rfl h
  | succ f ih =>
    intro p h
    cases p with
    | none => rfl
    | some x =>
      simp only [lookupLoop] at h ⊢
      by_cases hk : (s.buf x).dev = dev ∧ (s.buf x).blockno = blockno
      · simp only [if_pos hk]
      · simp only [if_neg hk] at h ⊢
        exact ih _ h

/-- The search of `bget` gives the same result with any amount of fuel from
`NBUF + 1` on. -/
theorem lookupLoop_fuel_irrelevant (s : State NBUF) (dev blockno : Nat)
    (p : Option (Fin NBUF)) :
    ∀ k, lookupLoop s dev blockno (NBUF + 1 + k) p = lookupLoop s dev blockno (NBUF + 1) p := by
  intro k
  by_cases hh : lookupLoop s dev blockno (NBUF + 1) p = Lookup.hang
  · rw [hh]
    exact lookupLoop_hang_forever s dev blockno p hh _
  · induction k with
    | zero => rfl
    | succ k ih =>
      rw [← Nat.add_assoc, lookupLoop_more_fuel s dev blockno _ p (by rw [ih]; exact hh), ih]

theorem removeLoop_none_iff (s : State NBUF) (item : Fin NBUF) :
    ∀ (fuel : Nat) (b : Fin NBUF),
      removeLoop s item fuel b = none ↔
        ∀ j, j < fuel → ∃ x, walk s j (s.buf b).next = some x ∧ x ≠ item := by
  intro fuel
  induction fuel with
  | zero =>
    intro b
    simp [removeLoop]
  | succ f ih =>
    intro b
    unfold removeLoop
    cases hn : (s.buf b).next with
    | none =>
      simp only
      constructor
      · intro h; cases h
      · intro h
        obtain ⟨x, hx, _⟩ := h 0 (Nat.succ_pos f)
        cases hx
    | some nx =>
      simp only
      by_cases hi : nx = item
      · rw [if_pos hi]
        constructor
        · intro h; cases h
        · intro h
          obtain ⟨x, hx, hne⟩ := h 0 (Nat.succ_pos f)
          simp only [walk, Option.some.injEq] at hx
          subst hx
          exact absurd hi hne
      · rw [if_neg hi, ih]
        constructor
        · intro h j hj
          cases j with
          | zero => exact ⟨nx, rfl, hi⟩
          | succ j => exact h j (by omega)
        · intro h j hj
          exact h (j + 1) (by omega)

/-- More fuel does not help an unlink loop that has used up `NBUF + 1`
units. -/
theorem removeLoop_none_forever (s : State NBUF) (item b : Fin NBUF)
    (h : removeLoop s item (NBUF + 1) b = none) :
    ∀ fuel, removeLoop s item fuel b = none := by
  rw [removeLoop_none_iff] at h
  have hsome : ∀ j : Fin (NBUF + 1), ∃ x, walk s j.val (s.buf b).next = some x := by
    intro j
    obtain ⟨x, hx, _⟩ := h j.val j.isLt
    exact ⟨x, hx⟩
  choose f hf using hsome
  obtain ⟨a, c, hac, hfac⟩ := Fintype.exists_ne_map_eq_of_card_lt f (by simp)
  have hwalk : walk s a.val (s.buf b).next = walk s c.val (s.buf b).next := by
    rw [hf a, hf c, hfac]
  have hne : a.val ≠ c.val := fun hh => hac (Fin.ext hh)
  intro fuel
  rw [removeLoop_none_iff]
  intro m _
  rcases Nat.lt_or_gt_of_ne hne with hlt | hgt
  · obtain ⟨k, hk, hk2⟩ := walk_periodic s _ a.val c.val hlt hwalk m
    obtain ⟨x, hx, hnx⟩ := h k (by have := c.isLt; omega)
    exact ⟨x, by rw [hk2, hx], hnx⟩
  · obtain ⟨k, hk, hk2⟩ := walk_periodic s _ c.val a.val hgt hwalk.symm m
    obtain ⟨x, hx, hnx⟩ := h k (by have := a.isLt; omega)
    exact ⟨x, by rw [hk2, hx], hnx⟩

/-! ## The links rewritten by a recycling -/

theorem removeLoop_next (s : State NBUF) (item : Fin NBUF) :
    ∀ (fuel : Nat) (b : Fin NBUF) (s' : State NBUF), removeLoop s item fuel b = some s' →
      ∀ i, (s'.buf i).next = (s.buf i).next ∨
        ((s.buf i).next = some item ∧ (s'.buf i).next = (s.buf item).next) := by
  intro fuel
  induction fuel with
  | zero => intro b s' h; simp [removeLoop] at h
  | succ f ih =>
    intro b s' h
    unfold removeLoop at h
    cases hn : (s.buf b).next with
    | none =>
      rw [hn] at h
      cases h
      exact fun i => Or.inl rfl
    | some nx =>
      rw [hn] at h
      simp only at h
      by_cases hnx : nx = item
      · rw [if_pos hnx] at h
        cases h
        intro i
        by_cases hi : i = b
        · subst hi
          right
          exact ⟨by rw [hn, hnx], by simp⟩
        · left
          rw [setBuf_buf_ne _ _ _ _ hi]
      · rw [if_neg hnx] at h
        exact ih nx s' h

theorem buckets_remove_next (BUCKETNUM : Nat) (s s' : State NBUF) (item : Fin NBUF)
    (h : buckets_remove BUCKETNUM s item = some s') :
    ∀ i, (s'.buf i).next = (s.buf i).next ∨
      ((s.buf i).next = some item ∧ (s'.buf i).next = (s.buf item).next) := by
  unfold buckets_remove at h
  simp only at h
  split at h
  · cases h
    exact fun i => Or.inl rfl
  · rename_i hd _
    by_cases hh : hd = item
    · rw [if_pos hh] at h
      cases h
      exact fun i => Or.inl rfl
    · rw [if_neg hh] at h
      exact removeLoop_next s item _ _ _ h

/-- After a returning `bget` that missed and recycled `v`, a slot other than
`v` has the `next` it had, unless it pointed to `v`: then it points past
`v`. -/
theorem bget_miss_next (BUCKETNUM : Nat) (s s' : State NBUF) (pid dev blockno : Nat)
    (v : Fin NBUF) (hmiss : lookup BUCKETNUM s dev blockno = Lookup.miss)
    (hs : scan s = some v) (h : bget BUCKETNUM s pid dev blockno = Outcome.ret v s') :
    ∀ i, i ≠ v → (s'.buf i).next = (s.buf i).next ∨
      ((s.buf i).next = some v ∧ (s'.buf i).next = (s.buf v).next) := by
  cases hr : bget_recycle BUCKETNUM s v dev blockno with
  | none => rw [bget_of_miss_hang BUCKETNUM s pid dev blockno v hmiss hs hr] at h; cases h
  | some s1 =>
    rw [bget_of_miss_some BUCKETNUM s s1 pid dev blockno v hmiss hs hr] at h
    obtain ⟨_, ha⟩ := bget_sleep_ret_inv _ _ _ _ _ h
    obtain ⟨_, hlinks⟩ := sameLinks_bget_sleep _ _ _ _ _ h
    unfold bget_recycle at hr
    cases hrm : buckets_remove BUCKETNUM s v with
    | none => rw [hrm] at hr; simp at hr
    | some s0 =>
      rw [hrm] at hr
      simp only [Option.some.injEq] at hr
      subst hr
      intro i hi
      have h1 : (s'.buf i).next = (s0.buf i).next := by
        rw [(hlinks.2 i).1]
        simp only [buckets_insert, setHead_buf]
        rw [setBuf_buf_ne _ _ _ _ hi]
        simp only [bget_init]
        rw [setBuf_buf_ne _ _ _ _ hi]
      rw [h1]
      exact buckets_remove_next BUCKETNUM s s0 v hrm i

/-! ## The lock-by-lock steps of `bget` -/

/-- A process running alone reaches, lock by lock, the state the sequential
`bget` returns. -/
theorem solo_bget (BUCKETNUM : Nat) (s s' : State NBUF) (dev blockno : Nat) (b : Fin NBUF)
    (h : bget BUCKETNUM s 0 dev blockno = Outcome.ret b s') :
    BgetConfig.run BUCKETNUM { st := s, big := none, pcs := [BgetPC.search dev blockno] }
        [0, 0, 0, 0, 0, 0] =
      { st := s', big := none, pcs := [BgetPC.returned b] } := by
  cases hl : lookup BUCKETNUM s dev blockno with
  | hang => rw [bget_of_hang BUCKETNUM s 0 dev blockno hl] at h; cases h
  | hit c =>
    rw [bget_of_hit BUCKETNUM s 0 dev blockno c hl] at h
    obtain ⟨rfl, ha⟩ := bget_sleep_ret_inv _ _ _ _ _ h
    simp [BgetConfig.run, BgetConfig.step, bget_step, hl, ha]
  | miss =>
    cases hs : scan s with
    | none => rw [bget_of_miss_none BUCKETNUM s 0 dev blockno hl hs] at h; cases h
    | some r =>
      cases hr : bget_recycle BUCKETNUM s r dev blockno with
      | none => rw [bget_of_miss_hang BUCKETNUM s 0 dev blockno r hl hs hr] at h; cases h
      | some s2 =>
        rw [bget_of_miss_some BUCKETNUM s s2 0 dev blockno r hl hs hr] at h
        obtain ⟨rfl, ha⟩ := bget_sleep_ret_inv _ _ _ _ _ h
        unfold bget_recycle at hr
        cases hrm : buckets_remove BUCKETNUM s b with
        | none => rw [hrm] at hr; cases hr
        | some s1 =>
          rw [hrm] at hr
          simp only [Option.some.injEq] at hr
          subst hr
          simp [BgetConfig.run, BgetConfig.step, bget_step, hl, hs, hrm, ha]

end Bio

namespace Kalloc

/-! ## Facts about the allocator -/

theorem sum_range_update (f : Nat → Nat) (i v : Nat) :
    ∀ n, i < n →
      ((List.range n).map (Function.update f i v)).sum + f i =
        ((List.range n).map f).sum + v := by
  intro n
  induction n with
  | zero => intro h; omega
  | succ n ih =>
    intro h
    rw [List.range_succ, List.map_append, List.map_append, List.sum_append, List.sum_append]
    simp only [List.map_cons, List.map_nil, List.sum_cons, List.sum_nil, Nat.add_zero]
    by_cases hin : i = n
    · subst hin
      rw [Function.update_same]
      have : (List.range i).map (Function.update f i v) = (List.range i).map f := by
        apply List.map_congr_left
        intro j hj
        have : j ≠ i := by
          have := List.mem_range.1 hj
          omega
        rw [Function.update_noteq this]
      rw [this]
      omega
    · have hlt : i < n := by omega
      have := ih hlt
      rw [Function.update_noteq (fun hh => hin hh.symm)]
      omega

theorem sum_range_congr (f g : Nat → Nat) (n : Nat) (h : ∀ j, j < n → f j = g j) :
    ((List.range n).map f).sum = ((List.range n).map g).sum := by
  congr 1
  apply List.map_congr_left
  intro j hj
  exact h j (List.mem_range.1 hj)

/-- Replacing the list of one CPU changes the count of a page by the
difference of its counts on the old and the new list. -/
theorem pageCount_update (NCPU : Nat) (kmem : Kmem) (i : Nat) (l : List Nat) (a : Nat)
    (hi : i < NCPU) :
    pageCount NCPU (Function.update kmem i l) a + (kmem i).count a =
      pageCount NCPU kmem a + l.count a := by
  unfold pageCount
  have h := sum_range_update (fun j => (kmem j).count a) i (l.count a) NCPU hi
  have hc : ((List.range NCPU).map (fun j => (Function.update kmem i l j).count a)).sum =
      ((List.range NCPU).map (Function.update (fun j => (kmem j).count a) i (l.count a))).sum := by
    apply sum_range_congr
    intro j _
    by_cases hj : j = i
    · subst hj; simp
    · simp [Function.update_noteq hj]
  rw [hc]
  exact h

theorem stealLoop_count (a : Nat) :
    ∀ (k : Nat) (st vi : List Nat),
      (stealLoop k st vi).1.count a + (stealLoop k st vi).2.count a =
        st.count a + vi.count a := by
  intro k
  induction k with
  | zero => intro st vi; rfl
  | succ k ih =>
    intro st vi
    cases vi with
    | nil => rfl
    | cons p vi =>
      simp only [stealLoop]
      rw [ih (p :: st) vi, List.count_cons, List.count_cons]
      omega

theorem stealLoop_ne_nil :
    ∀ (k : Nat) (st vi : List Nat), 0 < k → vi ≠ [] → (stealLoop k st vi).1 ≠ [] := by
  intro k st vi hk hv
  cases k with
  | zero => omega
  | succ k =>
    cases vi with
    | nil => exact absurd rfl hv
    | cons p vi =>
      simp only [stealLoop]
      have : ∀ (m : Nat) (s v : List Nat), s ≠ [] → (stealLoop m s v).1 ≠ [] := by
        intro m
        induction m with
        | zero => intro s v hs; exact hs
        | succ m ih =>
          intro s v hs
          cases v with
          | nil => exact hs
          | cons q v => exact ih (q :: s) v (by simp)
      exact this k (p :: st) vi (by simp)

theorem stealCount_pos (n : Nat) (h : 0 < n) : 0 < stealCount n := by
  unfold stealCount
  split
  · omega
  · omega

theorem findVictim_some (NCPU : Nat) (kmem : Kmem) (stealer v : Nat)
    (h : findVictim NCPU kmem stealer = some v) :
    v < NCPU ∧ v ≠ stealer ∧ kmem v ≠ [] := by
  unfold findVictim at h
  have h1 := List.find?_some h
  have h2 := List.mem_of_find?_eq_some h
  simp only [Bool.and_eq_true, decide_eq_true_eq] at h1
  exact ⟨List.mem_range.1 h2, h1.1, h1.2⟩

theorem findVictim_none (NCPU : Nat) (kmem : Kmem) (stealer : Nat)
    (h : findVictim NCPU kmem stealer = none) :
    ∀ i, i < NCPU → i ≠ stealer → kmem i = [] := by
  unfold findVictim at h
  rw [List.find?_eq_none] at h
  intro i hi hne
  have := h i (List.mem_range.2 hi)
  simp only [Bool.and_eq_true, decide_eq_true_eq, not_and, not_not] at this
  exact this hne

theorem findVictim_of_all_empty (NCPU : Nat) (kmem : Kmem) (stealer : Nat)
    (h : ∀ i, i < NCPU → kmem i = []) : findVictim NCPU kmem stealer = none := by
  unfold findVictim
  rw [List.find?_eq_none]
  intro i hi
  simp [h i (List.mem_range.1 hi)]

/-- Stealing moves pages between lists and loses or duplicates none. -/
theorem mem_steal_pageCount (NCPU : Nat) (kmem : Kmem) (stealer a : Nat)
    (hs : stealer < NCPU) :
    pageCount NCPU (mem_steal NCPU kmem stealer) a = pageCount NCPU kmem a := by
  unfold mem_steal
  cases hf : findVictim NCPU kmem stealer with
  | none => rfl
  | some v =>
    obtain ⟨hv, hne, _⟩ := findVictim_some NCPU kmem stealer v hf
    simp only
    have h1 := pageCount_update NCPU kmem stealer
      (stealLoop (stealCount (kmem v).length) (kmem stealer) (kmem v)).1 a hs
    have h2 := pageCount_update NCPU
      (Function.update kmem stealer
        (stealLoop (stealCount (kmem v).length) (kmem stealer) (kmem v)).1) v
      (stealLoop (stealCount (kmem v).length) (kmem stealer) (kmem v)).2 a hv
    rw [Function.update_noteq hne] at h2
    have h3 := stealLoop_count a (stealCount (kmem v).length) (kmem stealer) (kmem v)
    omega

/-- After `mem_steal` the stealer has a page as soon as some other CPU had
one. -/
theorem mem_steal_self (NCPU : Nat) (kmem : Kmem) (stealer : Nat) :
    (findVictim NCPU kmem stealer = none ∧ mem_steal NCPU kmem stealer = kmem) ∨
    (∃ v, findVictim NCPU kmem stealer = some v ∧
      mem_steal NCPU kmem stealer stealer ≠ []) := by
  unfold mem_steal
  cases hf : findVictim NCPU kmem stealer with
  | none => left; exact ⟨rfl, rfl⟩
  | some v =>
    right
    obtain ⟨_, hne, hnil⟩ := findVictim_some NCPU kmem stealer v hf
    refine ⟨v, rfl, ?_⟩
    simp only
    rw [Function.update_noteq (fun hh => hne hh.symm), Function.update_same]
    apply stealLoop_ne_nil _ _ _ _ hnil
    apply stealCount_pos
    exact List.length_pos.2 hnil

theorem pageCount_eq_zero_iff (NCPU : Nat) (kmem : Kmem) (a : Nat) :
    pageCount NCPU kmem a = 0 ↔ ∀ i, i < NCPU → a ∉ kmem i := by
  unfold pageCount
  induction NCPU with
  | zero => simp
  | succ n ih =>
    rw [List.range_succ, List.map_append, List.sum_append]
    simp only [List.map_cons, List.map_nil, List.sum_cons, List.sum_nil, Nat.add_zero]
    constructor
    · intro h i hi
      have h1 : ((List.range n).map (fun i => (kmem i).count a)).sum = 0 := by omega
      have h2 : (kmem n).count a = 0 := by omega
      by_cases hin : i = n
      · subst hin
        exact List.count_eq_zero.1 h2
      · exact ih.1 h1 i (by omega)
    · intro h
      have h1 := ih.2 (fun i hi => h i (by omega))
      have h2 : (kmem n).count a = 0 := List.count_eq_zero.2 (h n (by omega))
      omega

/-- The three ways `kalloc` can go. -/
theorem kalloc_cases (NCPU : Nat) (kmem : Kmem) (c : Nat) :
    (∃ r rest, kmem c = r :: rest ∧
      kalloc NCPU kmem c = (some r, Function.update kmem c rest)) ∨
    (∃ r rest, kmem c = [] ∧ mem_steal NCPU kmem c c = r :: rest ∧
      kalloc NCPU kmem c = (some r, Function.update (mem_steal NCPU kmem c) c rest)) ∨
    (kmem c = [] ∧ mem_steal NCPU kmem c c = [] ∧
      kalloc NCPU kmem c = (none, mem_steal NCPU kmem c)) := by
  unfold kalloc
  cases h : kmem c with
  | cons r rest => left; exact ⟨r, rest, rfl, rfl⟩
  | nil =>
    right
    simp only
    cases h2 : mem_steal NCPU kmem c c with
    | cons r rest => left; exact ⟨r, rest, trivial, rfl, rfl⟩
    | nil => right; exact ⟨trivial, rfl, rfl⟩

theorem count_cons_ite (a r : Nat) (rest : List Nat) :
    (r :: rest).count a = rest.count a + (if a = r then 1 else 0) := by
  rw [List.count_cons]
  by_cases h : a = r
  · subst h; simp
  · have : r ≠ a := fun hh => h hh.symm
    simp [h, this]

/-! ## The victim and the amount taken by `mem_steal` -/

theorem find_range_least (p : Nat → Bool) :
    ∀ (n v : Nat), (List.range n).find? p = some v → ∀ j, j < v → p j = false := by
  intro n
  induction n with
  | zero => intro v h; simp at h
  | succ n ih =>
    intro v h j hj
    rw [List.range_succ, List.find?_append] at h
    cases hf : (List.range n).find? p with
    | some w =>
      rw [hf] at h
      simp only [Option.or_some, Option.some.injEq] at h
      subst h
      exact ih w hf j hj
    | none =>
      rw [hf] at h
      simp only [Option.none_or] at h
      have hv : v = n := by
        have := List.mem_of_find?_eq_some h
        simpa using this
      subst hv
      rw [List.find?_eq_none] at hf
      have := hf j (List.mem_range.2 hj)
      simpa using this

/-- The victim is the lowest-indexed CPU other than the stealer whose list is
not empty. -/
theorem findVictim_least (NCPU : Nat) (kmem : Kmem) (stealer v : Nat)
    (h : findVictim NCPU kmem stealer = some v) :
    ∀ j, j < v → j ≠ stealer → kmem j = [] := by
  intro j hj hne
  unfold findVictim at h
  have := find_range_least _ NCPU v h j hj
  simp only [Bool.and_eq_false_imp, decide_eq_true_eq, decide_eq_false_iff_not, not_not] at this
  exact this hne

theorem findVictim_eq_some (NCPU : Nat) (kmem : Kmem) (stealer v : Nat)
    (hv : v < NCPU) (hne : v ≠ stealer) (hnil : kmem v ≠ [])
    (hleast : ∀ j, j < v → j ≠ stealer → kmem j = []) :
    findVictim NCPU kmem stealer = some v := by
  cases hf : findVictim NCPU kmem stealer with
  | none => exact absurd (findVictim_none NCPU kmem stealer hf v hv hne) hnil
  | some w =>
    obtain ⟨hw, hwne, hwnil⟩ := findVictim_some NCPU kmem stealer w hf
    have hwleast := findVictim_least NCPU kmem stealer w hf
    rcases Nat.lt_trichotomy w v with hlt | heq | hgt
    · exact absurd (hleast w hlt hwne) hwnil
    · rw [heq]
    · exact absurd (hwleast v hgt hne) hnil

theorem findVictim_eq_none (NCPU : Nat) (kmem : Kmem) (stealer : Nat)
    (h : ∀ i, i < NCPU → i ≠ stealer → kmem i = []) :
    findVictim NCPU kmem stealer = none := by
  cases hf : findVictim NCPU kmem stealer with
  | none => rfl
  | some w =>
    obtain ⟨hw, hwne, hwnil⟩ := findVictim_some NCPU kmem stealer w hf
    exact absurd (h w hw hwne) hwnil

/-- The count `stealcnt` never exceeds the length of the victim's list. -/
theorem stealCount_le (n : Nat) : stealCount n ≤ n := by
  unfold stealCount
  split
  · omega
  · exact Nat.div_le_self n 2

/-- As long as `k` does not exceed the length of the victim's list, `k` rounds
of the loop take the first `k` pages of the victim, in this order, and push
them one by one on the stealer's list. -/
theorem stealLoop_eq :
    ∀ (k : Nat) (st vi : List Nat), k ≤ vi.length →
      stealLoop k st vi = ((vi.take k).reverse ++ st, vi.drop k) := by
  intro k
  induction k with
  | zero => intro st vi _; simp [stealLoop]
  | succ k ih =>
    intro st vi h
    cases vi with
    | nil => simp at h
    | cons p vi =>
      simp only [stealLoop]
      rw [ih (p :: st) vi (by simpa using h)]
      simp

/-- The free lists after `mem_steal` when `v` is the victim. -/
theorem mem_steal_of_victim (NCPU : Nat) (kmem : Kmem) (stealer v : Nat)
    (hf : findVictim NCPU kmem stealer = some v) :
    mem_steal NCPU kmem stealer stealer =
      ((kmem v).take (stealCount (kmem v).length)).reverse ++ kmem stealer ∧
    mem_steal NCPU kmem stealer v = (kmem v).drop (stealCount (kmem v).length) ∧
    ∀ i, i ≠ stealer → i ≠ v → mem_steal NCPU kmem stealer i = kmem i := by
  obtain ⟨_, hne, _⟩ := findVictim_some NCPU kmem stealer v hf
  unfold mem_steal
  rw [hf]
  simp only
  rw [stealLoop_eq _ _ _ (stealCount_le _)]
  refine ⟨?_, ?_, ?_⟩
  · rw [Function.update_noteq (fun hh => hne hh.symm), Function.update_same]
  · rw [Function.update_same]
  · intro i h1 h2
    rw [Function.update_noteq h2, Function.update_noteq h1]

theorem mem_steal_of_no_victim (NCPU : Nat) (kmem : Kmem) (stealer : Nat)
    (hf : findVictim NCPU kmem stealer = none) : mem_steal NCPU kmem stealer = kmem := by
  unfold mem_steal
  rw [hf]

/-! ## The lists and the memory -/

theorem isList_congr (next next2 : Nat → Option Nat) :
    ∀ (l : List Nat) (head : Option Nat), IsList next head l →
      (∀ a, a ∈ l → next2 a = next a) → IsList next2 head l := by
  intro l
  induction l with
  | nil => intro head h _; exact h
  | cons p l ih =>
    intro head h hsame
    refine ⟨h.1, ?_⟩
    rw [hsame p (List.mem_cons_self p l)]
    exact ih _ h.2 (fun a ha => hsame a (List.mem_cons_of_mem p ha))

theorem isList_isSome (next : Nat → Option Nat) (head : Option Nat) (l : List Nat)
    (h : IsList next head l) : head.isSome = decide (l ≠ []) := by
  cases l with
  | nil =>
    have : head = none := h
    subst this
    rfl
  | cons p l =>
    have : head = some p := h.1
    subst this
    simp

theorem find_range_congr (p q : Nat → Bool) :
    ∀ n, (∀ i, i < n → p i = q i) → (List.range n).find? p = (List.range n).find? q := by
  intro n
  induction n with
  | zero => intro _; rfl
  | succ n ih =>
    intro h
    rw [List.range_succ, List.find?_append, List.find?_append,
      ih (fun i hi => h i (Nat.lt_succ_of_lt hi))]
    simp only [List.find?_cons, List.find?_nil, h n (Nat.lt_succ_self n)]

/-- On lists that the memory holds, the search on the memory finds the victim
the search on the lists finds. -/
theorem Mem.findVictim_eq (NCPU : Nat) (m : Mem) (kmem : Kmem) (stealer : Nat)
    (h : ∀ i, i < NCPU → IsList m.next (m.freelist i) (kmem i)) :
    m.findVictim NCPU stealer = Kalloc.findVictim NCPU kmem stealer := by
  unfold Mem.findVictim Kalloc.findVictim
  apply find_range_congr
  intro i hi
  rw [isList_isSome _ _ _ (h i hi)]

/-- The counting loop on a null-terminated list returns its length, given
more fuel than the list is long. -/
theorem Mem.countLoop_of_isList (m : Mem) :
    ∀ (l : List Nat) (fuel : Nat) (head : Option Nat) (c : Nat),
      IsList m.next head l → l.length < fuel →
        m.countLoop fuel head c = some (c + l.length) := by
  intro l
  induction l with
  | nil =>
    intro fuel head c h hf
    have : head = none := h
    subst this
    cases fuel with
    | zero => simp at hf
    | succ f => rfl
  | cons p l ih =>
    intro fuel head c h hf
    have : head = some p := h.1
    subst this
    cases fuel with
    | zero => simp at hf
    | succ f =>
      simp only [Mem.countLoop]
      rw [ih f _ (c + 1) h.2 (by simpa using hf)]
      simp only [List.length_cons]
      congr 1
      omega

theorem nodup_length_le_bound (l : List Nat) (P : Nat) (hnd : l.Nodup)
    (hb : ∀ a, a ∈ l → a < P) : l.length ≤ P := by
  have hsub : l ⊆ List.range P := fun a ha => List.mem_range.2 (hb a ha)
  have := (List.subperm_of_subset hnd hsub).length_le
  simpa using this

theorem count_allPages (kmem : Kmem) (a : Nat) :
    ∀ n, (allPages n kmem).count a = pageCount n kmem a := by
  intro n
  induction n with
  | zero => rfl
  | succ n ih =>
    simp only [allPages, pageCount, List.count_append, List.range_succ, List.map_append,
      List.sum_append, List.map_cons, List.map_nil, List.sum_cons, List.sum_nil, Nat.add_zero]
    rw [ih]
    rfl

theorem nodup_allPages_iff (NCPU : Nat) (kmem : Kmem) :
    (allPages NCPU kmem).Nodup ↔ ∀ a, pageCount NCPU kmem a ≤ 1 := by
  rw [List.nodup_iff_count_le_one]
  constructor
  · intro h a
    rw [← count_allPages]
    exact h a
  · intro h a
    rw [count_allPages]
    exact h a

theorem mem_allPages_iff (NCPU : Nat) (kmem : Kmem) (a : Nat) :
    a ∈ allPages NCPU kmem ↔ pageCount NCPU kmem a ≠ 0 := by
  rw [← count_allPages, ← List.count_pos_iff]
  omega

theorem count_le_pageCount (NCPU : Nat) (kmem : Kmem) (i a : Nat) (hi : i < NCPU) :
    (kmem i).count a ≤ pageCount NCPU kmem a := by
  have := pageCount_update NCPU kmem i [] a hi
  simp only [List.count_nil] at this
  omega

theorem count_add_le_pageCount (NCPU : Nat) (kmem : Kmem) (i j a : Nat) (hi : i < NCPU)
    (hj : j < NCPU) (hne : j ≠ i) :
    (kmem i).count a + (kmem j).count a ≤ pageCount NCPU kmem a := by
  have h1 := pageCount_update NCPU kmem i [] a hi
  have h2 := count_le_pageCount NCPU (Function.update kmem i []) j a hj
  rw [Function.update_noteq hne] at h2
  simp only [List.count_nil] at h1
  omega

/-- A page of one list is on no other list when no page occurs twice. -/
theorem not_mem_of_mem_other (NCPU : Nat) (kmem : Kmem) (i j a : Nat) (hi : i < NCPU)
    (hj : j < NCPU) (hne : j ≠ i) (hnd : ∀ a, pageCount NCPU kmem a ≤ 1) (ha : a ∈ kmem i) :
    a ∉ kmem j := by
  intro hj2
  have h1 := List.count_pos_iff.2 ha
  have h2 := List.count_pos_iff.2 hj2
  have := count_add_le_pageCount NCPU kmem i j a hi hj hne
  have := hnd a
  omega

/-- Moving the head of the list of `v` to the head of the list of `s` keeps
the count of every page. -/
theorem pageCount_move (NCPU : Nat) (kmem : Kmem) (s v p : Nat) (rest : List Nat)
    (hs : s < NCPU) (hv : v < NCPU) (hne : v ≠ s) (hv2 : kmem v = p :: rest) (a : Nat) :
    pageCount NCPU (Function.update (Function.update kmem s (p :: kmem s)) v rest) a =
      pageCount NCPU kmem a := by
  have h1 := pageCount_update NCPU kmem s (p :: kmem s) a hs
  have h2 := pageCount_update NCPU (Function.update kmem s (p :: kmem s)) v rest a hv
  rw [Function.update_noteq hne, hv2] at h2
  rw [count_cons_ite] at h1 h2
  omega

/-- One round of the loop on the memory moves the head of the victim's list to
the head of the stealer's list. -/
theorem Mem.stealRound_spec (NCPU : Nat) (m : Mem) (kmem : Kmem) (s v p : Nat)
    (rest : List Nat) (hs : s < NCPU) (hv : v < NCPU) (hne : v ≠ s)
    (hl : ∀ i, i < NCPU → IsList m.next (m.freelist i) (kmem i))
    (hnd : ∀ a, pageCount NCPU kmem a ≤ 1) (hv2 : kmem v = p :: rest) :
    ∃ m1, m.stealRound s v = some m1 ∧
      ∀ i, i < NCPU → IsList m1.next (m1.freelist i)
        (Function.update (Function.update kmem s (p :: kmem s)) v rest i) := by
  have hlv := hl v hv
  rw [hv2] at hlv
  have hhead : m.freelist v = some p := hlv.1
  have hpv : p ∈ kmem v := by rw [hv2]; exact List.mem_cons_self p rest
  have hprest : p ∉ rest := by
    intro hin
    have h1 := count_le_pageCount NCPU kmem v p hv
    have h2 := hnd p
    rw [hv2, count_cons_ite] at h1
    have := List.count_pos_iff.2 hin
    simp only [if_true] at h1
    omega
  have hsv : s ≠ v := fun h => hne h.symm
  refine ⟨{ freelist := Function.update (Function.update m.freelist s (some p)) v (m.next p)
            next := Function.update m.next p (m.freelist s) }, ?_, ?_⟩
  · unfold Mem.stealRound
    rw [Function.update_noteq hne, hhead]
    simp only
    rw [Function.update_noteq hsv, Function.update_same]
  · intro i hi
    simp only
    by_cases hiv : i = v
    · subst hiv
      rw [Function.update_same, Function.update_same]
      apply isList_congr m.next _ _ _ hlv.2
      intro a ha
      have hap : a ≠ p := by
        intro h
        rw [h] at ha
        exact hprest ha
      rw [Function.update_noteq hap]
    · rw [Function.update_noteq hiv, Function.update_noteq hiv]
      by_cases his : i = s
      · subst his
        rw [Function.update_same, Function.update_same]
        refine ⟨rfl, ?_⟩
        rw [Function.update_same]
        apply isList_congr m.next _ _ _ (hl i hi)
        intro a ha
        have hap : a ≠ p := by
          intro h
          rw [h] at ha
          exact not_mem_of_mem_other NCPU kmem v i p hv hi hiv hnd hpv ha
        rw [Function.update_noteq hap]
      · rw [Function.update_noteq his, Function.update_noteq his]
        apply isList_congr m.next _ _ _ (hl i hi)
        intro a ha
        have hap : a ≠ p := by
          intro h
          rw [h] at ha
          exact not_mem_of_mem_other NCPU kmem v i p hv hi hiv hnd hpv ha
        rw [Function.update_noteq hap]

/-- The loop on the memory, for a count that does not exceed the length of the
victim's list, returns and does to the lists what `stealLoop` does. -/
theorem Mem.stealLoop_spec (NCPU s v : Nat) (hs : s < NCPU) (hv : v < NCPU) (hne : v ≠ s) :
    ∀ (k : Nat) (m : Mem) (kmem : Kmem),
      (∀ i, i < NCPU → IsList m.next (m.freelist i) (kmem i)) →
      (∀ a, pageCount NCPU kmem a ≤ 1) → k ≤ (kmem v).length →
      ∃ m1, Mem.stealLoop s v k m = some m1 ∧
        (∀ i, i < NCPU → IsList m1.next (m1.freelist i)
          (Function.update
            (Function.update kmem s (Kalloc.stealLoop k (kmem s) (kmem v)).1)
            v (Kalloc.stealLoop k (kmem s) (kmem v)).2 i)) := by
  intro k
  induction k with
  | zero =>
    intro m kmem hl _ _
    refine ⟨m, rfl, ?_⟩
    intro i hi
    simp only [Kalloc.stealLoop]
    rw [Function.update_eq_self, Function.update_eq_self]
    exact hl i hi
  | succ k ih =>
    intro m kmem hl hnd hk
    cases hv2 : kmem v with
    | nil => rw [hv2] at hk; simp at hk
    | cons p rest =>
      obtain ⟨m1, hr, hl1⟩ := Mem.stealRound_spec NCPU m kmem s v p rest hs hv hne hl hnd hv2
      have hnd1 : ∀ a, pageCount NCPU
          (Function.update (Function.update kmem s (p :: kmem s)) v rest) a ≤ 1 := by
        intro a
        rw [pageCount_move NCPU kmem s v p rest hs hv hne hv2 a]
        exact hnd a
      have hk1 : k ≤ ((Function.update (Function.update kmem s (p :: kmem s)) v rest) v).length := by
        rw [Function.update_same]
        rw [hv2] at hk
        simpa using hk
      obtain ⟨m2, hr2, hl2⟩ := ih m1 _ hl1 hnd1 hk1
      refine ⟨m2, ?_, ?_⟩
      · simp only [Mem.stealLoop, hr]
        exact hr2
      · intro i hi
        have := hl2 i hi
        rw [Function.update_same, Function.update_noteq (fun h => hne h.symm),
          Function.update_same] at this
        simp only [Kalloc.stealLoop]
        by_cases hiv : i = v
        · subst hiv
          rw [Function.update_same] at this ⊢
          exact this
        · rw [Function.update_noteq hiv] at this ⊢
          by_cases his : i = s
          · subst his
            rw [Function.update_same] at this ⊢
            exact this
          · rw [Function.update_noteq his] at this ⊢
            rw [Function.update_noteq hiv, Function.update_noteq his] at this
            exact this

/-- On a memory that holds null-terminated free lists sharing no page,
`mem_steal` returns, and the memory afterwards holds the lists that
`mem_steal` on the lists gives. -/
theorem Mem.mem_steal_refines (NCPU PHYSTOP : Nat) (m : Mem) (kmem : Kmem) (s : Nat)
    (hs : s < NCPU) (hrep : Represents NCPU PHYSTOP m kmem) :
    ∃ m1, m.mem_steal NCPU PHYSTOP s = some m1 ∧
      Represents NCPU PHYSTOP m1 (Kalloc.mem_steal NCPU kmem s) ∧
      (Kalloc.findVictim NCPU kmem s = none → m1 = m) := by
  obtain ⟨hl, hnd, hb⟩ := hrep
  have hnd1 := (nodup_allPages_iff NCPU kmem).1 hnd
  have hkeep : Represents NCPU PHYSTOP m kmem := ⟨hl, hnd, hb⟩
  have hcount := fun a => mem_steal_pageCount NCPU kmem s a hs
  unfold Mem.mem_steal
  rw [Mem.findVictim_eq NCPU m kmem s hl]
  cases hf : Kalloc.findVictim NCPU kmem s with
  | none =>
    refine ⟨m, rfl, ?_, fun _ => rfl⟩
    rw [mem_steal_of_no_victim NCPU kmem s hf]
    exact hkeep
  | some v =>
    obtain ⟨hv, hne, hnil⟩ := findVictim_some NCPU kmem s v hf
    have hvnd : (kmem v).Nodup := by
      rw [List.nodup_iff_count_le_one]
      intro a
      exact Nat.le_trans (count_le_pageCount NCPU kmem v a hv) (hnd1 a)
    have hvb : ∀ a, a ∈ kmem v → a < PHYSTOP := by
      intro a ha
      apply hb
      rw [mem_allPages_iff]
      have h1 := count_le_pageCount NCPU kmem v a hv
      have h2 := List.count_pos_iff.2 ha
      omega
    have hlen := nodup_length_le_bound (kmem v) PHYSTOP hvnd hvb
    simp only
    rw [Mem.countLoop_of_isList m (kmem v) (PHYSTOP + 1) _ 0 (hl v hv) (by omega)]
    simp only [Nat.zero_add]
    obtain ⟨m1, hr, hl1⟩ := Mem.stealLoop_spec NCPU s v hs hv hne
      (stealCount (kmem v).length) m kmem hl hnd1 (stealCount_le _)
    refine ⟨m1, hr, ⟨?_, ?_, ?_⟩, fun h => by cases h⟩
    · intro i hi
      have := hl1 i hi
      unfold Kalloc.mem_steal
      rw [hf]
      exact this
    · rw [nodup_allPages_iff]
      intro a
      rw [hcount a]
      exact hnd1 a
    · intro a ha
      apply hb
      rw [mem_allPages_iff] at ha ⊢
      rw [← hcount a]
      exact ha

/-- The memory `demoMem` holds the lists `demoKmem`; there `mem_steal(0)`
returns, with pages 8192 and 4096 linked in this order on the list of CPU 0
and page 12288 at the head of the list of CPU 2. -/
theorem demoMem_steal :
    Represents 4 32768 demoMem demoKmem ∧
    ∃ m1, demoMem.mem_steal 4 32768 0 = some m1 ∧
      m1.freelist 0 = some 8192 ∧ m1.next 8192 = some 4096 ∧ m1.next 4096 = none ∧
      m1.freelist 2 = some 12288 :=
  ⟨by decide, _, rfl, by decide, by decide, by decide, by decide⟩

end Kalloc

namespace Bio

variable {NBUF : Nat}

/-! ## The claims -/

/-- Eviction safety of one call of `bget` that runs alone.  When the requested
key is not found in its bucket chain, the slot picked by the scan of `bget`
has `refcnt == 0` in the state the scan ran in; the slot `bget` returns is
that slot; and whatever the outcome of the call, every slot whose `refcnt` was
positive keeps its `dev` and `blockno`. -/
theorem bget_eviction_safety (BUCKETNUM : Nat) (s : State NBUF) (pid dev blockno : Nat)
    (hmiss : lookup BUCKETNUM s dev blockno = Lookup.miss) :
    (∀ r, scan s = some r → (s.buf r).refcnt = 0) ∧
    (∀ b s', bget BUCKETNUM s pid dev blockno = Outcome.ret b s' →
      scan s = some b ∧ (s.buf b).refcnt = 0) ∧
    (∀ s', (bget BUCKETNUM s pid dev blockno).state? = some s' →
      ∀ i, 0 < (s.buf i).refcnt →
        (s'.buf i).dev = (s.buf i).dev ∧ (s'.buf i).blockno = (s.buf i).blockno) := by
  refine ⟨fun r hr => (scan_some s r hr).1, ?_, ?_⟩
  · intro b s' hret
    cases hs : scan s with
    | none =>
      rw [bget_of_miss_none BUCKETNUM s pid dev blockno hmiss hs] at hret
      cases hret
    | some r =>
      cases hr : bget_recycle BUCKETNUM s r dev blockno with
      | none =>
        rw [bget_of_miss_hang BUCKETNUM s pid dev blockno r hmiss hs hr] at hret
        cases hret
      | some s1 =>
        rw [bget_of_miss_some BUCKETNUM s s1 pid dev blockno r hmiss hs hr] at hret
        rcases bget_sleep_cases (buckets_insert BUCKETNUM s1 r) pid r with ⟨_, e⟩ | ⟨_, e⟩
        · rw [e] at hret
          cases hret
          exact ⟨rfl, (scan_some s _ hs).1⟩
        · rw [e] at hret
          cases hret
  · intro s' hst i hi
    cases hs : scan s with
    | none =>
      rw [bget_of_miss_none BUCKETNUM s pid dev blockno hmiss hs] at hst
      simp only [Outcome.state?, Option.some.injEq] at hst
      subst hst
      exact ⟨rfl, rfl⟩
    | some r =>
      cases hr : bget_recycle BUCKETNUM s r dev blockno with
      | none =>
        rw [bget_of_miss_hang BUCKETNUM s pid dev blockno r hmiss hs hr] at hst
        simp [Outcome.state?] at hst
      | some s1 =>
        have hne : i ≠ r := by
          intro he
          subst he
          have := (scan_some s i hs).1
          omega
        obtain ⟨ho, _⟩ := bget_miss_state BUCKETNUM s s1 s' pid dev blockno r hmiss hs hr hst
        obtain ⟨_, _, h3, h4, _⟩ := (ho i hne).fields
        exact ⟨h3, h4⟩

/-- An instance of the statement on one call: in a three-slot cache where slot 0 is held for block
`(1, 10)`, a request for `(1, 20)` misses and the statement applies. -/
theorem bget_eviction_safety_witness :
    lookup 13 demoBusy 1 20 = Lookup.miss ∧
    ((∀ r, scan demoBusy = some r → (demoBusy.buf r).refcnt = 0) ∧
    (∀ b s', bget 13 demoBusy 8 1 20 = Outcome.ret b s' →
      scan demoBusy = some b ∧ (demoBusy.buf b).refcnt = 0) ∧
    (∀ s', (bget 13 demoBusy 8 1 20).state? = some s' →
      ∀ i, 0 < (demoBusy.buf i).refcnt →
        (s'.buf i).dev = (demoBusy.buf i).dev ∧
          (s'.buf i).blockno = (demoBusy.buf i).blockno)) :=
  ⟨by decide, bget_eviction_safety 13 demoBusy 8 1 20 (by decide)⟩

/-- C1 (eviction safety) fails on the code.  On `demoReleased`, where slot 0
caches `(1, 10)` with `refcnt == 0`, process 1 calls `bget(1, 20)`: the search
misses and the scan, under `bcache.lock` alone, picks slot 0, whose `refcnt`
is 0 in the state the scan ran in.  Before process 1 takes the bucket lock of
the victim, process 0 calls `bget(1, 10)`: under the bucket lock alone it
finds slot 0, raises `refcnt` to 1, takes the sleep lock and returns slot 0.
Process 1 then unlinks slot 0 and overwrites its key, without a second test
of `refcnt`: slot 0, with `refcnt == 1` and its sleep lock held by process 0,
now carries `(1, 20)` with `valid == 0`, and block `(1, 10)` is cached
nowhere. -/
theorem bget_race_rekeys_held_slot :
    Reachable 13 demoReleased ∧
    (BgetConfig.run 13 hitAndMiss [1, 1]).pcs =
      [BgetPC.search 1 10, BgetPC.unlink 0 1 20] ∧
    (BgetConfig.run 13 hitAndMiss [1, 1]).big = some 1 ∧
    (((BgetConfig.run 13 hitAndMiss [1, 1]).st.buf 0).info =
      (true, 1, 10, none, 0, 0)) ∧
    (BgetConfig.run 13 hitAndMiss [1, 1, 0, 0]).pcs =
      [BgetPC.returned 0, BgetPC.unlink 0 1 20] ∧
    (((BgetConfig.run 13 hitAndMiss [1, 1, 0, 0]).st.buf 0).info =
      (true, 1, 10, some 0, 1, 0)) ∧
    (BgetConfig.run 13 hitAndMiss [1, 1, 0, 0, 1, 1]).pcs =
      [BgetPC.returned 0, BgetPC.insert 0] ∧
    (((BgetConfig.run 13 hitAndMiss [1, 1, 0, 0, 1, 1]).st.buf 0).info =
      (false, 1, 20, some 0, 1, 0)) ∧
    (BgetConfig.run 13 hitAndMiss [1, 1, 0, 0, 1, 1, 1, 1]).pcs =
      [BgetPC.returned 0, BgetPC.sleep 0] ∧
    chain (BgetConfig.run 13 hitAndMiss [1, 1, 0, 0, 1, 1, 1, 1]).st 10 = [] ∧
    chain (BgetConfig.run 13 hitAndMiss [1, 1, 0, 0, 1, 1, 1, 1]).st 7 = [0] ∧
    lookup 13 (BgetConfig.run 13 hitAndMiss [1, 1, 0, 0, 1, 1, 1, 1]).st 1 10 = Lookup.miss :=
  ⟨⟨fun _ _ => [], [Call.bread 7 1 10, Call.brelse 7 0], rfl⟩,
    by decide, by decide, by decide, by decide, by decide, by decide, by decide, by decide,
    by decide, by decide, by decide⟩

/-- C2 (victim selection).  On a miss with at least one slot of `refcnt == 0`
the scan of `bget` picks the slot of smallest index among the `refcnt == 0`
slots of least `ticks`; that slot is the only one with this property, it is
the slot a returning `bget` returns, and unless the unlink loop spins it is
the slot that carries the new key with `refcnt == 1` afterwards. -/
theorem bget_victim_first_least (BUCKETNUM : Nat) (s : State NBUF) (pid dev blockno : Nat)
    (hmiss : lookup BUCKETNUM s dev blockno = Lookup.miss)
    (hfree : ∃ i, (s.buf i).refcnt = 0) :
    ∃ r, scan s = some r ∧
      ((s.buf r).refcnt = 0 ∧
        (∀ j, (s.buf j).refcnt = 0 → (s.buf r).ticks ≤ (s.buf j).ticks) ∧
        (∀ j, (s.buf j).refcnt = 0 → (s.buf j).ticks = (s.buf r).ticks → r ≤ j)) ∧
      (∀ r', FirstLeast s r' → r' = r) ∧
      (∀ b s', bget BUCKETNUM s pid dev blockno = Outcome.ret b s' → b = r) ∧
      (bget BUCKETNUM s pid dev blockno = Outcome.hang ∨
        ∃ s', (bget BUCKETNUM s pid dev blockno).state? = some s' ∧
          (s'.buf r).dev = dev ∧ (s'.buf r).blockno = blockno ∧ (s'.buf r).refcnt = 1) := by
  obtain ⟨i0, hi0⟩ := hfree
  cases hs : scan s with
  | none => exact absurd hi0 (scan_none s hs i0)
  | some r =>
    have hfl := scan_some s r hs
    refine ⟨r, rfl, hfl, fun r' hr' => firstLeast_unique s r' r hr' hfl, ?_, ?_⟩
    · intro b s' hret
      obtain ⟨_, _, _, _, _, _, _, _, _, hcase⟩ :=
        bget_ret_state BUCKETNUM s s' pid dev blockno b hret
      rcases hcase with ⟨hh, _⟩ | ⟨_, hsb, _⟩
      · rw [hmiss] at hh; cases hh
      · rw [hs] at hsb
        exact (Option.some.inj hsb).symm
    · cases hr : bget_recycle BUCKETNUM s r dev blockno with
      | none =>
        left
        exact bget_of_miss_hang BUCKETNUM s pid dev blockno r hmiss hs hr
      | some s1 =>
        right
        have he := bget_of_miss_some BUCKETNUM s s1 pid dev blockno r hmiss hs hr
        have hex : ∃ s', (bget BUCKETNUM s pid dev blockno).state? = some s' := by
          rw [he]
          rcases bget_sleep_cases (buckets_insert BUCKETNUM s1 r) pid r with ⟨_, e⟩ | ⟨_, e⟩
          · rw [e]; exact ⟨_, rfl⟩
          · rw [e]; exact ⟨_, rfl⟩
        obtain ⟨s', hs'⟩ := hex
        obtain ⟨_, h1, h2, _, h4, _⟩ :=
          bget_miss_state BUCKETNUM s s1 s' pid dev blockno r hmiss hs hr hs'
        exact ⟨s', hs', h1, h2, h4⟩

/-- Witness for C2: with slot 0 held, a miss on `(1, 20)` picks slot 1, the
first of the two free slots of equal `ticks`. -/
theorem bget_victim_first_least_witness :
    lookup 13 demoBusy 1 20 = Lookup.miss ∧ (∃ i, (demoBusy.buf i).refcnt = 0) ∧
    scan demoBusy = some 1 ∧
    ∃ r, scan demoBusy = some r ∧
      ((demoBusy.buf r).refcnt = 0 ∧
        (∀ j, (demoBusy.buf j).refcnt = 0 → (demoBusy.buf r).ticks ≤ (demoBusy.buf j).ticks) ∧
        (∀ j, (demoBusy.buf j).refcnt = 0 →
          (demoBusy.buf j).ticks = (demoBusy.buf r).ticks → r ≤ j)) ∧
      (∀ r', FirstLeast demoBusy r' → r' = r) ∧
      (∀ b s', bget 13 demoBusy 8 1 20 = Outcome.ret b s' → b = r) ∧
      (bget 13 demoBusy 8 1 20 = Outcome.hang ∨
        ∃ s', (bget 13 demoBusy 8 1 20).state? = some s' ∧
          (s'.buf r).dev = 1 ∧ (s'.buf r).blockno = 20 ∧ (s'.buf r).refcnt = 1) :=
  ⟨by decide, ⟨1, by decide⟩, by decide,
    bget_victim_first_least 13 demoBusy 8 1 20 (by decide) ⟨1, by decide⟩⟩

/-- C3 (exhaustion).  `bget` panics exactly when the key is not found in its
bucket chain and no slot has `refcnt == 0`; the panic is
`bget: no buffers` and the state at the panic is the state at the call.  On
well-formed chains the search ends without finding the key exactly when no
slot on the chain of bucket `HASH(blockno)` carries it. -/
theorem bget_panic_iff (BUCKETNUM : Nat) (s : State NBUF) (pid dev blockno : Nat) :
    ((∃ msg s', bget BUCKETNUM s pid dev blockno = Outcome.panic msg s') ↔
      (lookup BUCKETNUM s dev blockno = Lookup.miss ∧ ∀ i, (s.buf i).refcnt ≠ 0)) ∧
    (∀ msg s', bget BUCKETNUM s pid dev blockno = Outcome.panic msg s' →
      msg = "bget: no buffers" ∧ s' = s) ∧
    (WellChained BUCKETNUM s →
      (lookup BUCKETNUM s dev blockno = Lookup.miss ↔
        ∀ b, b ∈ chain s (HASH BUCKETNUM blockno) →
          ¬ ((s.buf b).dev = dev ∧ (s.buf b).blockno = blockno))) := by
  have key : ∀ msg s', bget BUCKETNUM s pid dev blockno = Outcome.panic msg s' →
      lookup BUCKETNUM s dev blockno = Lookup.miss ∧ scan s = none ∧
        msg = "bget: no buffers" ∧ s' = s := by
    intro msg s' hp
    cases hl : lookup BUCKETNUM s dev blockno with
    | hang => rw [bget_of_hang BUCKETNUM s pid dev blockno hl] at hp; cases hp
    | hit b =>
      rw [bget_of_hit BUCKETNUM s pid dev blockno b hl] at hp
      rcases bget_sleep_cases (bget_hit s b) pid b with ⟨_, e⟩ | ⟨_, e⟩ <;>
        (rw [e] at hp; cases hp)
    | miss =>
      cases hs : scan s with
      | none =>
        rw [bget_of_miss_none BUCKETNUM s pid dev blockno hl hs] at hp
        cases hp
        exact ⟨rfl, rfl, rfl, rfl⟩
      | some r =>
        cases hr : bget_recycle BUCKETNUM s r dev blockno with
        | none =>
          rw [bget_of_miss_hang BUCKETNUM s pid dev blockno r hl hs hr] at hp
          cases hp
        | some s1 =>
          rw [bget_of_miss_some BUCKETNUM s s1 pid dev blockno r hl hs hr] at hp
          rcases bget_sleep_cases (buckets_insert BUCKETNUM s1 r) pid r with ⟨_, e⟩ | ⟨_, e⟩ <;>
            (rw [e] at hp; cases hp)
  refine ⟨⟨?_, ?_⟩, ?_, ?_⟩
  · rintro ⟨msg, s', hp⟩
    obtain ⟨h1, h2, _, _⟩ := key msg s' hp
    exact ⟨h1, scan_none s h2⟩
  · rintro ⟨hl, hn⟩
    exact ⟨_, s, bget_of_miss_none BUCKETNUM s pid dev blockno hl ((scan_eq_none_iff s).2 hn)⟩
  · intro msg s' hp
    obtain ⟨_, _, h3, h4⟩ := key msg s' hp
    exact ⟨h3, h4⟩
  · rintro ⟨L, hok⟩
    have hL : chain s (HASH BUCKETNUM blockno) = L (HASH BUCKETNUM blockno) :=
      chain_of_isChain s _ _ (hok.1 _) (hok.2.1 _)
    rw [hL]
    constructor
    · intro hm b hb hk
      have := lookup_hit_of_mem BUCKETNUM s L dev blockno b _ hok hb hk.1 hk.2
      rw [hm] at this
      cases this
    · intro hall
      rcases lookup_of_chainsOK BUCKETNUM s L dev blockno hok with ⟨hm, _⟩ | ⟨b, _, hbl, hd, hk⟩
      · exact hm
      · exact absurd ⟨hd, hk⟩ (hall b hbl)

/-- C5 (index invariant).  In every state reachable from `binit` by a
sequential series of `bread`, `bwrite`, `brelse`, `bpin` and `bunpin` calls
(with timer interrupts in between), each bucket chain is null-terminated and
free of repetition, no slot is on the chains of two buckets, a slot on the
chain of bucket `h` has a current `blockno` with `HASH(blockno) = h`, and no
two chained slots carry the same `(dev, blockno)`. -/
theorem reachable_index_invariant (BUCKETNUM : Nat) (s : State NBUF)
    (hreach : Reachable BUCKETNUM s) :
    (∀ h, IsChain s (s.head h) (chain s h) ∧ (chain s h).Nodup) ∧
    (∀ h h' b, b ∈ chain s h → b ∈ chain s h' → h = h') ∧
    (∀ h b, b ∈ chain s h → HASH BUCKETNUM (s.buf b).blockno = h) ∧
    (∀ h h' a b, a ∈ chain s h → b ∈ chain s h' → (s.buf a).dev = (s.buf b).dev →
      (s.buf a).blockno = (s.buf b).blockno → a = b) := by
  obtain ⟨L, hch, hnd, hhash, huniq⟩ := wellChained_of_reachable BUCKETNUM s hreach
  have hL : ∀ h, chain s h = L h := fun h => chain_of_isChain s h (L h) (hch h) (hnd h)
  refine ⟨?_, ?_, ?_, ?_⟩
  · intro h
    rw [hL h]
    exact ⟨hch h, hnd h⟩
  · intro h h' b hb hb'
    rw [hL h] at hb
    rw [hL h'] at hb'
    exact (hhash h b hb).symm.trans (hhash h' b hb')
  · intro h b hb
    rw [hL h] at hb
    exact hhash h b hb
  · intro h h' a b ha hb
    rw [hL h] at ha
    rw [hL h'] at hb
    exact huniq h h' a b ha hb

/-- Witness for C5: the three-slot cache in which block `(1, 10)` has been
read once is reachable. -/
theorem reachable_index_invariant_witness :
    Reachable 13 demoBusy ∧
    ((∀ h, IsChain demoBusy (demoBusy.head h) (chain demoBusy h) ∧
        (chain demoBusy h).Nodup) ∧
    (∀ h h' b, b ∈ chain demoBusy h → b ∈ chain demoBusy h' → h = h') ∧
    (∀ h b, b ∈ chain demoBusy h → HASH 13 (demoBusy.buf b).blockno = h) ∧
    (∀ h h' a b, a ∈ chain demoBusy h → b ∈ chain demoBusy h' →
      (demoBusy.buf a).dev = (demoBusy.buf b).dev →
      (demoBusy.buf a).blockno = (demoBusy.buf b).blockno → a = b)) :=
  ⟨⟨fun _ _ => [], [Call.bread 7 1 10], rfl⟩,
    reachable_index_invariant 13 demoBusy ⟨fun _ _ => [], [Call.bread 7 1 10], rfl⟩⟩

/-- Witness for C3: in `demoFull` every slot is held and the key `(1, 20)` is
on no chain, so `bget` panics and leaves the state as it was. -/
theorem bget_panic_iff_witness :
    WellChained 13 demoFull ∧
    (∀ b, b ∈ chain demoFull (HASH 13 20) →
      ¬ ((demoFull.buf b).dev = 1 ∧ (demoFull.buf b).blockno = 20)) ∧
    (∀ i, (demoFull.buf i).refcnt ≠ 0) ∧
    bget 13 demoFull 8 1 20 = Outcome.panic "bget: no buffers" demoFull ∧
    ∃ msg s', bget 13 demoFull 8 1 20 = Outcome.panic msg s' :=
  ⟨wellChained_of_reachable 13 demoFull
      ⟨fun _ _ => [], [Call.bread 7 1 10, Call.bread 7 1 11, Call.bread 7 1 12], rfl⟩,
    by decide, by decide, rfl,
    (bget_panic_iff 13 demoFull 8 1 20).1.2
      ⟨((bget_panic_iff 13 demoFull 8 1 20).2.2
          (wellChained_of_reachable 13 demoFull
            ⟨fun _ _ => [], [Call.bread 7 1 10, Call.bread 7 1 11, Call.bread 7 1 12],
              rfl⟩)).2 (by decide),
        by decide⟩⟩

/-- C4 (uniqueness under interleaving) fails on the code.  Two processes call
`bread(1, 10)` on a fresh two-slot cache; both finish the chain search (a
miss) before either takes `bcache.lock`.  Each then recycles a slot of its
own: at the end both calls have returned, slots 0 and 1 both carry
`(1, 10)` with `valid == 1`, both are on the chain of bucket 10, and the
driver has been asked to read the block twice. -/
theorem bread_race_two_valid_slots :
    (Config.run 13 twoReaders raceSchedule).pcs = [PC.idle, PC.idle] ∧
    ∃ a b : Fin 2, a ≠ b ∧
      ((Config.run 13 twoReaders raceSchedule).st.buf a).valid = true ∧
      ((Config.run 13 twoReaders raceSchedule).st.buf b).valid = true ∧
      ((Config.run 13 twoReaders raceSchedule).st.buf a).dev = 1 ∧
      ((Config.run 13 twoReaders raceSchedule).st.buf b).dev = 1 ∧
      ((Config.run 13 twoReaders raceSchedule).st.buf a).blockno = 10 ∧
      ((Config.run 13 twoReaders raceSchedule).st.buf b).blockno = 10 ∧
      chain (Config.run 13 twoReaders raceSchedule).st 10 = [b, a] ∧
      (Config.run 13 twoReaders raceSchedule).st.io = [(a, false), (b, false)] :=
  ⟨by decide, 0, 1, by decide⟩

/-- C6 as stated fails: after `2 ^ 32` calls of `bpin` on slot 0 of a fresh
cache (a series without any `brelse` or `bunpin`), `2 ^ 32` calls are
unmatched but `refcnt` has wrapped to 0, and a `bunpin` that is matched by one
of them would decrement a `refcnt` of 0. -/
theorem refcnt_wraps_after_many_pins :
    ∃ (s : State 1) (cnt : Fin 1 → Nat),
      runCounted 13 fresh (fun _ => 0) (List.replicate UINT (Call.bpin 0)) = some (s, cnt) ∧
      cnt 0 = UINT ∧ (s.buf 0).refcnt = 0 ∧ (s.buf 0).refcnt ≠ cnt 0 ∧
      (Call.bunpin 0).matched cnt = true := by
  obtain ⟨s, cnt, hrun, hc⟩ :=
    runCounted_bpin 13 (0 : Fin 1) UINT (fresh : State 1) (fun _ => 0)
  have hinv := refInv_runCounted 13 _ _ s _ cnt (refInv_boot (fun _ _ => [])) hrun
  have h0 : (s.buf 0).refcnt = 0 := by
    rw [hinv 0, hc]
    simp
  refine ⟨s, cnt, hrun, by simpa using hc, h0, ?_, ?_⟩
  · rw [h0, hc, UINT_eq]
    decide
  · simp only [Call.matched, decide_eq_true_eq]
    rw [hc, UINT_eq]
    omega

/-- C6, amended to the 32-bit counter.  After every call of a sequential
series from `binit` in which each `brelse` / `bunpin` is matched, each slot's
`refcnt` equals the number of unmatched `bread` / `bpin` calls on it modulo
`2 ^ 32`; it equals that number while fewer than `2 ^ 32` calls are
unmatched, and then a matched `brelse` / `bunpin` finds a positive `refcnt`
and leaves it one lower. -/
theorem refcnt_conservation_mod (BUCKETNUM : Nat) (disk : Nat → Nat → List Nat)
    (cs : List (Call NBUF)) (s : State NBUF) (cnt : Fin NBUF → Nat)
    (hrun : runCounted BUCKETNUM (binit (boot disk)) (fun _ => 0) cs = some (s, cnt)) :
    (∀ i, (s.buf i).refcnt = cnt i % UINT) ∧
    (∀ i, cnt i < UINT → (s.buf i).refcnt = cnt i) ∧
    (∀ b, 1 ≤ cnt b → cnt b < UINT →
      0 < (s.buf b).refcnt ∧ ((bunpin s b).buf b).refcnt = cnt b - 1 ∧
      ∀ pid s', brelse s pid b = Outcome.ret () s' → (s'.buf b).refcnt = cnt b - 1) := by
  have hinv := refInv_runCounted BUCKETNUM cs _ s _ cnt (refInv_boot disk) hrun
  refine ⟨hinv, ?_, ?_⟩
  · intro i hi
    rw [hinv i]
    exact Nat.mod_eq_of_lt hi
  · intro b h1 h2
    have hb : (s.buf b).refcnt = cnt b := by
      rw [hinv b]; exact Nat.mod_eq_of_lt h2
    refine ⟨by omega, ?_, ?_⟩
    · simp only [bunpin, refcnt_dec, setBuf_buf_same]
      rw [hb]
      exact dec_of_pos _ h1 h2
    · intro pid s' hr
      rw [(brelse_refcnt s s' pid b () hr).1, hb]
      exact dec_of_pos _ h1 h2

/-- Witness for C6: the series read, pin, tick, release on a three-slot
cache leaves one unmatched call on slot 0 and `refcnt == 1`. -/
theorem refcnt_conservation_mod_witness :
    runCounted 13 (binit (boot (fun _ _ => []))) (fun _ => 0) demoSeries =
      some (demoCounted.1, demoCounted.2) ∧
    demoCounted.2 0 = 1 ∧ (demoCounted.1.buf 0).refcnt = 1 ∧
    ((∀ i, (demoCounted.1.buf i).refcnt = demoCounted.2 i % UINT) ∧
    (∀ i, demoCounted.2 i < UINT → (demoCounted.1.buf i).refcnt = demoCounted.2 i) ∧
    (∀ b, 1 ≤ demoCounted.2 b → demoCounted.2 b < UINT →
      0 < (demoCounted.1.buf b).refcnt ∧
      ((bunpin demoCounted.1 b).buf b).refcnt = demoCounted.2 b - 1 ∧
      ∀ pid s', brelse demoCounted.1 pid b = Outcome.ret () s' →
        (s'.buf b).refcnt = demoCounted.2 b - 1)) :=
  ⟨rfl, by decide, by decide,
    refcnt_conservation_mod 13 (fun _ _ => []) demoSeries demoCounted.1 demoCounted.2 rfl⟩

/-- C7 as stated fails: in a reachable state where slot 0 is cached for
`(1, 10)` with `refcnt == 2 ^ 32 - 1`, `bread(1, 10)` returns slot 0 without
a panic and the returned slot has `refcnt == 0`. -/
theorem bread_returns_refcnt_zero :
    Reachable 13 demoWrapped ∧ (demoWrapped.buf 0).refcnt = 4294967295 ∧
    lookup 13 demoWrapped 1 10 = Lookup.hit 0 ∧
    bread 13 demoWrapped 7 1 10 =
      Outcome.ret 0 ((bread 13 demoWrapped 7 1 10).stateD fresh) ∧
    (((bread 13 demoWrapped 7 1 10).stateD fresh).buf 0).refcnt = 0 :=
  ⟨⟨fun _ _ => [], [Call.bread 7 1 10, Call.brelse 7 0, Call.bunpin 0], rfl⟩,
    by decide, by decide, rfl, by decide⟩

/-- C7, amended for the wrap of the 32-bit counter.  Whenever
`bread(dev, blockno)` returns slot `b`: the slot carries the requested `dev`
and `blockno`, has `valid == 1`, its sleep lock is held by the caller, and its
`refcnt` is at least 1 provided it was below `2 ^ 32 - 1` before the call;
the driver is asked for exactly one read of `b` when the slot `bget` returned
had `valid == 0` and is not called when it had `valid == 1`, in particular
not when the key was found in its chain with `valid == 1`.  The call does
return when the key is found on a slot whose lock is free, and when on
well-formed chains the key is not found and the victim's lock is free. -/
theorem bread_postcondition (BUCKETNUM : Nat) (s : State NBUF) (pid dev blockno : Nat) :
    (∀ b s', bread BUCKETNUM s pid dev blockno = Outcome.ret b s' →
      (s'.buf b).dev = dev ∧ (s'.buf b).blockno = blockno ∧ (s'.buf b).valid = true ∧
      (s'.buf b).lock = some pid ∧
      ((s.buf b).refcnt < UINT - 1 → 1 ≤ (s'.buf b).refcnt) ∧
      ∃ s1, bget BUCKETNUM s pid dev blockno = Outcome.ret b s1 ∧
        ((s1.buf b).valid = false → s'.io = s.io ++ [(b, false)]) ∧
        ((s1.buf b).valid = true → s'.io = s.io) ∧
        (lookup BUCKETNUM s dev blockno = Lookup.hit b → (s.buf b).valid = true →
          s'.io = s.io)) ∧
    (∀ b, lookup BUCKETNUM s dev blockno = Lookup.hit b → (s.buf b).lock = none →
      ∃ s', bread BUCKETNUM s pid dev blockno = Outcome.ret b s') ∧
    (∀ r, lookup BUCKETNUM s dev blockno = Lookup.miss → scan s = some r →
      WellChained BUCKETNUM s → (s.buf r).lock = none →
      ∃ s', bread BUCKETNUM s pid dev blockno = Outcome.ret r s') := by
  refine ⟨?_, ?_, ?_⟩
  · intro b s' h
    obtain ⟨s1, hg, rfl⟩ := bread_ret_inv BUCKETNUM s s' pid dev blockno b h
    obtain ⟨hd, hk, hl, hc, _, _, _, _, hio, hcase⟩ :=
      bget_ret_state BUCKETNUM s s1 pid dev blockno b hg
    obtain ⟨fv, fd, fk, fl, fc, _, _⟩ := bread_fill_buf_self s1 b
    obtain ⟨io1, io2⟩ := bread_fill_io s1 b
    refine ⟨by rw [fd, hd], by rw [fk, hk], fv, by rw [fl, hl], ?_, s1, hg, ?_, ?_, ?_⟩
    · intro hlt
      rw [fc, hc]
      have hU := UINT_eq
      rw [Nat.mod_eq_of_lt (by omega)]
      omega
    · intro hv; rw [io2 hv, hio]
    · intro hv; rw [io1 hv, hio]
    · intro hhit hv
      rcases hcase with ⟨_, hv1⟩ | ⟨hm, _⟩
      · rw [io1 (by rw [hv1]; exact hv), hio]
      · rw [hhit] at hm; cases hm
  · intro b hhit hfree
    have hfree' : ((bget_hit s b).buf b).lock = none := by
      simpa [bget_hit] using hfree
    obtain ⟨s1, hs1⟩ := bget_sleep_of_free (bget_hit s b) pid b hfree'
    have hg : bget BUCKETNUM s pid dev blockno = Outcome.ret b s1 := by
      rw [bget_of_hit BUCKETNUM s pid dev blockno b hhit]; exact hs1
    exact ⟨_, bread_of_bget_ret BUCKETNUM s s1 pid dev blockno b hg⟩
  · intro r hmiss hs hw hfree
    obtain ⟨L, hok⟩ := hw
    obtain ⟨s1, hrec, _⟩ := bget_miss_chainsOK BUCKETNUM s L dev blockno r hok hmiss
    have hfree' : ((buckets_insert BUCKETNUM s1 r).buf r).lock = none := by
      obtain ⟨_, _, _, _, il, _⟩ := (buckets_insert_buf BUCKETNUM s1 r r).fields
      obtain ⟨_, _, _, _, _, rl, _⟩ := bget_recycle_buf_self BUCKETNUM s s1 r dev blockno hrec
      rw [il, rl]
      exact hfree
    obtain ⟨s2, hs2⟩ := bget_sleep_of_free (buckets_insert BUCKETNUM s1 r) pid r hfree'
    have hg : bget BUCKETNUM s pid dev blockno = Outcome.ret r s2 := by
      rw [bget_of_miss_some BUCKETNUM s s1 pid dev blockno r hmiss hs hrec]; exact hs2
    exact ⟨_, bread_of_bget_ret BUCKETNUM s s2 pid dev blockno r hg⟩

/-- Witness for C7: on a fresh three-slot cache `bread(1, 10)` by process 7
returns slot 0, valid, locked by 7, with `refcnt == 1`, after one driver
read. -/
theorem bread_postcondition_witness :
    bread 13 (fresh : State 3) 7 1 10 = Outcome.ret 0 demoBusy ∧
    ((demoBusy.buf 0).dev = 1 ∧ (demoBusy.buf 0).blockno = 10 ∧
      (demoBusy.buf 0).valid = true ∧ (demoBusy.buf 0).lock = some 7 ∧
      (((fresh : State 3).buf 0).refcnt < UINT - 1 → 1 ≤ (demoBusy.buf 0).refcnt) ∧
      ∃ s1, bget 13 (fresh : State 3) 7 1 10 = Outcome.ret 0 s1 ∧
        ((s1.buf 0).valid = false → demoBusy.io = (fresh : State 3).io ++ [(0, false)]) ∧
        ((s1.buf 0).valid = true → demoBusy.io = (fresh : State 3).io) ∧
        (lookup 13 (fresh : State 3) 1 10 = Lookup.hit 0 →
          ((fresh : State 3).buf 0).valid = true → demoBusy.io = (fresh : State 3).io)) ∧
    demoBusy.io = [(0, false)] ∧ (demoBusy.buf 0).refcnt = 1 :=
  ⟨rfl, (bread_postcondition 13 (fresh : State 3) 7 1 10).1 0 demoBusy rfl,
    by decide, by decide⟩

/-- C8 (`bwrite` precondition).  `bwrite(b)` panics exactly when the caller
does not hold the sleep lock of `b`; the panic is `bwrite` and leaves the
state, driver log included, as it was.  When the lock is held the call
returns, the driver is asked for exactly one write of `b`, and no slot's
`dev`, `blockno`, `valid`, `refcnt`, `ticks`, lock or `next` and no bucket
head changes. -/
theorem bwrite_precondition (s : State NBUF) (pid : Nat) (b : Fin NBUF) :
    ((∃ msg s', bwrite s pid b = Outcome.panic msg s') ↔ (s.buf b).lock ≠ some pid) ∧
    (∀ msg s', bwrite s pid b = Outcome.panic msg s' → msg = "bwrite" ∧ s' = s) ∧
    ((s.buf b).lock = some pid →
      ∃ s', bwrite s pid b = Outcome.ret () s' ∧ s'.io = s.io ++ [(b, true)] ∧
        s'.head = s.head ∧ s'.ticks = s.ticks ∧
        ∀ i, (s'.buf i).dev = (s.buf i).dev ∧ (s'.buf i).blockno = (s.buf i).blockno ∧
          (s'.buf i).valid = (s.buf i).valid ∧ (s'.buf i).refcnt = (s.buf i).refcnt ∧
          (s'.buf i).ticks = (s.buf i).ticks ∧ (s'.buf i).lock = (s.buf i).lock ∧
          (s'.buf i).next = (s.buf i).next) := by
  have hhold : holdingsleep s pid b = true ↔ (s.buf b).lock = some pid := by
    simp [holdingsleep]
  refine ⟨⟨?_, ?_⟩, ?_, ?_⟩
  · rintro ⟨msg, s', hp⟩ hl
    rcases bwrite_cases s pid b with ⟨_, e⟩ | ⟨hf, _⟩
    · rw [e] at hp; cases hp
    · rw [hhold.2 hl] at hf; cases hf
  · intro hl
    rcases bwrite_cases s pid b with ⟨ht, _⟩ | ⟨_, e⟩
    · exact absurd (hhold.1 ht) hl
    · exact ⟨_, _, e⟩
  · intro msg s' hp
    rcases bwrite_cases s pid b with ⟨_, e⟩ | ⟨_, e⟩
    · rw [e] at hp; cases hp
    · rw [e] at hp; cases hp; exact ⟨rfl, rfl⟩
  · intro hl
    rcases bwrite_cases s pid b with ⟨_, e⟩ | ⟨hf, _⟩
    · obtain ⟨h1, h2, h3, h4⟩ := bwrite_buf s _ pid b () e
      refine ⟨_, e, h4, h2, h3, ?_⟩
      intro i
      rw [h1]
      exact ⟨rfl, rfl, rfl, rfl, rfl, rfl, rfl⟩
    · rw [hhold.2 hl] at hf; cases hf

/-- Witness for C8: process 7 holds slot 0 of `demoBusy`, so its `bwrite`
returns after one driver write, while the `bwrite` of process 8 panics. -/
theorem bwrite_precondition_witness :
    (demoBusy.buf 0).lock = some 7 ∧ (demoBusy.buf 0).lock ≠ some 8 ∧
    (∃ msg s', bwrite demoBusy 8 0 = Outcome.panic msg s') ∧
    ∃ s', bwrite demoBusy 7 0 = Outcome.ret () s' ∧
      s'.io = demoBusy.io ++ [(0, true)] ∧
      s'.head = demoBusy.head ∧ s'.ticks = demoBusy.ticks ∧
      ∀ i, (s'.buf i).dev = (demoBusy.buf i).dev ∧
        (s'.buf i).blockno = (demoBusy.buf i).blockno ∧
        (s'.buf i).valid = (demoBusy.buf i).valid ∧
        (s'.buf i).refcnt = (demoBusy.buf i).refcnt ∧
        (s'.buf i).ticks = (demoBusy.buf i).ticks ∧
        (s'.buf i).lock = (demoBusy.buf i).lock ∧
        (s'.buf i).next = (demoBusy.buf i).next :=
  ⟨by decide, by decide,
    (bwrite_precondition demoBusy 8 0).1.2 (by decide),
    (bwrite_precondition demoBusy 7 0).2.2 (by decide)⟩

/-- C9 (release without exclusivity).  When the caller does not hold the sleep
lock of `b`, `brelse(b)` panics with `brelse` and the state at the panic is
the state at the call: `refcnt`, `ticks`, the lock and every chain are
untouched. -/
theorem brelse_not_held_panics (s : State NBUF) (pid : Nat) (b : Fin NBUF)
    (hlock : (s.buf b).lock ≠ some pid) :
    brelse s pid b = Outcome.panic "brelse" s := by
  rcases brelse_cases s pid b with ⟨ht, _⟩ | ⟨_, e⟩
  · exact absurd (by simpa [holdingsleep] using ht) hlock
  · exact e

/-- Witness for C9: process 8 releasing slot 0, which process 7 holds. -/
theorem brelse_not_held_panics_witness :
    (demoBusy.buf 0).lock ≠ some 8 ∧ brelse demoBusy 8 0 = Outcome.panic "brelse" demoBusy :=
  ⟨by decide, brelse_not_held_panics demoBusy 8 0 (by decide)⟩

/-- C10 as stated fails: in a reachable state where process 7 holds slot 0
and `refcnt` is already 0, `brelse` by process 7 returns instead of
panicking and leaves `refcnt == 2 ^ 32 - 1`; so does `bunpin`. -/
theorem double_release_wraps :
    Reachable 13 demoUnpinned ∧ (demoUnpinned.buf 0).refcnt = 0 ∧
    (demoUnpinned.buf 0).lock = some 7 ∧
    brelse demoUnpinned 7 0 = Outcome.ret () ((brelse demoUnpinned 7 0).stateD fresh) ∧
    (((brelse demoUnpinned 7 0).stateD fresh).buf 0).refcnt = 4294967295 ∧
    ((bunpin demoUnpinned 0).buf 0).refcnt = 4294967295 :=
  ⟨⟨fun _ _ => [], [Call.bread 7 1 10, Call.bunpin 0], rfl⟩,
    by decide, by decide, rfl, by decide, by decide⟩

/-- C10, amended.  On a slot whose `refcnt` is already 0 neither `brelse` by
the holder of the sleep lock nor `bunpin` stops in a panic: the call returns
and the decrement is carried out on the 32-bit counter, which wraps to
`2 ^ 32 - 1`; `brelse` also frees the sleep lock and leaves `ticks` as it
was. -/
theorem decrement_at_zero_wraps (s : State NBUF) (pid : Nat) (b : Fin NBUF)
    (hzero : (s.buf b).refcnt = 0) :
    ((bunpin s b).buf b).refcnt = UINT - 1 ∧
    ((s.buf b).lock = some pid →
      ∃ s', brelse s pid b = Outcome.ret () s' ∧ (s'.buf b).refcnt = UINT - 1 ∧
        (s'.buf b).lock = none ∧ (s'.buf b).ticks = (s.buf b).ticks) := by
  refine ⟨?_, ?_⟩
  · simp only [bunpin, refcnt_dec, setBuf_buf_same]
    rw [hzero]
    exact wrap_at_zero
  · intro hl
    rcases brelse_cases s pid b with ⟨_, e⟩ | ⟨hf, _⟩
    · have hz : ((releasesleep s b).buf b).refcnt = 0 := by
        simp only [releasesleep, setBuf_buf_same]
        exact hzero
      have hne : (((releasesleep s b).buf b).refcnt + (UINT - 1)) % UINT ≠ 0 := by
        rw [hz, wrap_at_zero, UINT_eq]
        decide
      refine ⟨_, e, ?_, ?_, ?_⟩
      · rw [(brelse_refcnt s _ pid b () e).1, hzero]
        exact wrap_at_zero
      · rw [brelse_dec_of_ne_zero _ _ hne]
        simp [refcnt_dec, releasesleep]
      · rw [brelse_dec_of_ne_zero _ _ hne]
        simp [refcnt_dec, releasesleep]
    · have : holdingsleep s pid b = true := by simp [holdingsleep, hl]
      rw [this] at hf; cases hf

/-- Witness for C10: slot 0 of `demoUnpinned`, held by process 7 with
`refcnt == 0`. -/
theorem decrement_at_zero_wraps_witness :
    (demoUnpinned.buf 0).refcnt = 0 ∧
    (((bunpin demoUnpinned 0).buf 0).refcnt = UINT - 1 ∧
    ((demoUnpinned.buf 0).lock = some 7 →
      ∃ s', brelse demoUnpinned 7 0 = Outcome.ret () s' ∧ (s'.buf 0).refcnt = UINT - 1 ∧
        (s'.buf 0).lock = none ∧ (s'.buf 0).ticks = (demoUnpinned.buf 0).ticks)) :=
  ⟨by decide, decrement_at_zero_wraps demoUnpinned 7 0 (by decide)⟩

/-- C11 (`brelse` effect and frame).  For a slot `b` whose sleep lock the
caller holds and whose `refcnt` is `n >= 1` (a value of the 32-bit counter),
`brelse(b)` returns, frees the sleep lock, leaves `refcnt == n - 1`, sets
`ticks` of `b` to the global `ticks` when `n == 1` and leaves it alone when
`n > 1`; `dev`, `blockno`, `valid`, `data` and `next` of `b`, every other
slot, every bucket head and chain, the global `ticks`, the disk and the
driver log are unchanged. -/
theorem brelse_effect (s : State NBUF) (pid : Nat) (b : Fin NBUF)
    (hheld : (s.buf b).lock = some pid) (hpos : 1 ≤ (s.buf b).refcnt)
    (hrange : (s.buf b).refcnt < UINT) :
    ∃ s', brelse s pid b = Outcome.ret () s' ∧
      (s'.buf b).lock = none ∧ (s'.buf b).refcnt = (s.buf b).refcnt - 1 ∧
      ((s.buf b).refcnt = 1 → (s'.buf b).ticks = s.ticks) ∧
      (1 < (s.buf b).refcnt → (s'.buf b).ticks = (s.buf b).ticks) ∧
      (s'.buf b).dev = (s.buf b).dev ∧ (s'.buf b).blockno = (s.buf b).blockno ∧
      (s'.buf b).valid = (s.buf b).valid ∧ (s'.buf b).data = (s.buf b).data ∧
      (s'.buf b).next = (s.buf b).next ∧
      (∀ i, i ≠ b → s'.buf i = s.buf i) ∧
      s'.head = s.head ∧ (∀ h, chain s' h = chain s h) ∧
      s'.ticks = s.ticks ∧ s'.disk = s.disk ∧ s'.io = s.io := by
  rcases brelse_cases s pid b with ⟨_, e⟩ | ⟨hf, _⟩
  · have hr : ((releasesleep s b).buf b) = { s.buf b with lock := none } := by
      simp [releasesleep]
    have hself := brelse_dec_buf_self (releasesleep s b) b (by rw [hr]; exact hpos)
      (by rw [hr]; exact hrange)
    rw [hr] at hself
    have hlinks : SameLinks (brelse_dec (releasesleep s b) b) s :=
      (sameLinks_brelse_dec _ b).trans (sameLinks_releasesleep s b)
    have hglob : (brelse_dec (releasesleep s b) b).ticks = s.ticks ∧
        (brelse_dec (releasesleep s b) b).disk = s.disk ∧
        (brelse_dec (releasesleep s b) b).io = s.io := by
      unfold brelse_dec
      split <;> exact ⟨rfl, rfl, rfl⟩
    refine ⟨_, e, ?_, ?_, ?_, ?_, ?_, ?_, ?_, ?_, ?_, ?_, hlinks.1,
      fun h => chain_eq_of_sameLinks s _ hlinks h, hglob.1, hglob.2.1, hglob.2.2⟩
    · rw [hself]
    · rw [hself]
    · intro h1; rw [hself]; simp only [if_pos h1]; rfl
    · intro h1
      rw [hself]
      have hne : (s.buf b).refcnt ≠ 1 := by omega
      simp only [if_neg hne]
    · rw [hself]
    · rw [hself]
    · rw [hself]
    · rw [hself]
    · rw [hself]
    · intro i hi
      rw [(brelse_dec_refcnt (releasesleep s b) b).2 i hi]
      simp only [releasesleep]
      exact setBuf_buf_ne _ _ _ _ hi
  · have : holdingsleep s pid b = true := by simp [holdingsleep, hheld]
    rw [this] at hf; cases hf

/-- Witness for C11: process 7 releases slot 0 of `demoBusy`, which it holds
with `refcnt == 1`. -/
theorem brelse_effect_witness :
    (demoBusy.buf 0).lock = some 7 ∧ 1 ≤ (demoBusy.buf 0).refcnt ∧
    (demoBusy.buf 0).refcnt < UINT ∧
    ∃ s', brelse demoBusy 7 0 = Outcome.ret () s' ∧
      (s'.buf 0).lock = none ∧ (s'.buf 0).refcnt = (demoBusy.buf 0).refcnt - 1 ∧
      ((demoBusy.buf 0).refcnt = 1 → (s'.buf 0).ticks = demoBusy.ticks) ∧
      (1 < (demoBusy.buf 0).refcnt → (s'.buf 0).ticks = (demoBusy.buf 0).ticks) ∧
      (s'.buf 0).dev = (demoBusy.buf 0).dev ∧ (s'.buf 0).blockno = (demoBusy.buf 0).blockno ∧
      (s'.buf 0).valid = (demoBusy.buf 0).valid ∧ (s'.buf 0).data = (demoBusy.buf 0).data ∧
      (s'.buf 0).next = (demoBusy.buf 0).next ∧
      (∀ i, i ≠ 0 → s'.buf i = demoBusy.buf i) ∧
      s'.head = demoBusy.head ∧ (∀ h, chain s' h = chain demoBusy h) ∧
      s'.ticks = demoBusy.ticks ∧ s'.disk = demoBusy.disk ∧ s'.io = demoBusy.io :=
  ⟨by decide, by decide, by decide,
    brelse_effect demoBusy 7 0 (by decide) (by decide) (by decide)⟩

/-- C19 as stated fails: in `demoChained` the chain of bucket 10 is slot 1
followed by slot 0.  A miss on `(1, 5)` recycles slot 0, and `buckets_remove`
rewrites a field of another slot: the `next` of slot 1, which pointed to slot
0, is null afterwards. -/
theorem recycle_rewrites_predecessor_link :
    Reachable 13 demoChained ∧ chain demoChained 10 = [1, 0] ∧
    lookup 13 demoChained 1 5 = Lookup.miss ∧ scan demoChained = some 0 ∧
    (demoChained.buf 1).next = some 0 ∧
    bget 13 demoChained 8 1 5 = Outcome.ret 0 ((bget 13 demoChained 8 1 5).stateD fresh) ∧
    (((bget 13 demoChained 8 1 5).stateD fresh).buf 1).next = none :=
  ⟨⟨fun _ _ => [],
      [Call.bread 7 1 10, Call.bread 7 1 23, Call.brelse 7 0, Call.brelse 7 1], rfl⟩,
    by decide, by decide, by decide, by decide, rfl, by decide⟩

/-- C19, amended (recycle post-state, sequential).  On well-formed chains (as
in every state of a sequential run), when key `(dev, blockno)` misses, the
scan picks `v` and the sleep lock of `v` is free, `bget` returns `v` with the
new key, `valid == 0`, `refcnt == 1` and `ticks` equal to the global `ticks`;
`v` is the head of the chain of bucket `HASH(blockno)`; the search for the new
key finds `v` and the search for any other key, the old key of `v` included,
does not find `v`; every other slot keeps `valid`, `dev`, `blockno`, lock,
`refcnt`, `ticks` and payload, and keeps its `next` unless it pointed to `v`,
in which case it points past `v`; and every chain is the old chain without
`v`, in the old order, with `v` put in front of the chain of the new key. -/
theorem bget_recycle_post (BUCKETNUM : Nat) (s : State NBUF) (pid dev blockno : Nat)
    (v : Fin NBUF) (hwf : WellChained BUCKETNUM s)
    (hmiss : lookup BUCKETNUM s dev blockno = Lookup.miss) (hscan : scan s = some v)
    (hfree : (s.buf v).lock = none) :
    ∃ s', bget BUCKETNUM s pid dev blockno = Outcome.ret v s' ∧
      (s'.buf v).dev = dev ∧ (s'.buf v).blockno = blockno ∧ (s'.buf v).valid = false ∧
      (s'.buf v).refcnt = 1 ∧ (s'.buf v).ticks = s.ticks ∧
      s'.head (HASH BUCKETNUM blockno) = some v ∧
      lookup BUCKETNUM s' dev blockno = Lookup.hit v ∧
      (∀ d0 k0, ¬ (d0 = dev ∧ k0 = blockno) → lookup BUCKETNUM s' d0 k0 ≠ Lookup.hit v) ∧
      (∀ i, i ≠ v → (s'.buf i).info = (s.buf i).info ∧ (s'.buf i).data = (s.buf i).data ∧
        ((s'.buf i).next = (s.buf i).next ∨
          ((s.buf i).next = some v ∧ (s'.buf i).next = (s.buf v).next))) ∧
      (∀ h, chain s' h =
        if h = HASH BUCKETNUM blockno then v :: (chain s h).erase v else (chain s h).erase v) := by
  obtain ⟨L, hok⟩ := hwf
  obtain ⟨s', hg, hok', hinfo, _, hother, _, _, _⟩ :=
    bget_miss_spec BUCKETNUM s L pid dev blockno v hok hmiss hscan hfree
  simp only [Buf.info, Prod.mk.injEq] at hinfo
  obtain ⟨hv, hd, hk, _, hc, ht⟩ := hinfo
  have hmem : v ∈ recycledChains BUCKETNUM L v blockno (HASH BUCKETNUM blockno) := by
    simp [recycledChains]
  have hhead : s'.head (HASH BUCKETNUM blockno) = some v := by
    have := hok'.1 (HASH BUCKETNUM blockno)
    simp only [recycledChains, if_true] at this
    exact this.1
  refine ⟨s', hg, hd, hk, hv, hc, ht, hhead, ?_, ?_, ?_, ?_⟩
  · exact lookup_hit_of_mem BUCKETNUM s' _ dev blockno v _ hok' hmem hd hk
  · intro d0 k0 hne hhit
    obtain ⟨h1, h2⟩ := lookup_hit_key BUCKETNUM s' d0 k0 v hhit
    exact hne ⟨by rw [← h1, hd], by rw [← h2, hk]⟩
  · intro i hi
    exact ⟨(hother i hi).info_eq, (hother i hi).fields.2.2.2.2.2.2.2,
      bget_miss_next BUCKETNUM s s' pid dev blockno v hmiss hscan hg i hi⟩
  · intro h
    exact chain_recycled BUCKETNUM s s' L v blockno hok hok' h

/-- Witness for C19: in `demoBusy` the key `(1, 20)` misses and slot 1 is the
victim. -/
theorem bget_recycle_post_witness :
    WellChained 13 demoBusy ∧ lookup 13 demoBusy 1 20 = Lookup.miss ∧
    scan demoBusy = some 1 ∧ (demoBusy.buf 1).lock = none ∧
    ∃ s', bget 13 demoBusy 8 1 20 = Outcome.ret 1 s' ∧
      (s'.buf 1).dev = 1 ∧ (s'.buf 1).blockno = 20 ∧ (s'.buf 1).valid = false ∧
      (s'.buf 1).refcnt = 1 ∧ (s'.buf 1).ticks = demoBusy.ticks ∧
      s'.head (HASH 13 20) = some 1 ∧
      lookup 13 s' 1 20 = Lookup.hit 1 ∧
      (∀ d0 k0, ¬ (d0 = 1 ∧ k0 = 20) → lookup 13 s' d0 k0 ≠ Lookup.hit 1) ∧
      (∀ i, i ≠ 1 → (s'.buf i).info = (demoBusy.buf i).info ∧
        (s'.buf i).data = (demoBusy.buf i).data ∧
        ((s'.buf i).next = (demoBusy.buf i).next ∨
          ((demoBusy.buf i).next = some 1 ∧ (s'.buf i).next = (demoBusy.buf 1).next))) ∧
      (∀ h, chain s' h =
        if h = HASH 13 20 then 1 :: (chain demoBusy h).erase 1
        else (chain demoBusy h).erase 1) :=
  ⟨wellChained_of_reachable 13 demoBusy ⟨fun _ _ => [], [Call.bread 7 1 10], rfl⟩,
    by decide, by decide, by decide,
    bget_recycle_post 13 demoBusy 8 1 20 1
      (wellChained_of_reachable 13 demoBusy ⟨fun _ _ => [], [Call.bread 7 1 10], rfl⟩)
      (by decide) (by decide) (by decide)⟩

/-- C12 (scenario 1 generalised).  From a freshly initialised cache of `NBUF`
slots, `NBUF` successive `bread` calls for pairwise distinct keys, with no
release in between, all return, the `NBUF` slots returned are pairwise
distinct, and a further `bread` of a key different from all of them panics
with `bget: no buffers`. -/
theorem bread_until_exhausted (BUCKETNUM : Nat) (disk : Nat → Nat → List Nat)
    (reqs : List (Nat × Nat × Nat)) (hlen : reqs.length = NBUF)
    (hdistinct : (reqs.map reqKey).Nodup) :
    ∃ (sf : State NBUF) (bs : List (Fin NBUF)),
      breadSeq BUCKETNUM (binit (boot disk)) reqs = some (sf, bs) ∧
      bs.Nodup ∧ bs.length = NBUF ∧
      ∀ pid dev blockno, (dev, blockno) ∉ reqs.map reqKey →
        bread BUCKETNUM sf pid dev blockno = Outcome.panic "bget: no buffers" sf := by
  obtain ⟨sf, bs, held', keys', hrun, hbn, hbl, _, hfin, hfc, hfk⟩ :=
    @breadSeq_allHeld NBUF BUCKETNUM reqs (binit (boot disk)) ∅ []
      (allHeld_boot BUCKETNUM disk) (by simp [hlen]) hdistinct (by simp)
  have huniv : held' = Finset.univ := by
    apply Finset.eq_univ_of_card
    rw [hfc, Fintype.card_fin]
    simp [hlen]
  rw [huniv] at hfin
  refine ⟨sf, bs, hrun, hbn, hbl.trans hlen, ?_⟩
  intro pid dev blockno hnew
  apply allHeld_full BUCKETNUM sf keys' pid dev blockno hfin
  intro hk
  rcases hfk _ hk with h1 | h1
  · simp at h1
  · exact hnew h1

/-- Witness for C12: capacity 3 and the keys `(1, 10)`, `(1, 20)`, `(1, 30)`;
a fourth `bread(1, 40)` panics. -/
theorem bread_until_exhausted_witness :
    [(7, 1, 10), (7, 1, 20), (7, 1, 30)].length = 3 ∧
    (([(7, 1, 10), (7, 1, 20), (7, 1, 30)] : List (Nat × Nat × Nat)).map reqKey).Nodup ∧
    (1, 40) ∉ ([(7, 1, 10), (7, 1, 20), (7, 1, 30)] : List (Nat × Nat × Nat)).map reqKey ∧
    ∃ (sf : State 3) (bs : List (Fin 3)),
      breadSeq 13 (binit (boot (fun _ _ => []))) [(7, 1, 10), (7, 1, 20), (7, 1, 30)] =
        some (sf, bs) ∧
      bs.Nodup ∧ bs.length = 3 ∧
      ∀ pid dev blockno,
        (dev, blockno) ∉ ([(7, 1, 10), (7, 1, 20), (7, 1, 30)] : List (Nat × Nat × Nat)).map reqKey →
        bread 13 sf pid dev blockno = Outcome.panic "bget: no buffers" sf :=
  ⟨by decide, by decide, by decide,
    bread_until_exhausted 13 (fun _ _ => []) [(7, 1, 10), (7, 1, 20), (7, 1, 30)]
      (by decide) (by decide)⟩

/-- C13 as stated fails for a `ticks` sequence that does not advance: on a
fresh two-slot cache with `ticks` staying 0, the reads of `(1, 10)`,
`(1, 20)` and `(1, 30)` all use slot 0 (the released slot ties with the
never-used slot 1 at `ticks == 0` and comes first in the scan), so the read of
`(1, 30)` recycles the slot that holds `(1, 20)`, and `(1, 20)` is no longer
cached afterwards. -/
theorem scenario2_ticks_not_advancing :
    demoNoTick.map (fun r => (r.1, r.2.1, r.2.2.1)) = some (0, 0, 0) ∧
    demoNoTick.map (fun r => ((r.2.2.2.buf 0).dev, (r.2.2.2.buf 0).blockno)) = some (1, 30) ∧
    demoNoTick.map (fun r => (r.2.2.2.buf 1).valid) = some false ∧
    demoNoTick.map (fun r => lookup 13 r.2.2.2 1 20) = some Lookup.miss := by
  decide

/-- C13, amended.  On a fresh cache of two slots, for pairwise distinct keys
`k1`, `k2`, `k3` and any numbers `d0 .. d4` of timer interrupts before the
five calls (a non-decreasing `ticks` that does not wrap), provided at least
one interrupt has occurred before the first `brelse`: `bread(k1)` returns
slot 0, `bread(k2)` returns slot 1, `bread(k3)` recycles slot 0, the slot that
held `k1`; slot 1 still holds `k2` with `valid == 1`, and a following
`bread(k2)`, after any number of interrupts and by any process, returns slot 1
without a driver call. -/
theorem scenario2_recycles_oldest (BUCKETNUM : Nat) (disk : Nat → Nat → List Nat) (pid : Nat)
    (k1 k2 k3 : Nat × Nat) (d0 d1 d2 d3 d4 : Nat)
    (h12 : k1 ≠ k2) (h13 : k1 ≠ k3) (h23 : k2 ≠ k3)
    (hticked : 0 < d0 + d1) (hwrap : d0 + d1 + d2 + d3 + d4 < UINT) :
    ∃ s5 : State 2,
      scenario2 BUCKETNUM (binit (boot disk)) pid k1 k2 k3 d0 d1 d2 d3 d4 =
        some (0, 1, 0, s5) ∧
      (s5.buf 0).dev = k3.1 ∧ (s5.buf 0).blockno = k3.2 ∧
      (s5.buf 1).dev = k2.1 ∧ (s5.buf 1).blockno = k2.2 ∧ (s5.buf 1).valid = true ∧
      ∀ d5 pid', ∃ s6, bread BUCKETNUM (advance d5 s5) pid' k2.1 k2.2 = Outcome.ret 1 s6 ∧
        s6.io = s5.io := by
  have hne : ∀ {a b : Nat × Nat}, a ≠ b → ∀ x y, x = a.1 → y = a.2 →
      ¬ (x = b.1 ∧ y = b.2) := by
    intro a b hab x y hx hy hxy
    apply hab
    exact Prod.ext (hx.symm.trans hxy.1) (hy.symm.trans hxy.2)
  -- first read and release
  have hfl0 : FirstLeast (binit (boot disk) : State 2) 0 :=
    ⟨rfl, fun j _ => le_refl _, fun j _ _ => Fin.zero_le j⟩
  obtain ⟨s2, hrr1, hsnap2, hinfo20, hother2, ht2⟩ :=
    readRelease_miss BUCKETNUM (binit (boot disk) : State 2) ∅ pid k1 0 d0 d1
      (snap_boot BUCKETNUM disk) (by simp) hfl0 rfl
      (by show 0 + d0 + d1 < UINT; omega)
  have hinfo21 : (s2.buf 1).info = (false, 0, 0, none, 0, 0) := by
    rw [hother2 1 (by decide)]; rfl
  have ht2' : s2.ticks = d0 + d1 := by
    rw [ht2]; show 0 + d0 + d1 = d0 + d1; omega
  have hinfo20' : (s2.buf 0).info = (true, k1.1, k1.2, none, 0, d0 + d1) := by
    rw [hinfo20]; show (true, k1.1, k1.2, none, 0, 0 + d0 + d1) = _
    simp
  simp only [Buf.info, Prod.mk.injEq] at hinfo20' hinfo21
  obtain ⟨_, a2, a3, a4, a5, a6⟩ := hinfo20'
  obtain ⟨_, _, _, b4, b5, b6⟩ := hinfo21
  -- second read and release
  have hfl1 : FirstLeast s2 1 := by
    refine ⟨b5, ?_, ?_⟩
    · intro j _; rw [b6]; exact Nat.zero_le _
    · intro j _ hj
      rw [b6] at hj
      by_contra hlt
      have hj0 : j = 0 := by
        have := j.isLt
        apply Fin.ext
        have h1 : ¬ (1 ≤ j.val) := fun hh => hlt (Fin.le_def.2 hh)
        simp only [Fin.val_zero]
        omega
      rw [hj0, a6] at hj
      omega
  obtain ⟨s4, hrr2, hsnap4, hinfo41, hother4, ht4⟩ :=
    readRelease_miss BUCKETNUM s2 (insert 0 ∅) pid k2 1 d2 d3 hsnap2
      (by
        intro i hi
        have hi0 : i = 0 := by simpa using hi
        rw [hi0]
        exact hne h12 _ _ a2 a3)
      hfl1 b4 (by rw [ht2']; omega)
  have hinfo40 : (s4.buf 0).info = (s2.buf 0).info := hother4 0 (by decide)
  simp only [Buf.info, Prod.mk.injEq] at hinfo41 hinfo40
  obtain ⟨c1, c2, c3, c4, c5, c6⟩ := hinfo41
  obtain ⟨_, e2, e3, e4, e5, e6⟩ := hinfo40
  rw [a2] at e2
  rw [a3] at e3
  rw [a4] at e4
  rw [a5] at e5
  rw [a6] at e6
  rw [ht2'] at c6 ht4
  -- third read
  obtain ⟨f1, _, _, _⟩ := advance_frame d4 s4
  have hfl2 : FirstLeast (advance d4 s4) 0 := by
    apply firstLeast_congr s4 _ 0 f1
    refine ⟨e5, ?_, fun j _ _ => Fin.zero_le j⟩
    intro j _
    by_cases hj0 : j = 0
    · rw [hj0]
    · have hj1 : j = 1 := by
        have := j.isLt
        apply Fin.ext
        have h1 : j.val ≠ 0 := fun hh => hj0 (Fin.ext hh)
        simp only [Fin.val_one]
        omega
      rw [hj1, e6, c6]
      omega
  obtain ⟨s5, hb5, hsnap5, hinfo50, hother5, _, _⟩ :=
    snap_miss BUCKETNUM (advance d4 s4) (insert 1 (insert 0 ∅)) pid k3.1 k3.2 0
      (snap_of_sameLinks BUCKETNUM s4 _ _ (sameLinks_advance d4 s4) hsnap4)
      (by
        intro i hi
        rw [f1]
        have hi' : i = 1 ∨ i = 0 := by simpa using hi
        rcases hi' with h1 | h0
        · rw [h1]; exact hne h23 _ _ c2 c3
        · rw [h0]; exact hne h13 _ _ e2 e3)
      hfl2 (by rw [f1]; exact e4)
  have hinfo51 : (s5.buf 1).info = (s4.buf 1).info := by
    rw [hother5 1 (by decide), f1]
  simp only [Buf.info, Prod.mk.injEq] at hinfo50 hinfo51
  obtain ⟨_, g2, g3, _, _, _⟩ := hinfo50
  obtain ⟨k1v, k2v, k3v, k4v, _, _⟩ := hinfo51
  rw [c1] at k1v
  rw [c2] at k2v
  rw [c3] at k3v
  rw [c4] at k4v
  refine ⟨s5, ?_, g2, g3, k2v, k3v, k1v, ?_⟩
  · simp only [scenario2, hrr1, hrr2, hb5]
  · intro d5 pid'
    obtain ⟨m1, _, _, m4⟩ := advance_frame d5 s5
    obtain ⟨s6, hb6, _, _, _, _, hio⟩ :=
      snap_hit BUCKETNUM (advance d5 s5) (insert 0 (insert 1 (insert 0 ∅))) pid' k2.1 k2.2 1
        (snap_of_sameLinks BUCKETNUM s5 _ _ (sameLinks_advance d5 s5) hsnap5)
        (by simp) (by rw [m1]; exact k2v) (by rw [m1]; exact k3v) (by rw [m1]; exact k4v)
    exact ⟨s6, hb6, by rw [hio (by rw [m1]; exact k1v), m4]⟩

/-- Witness for C13: the keys `(1, 10)`, `(1, 20)`, `(1, 30)` with one timer
interrupt before each call. -/
theorem scenario2_recycles_oldest_witness :
    ((1, 10) : Nat × Nat) ≠ (1, 20) ∧ ((1, 10) : Nat × Nat) ≠ (1, 30) ∧
    ((1, 20) : Nat × Nat) ≠ (1, 30) ∧ 0 < 1 + 1 ∧ 1 + 1 + 1 + 1 + 1 < UINT ∧
    ∃ s5 : State 2,
      scenario2 13 (binit (boot (fun _ _ => []))) 7 (1, 10) (1, 20) (1, 30) 1 1 1 1 1 =
        some (0, 1, 0, s5) ∧
      (s5.buf 0).dev = 1 ∧ (s5.buf 0).blockno = 30 ∧
      (s5.buf 1).dev = 1 ∧ (s5.buf 1).blockno = 20 ∧ (s5.buf 1).valid = true ∧
      ∀ d5 pid', ∃ s6, bread 13 (advance d5 s5) pid' 1 20 = Outcome.ret 1 s6 ∧
        s6.io = s5.io :=
  ⟨by decide, by decide, by decide, by decide, by decide,
    scenario2_recycles_oldest 13 (fun _ _ => []) 7 (1, 10) (1, 20) (1, 30) 1 1 1 1 1
      (by decide) (by decide) (by decide) (by decide) (by decide)⟩

/-- C20 (recency ranking).  In a sequential series from `binit` whose timer
interrupts do not wrap the 32-bit `ticks` counter (fewer than `2 ^ 32` of
them), the global `ticks` equals the number of interrupts so far and every
slot's `ticks` is at most the global `ticks`; hence right after a `brelse`
that brings the `refcnt` of `b` to 0, the `ticks` of `b` is the global value
and is at least the `ticks` of every slot with `refcnt == 0`. -/
theorem ticks_ranking (BUCKETNUM : Nat) (disk : Nat → Nat → List Nat)
    (cs : List (Call NBUF)) (s : State NBUF)
    (hrun : runCalls BUCKETNUM (binit (boot disk)) cs = some s)
    (hnowrap : cs.count Call.tick < UINT) :
    s.ticks = cs.count Call.tick ∧ (∀ i, (s.buf i).ticks ≤ s.ticks) ∧
    (∀ pid b s', brelse s pid b = Outcome.ret () s' → (s'.buf b).refcnt = 0 →
      (s'.buf b).ticks = s.ticks ∧
      ∀ j, (s'.buf j).refcnt = 0 → (s'.buf j).ticks ≤ (s'.buf b).ticks) := by
  obtain ⟨h1, h2⟩ := ticks_runCalls BUCKETNUM cs (binit (boot disk)) s
    (wellChained_boot BUCKETNUM disk) (by show 0 + _ < UINT; omega)
    (fun i => le_refl _) hrun
  have h1' : s.ticks = cs.count Call.tick := by
    rw [h1]; show 0 + _ = _; omega
  refine ⟨h1', h2, ?_⟩
  intro pid b s' hb hzero
  rcases brelse_cases s pid b with ⟨_, e⟩ | ⟨_, e⟩
  · rw [e] at hb
    cases hb
    obtain ⟨_, t2, t3⟩ := brelse_dec_ticks (releasesleep s b) b
    have hbt := t3 hzero
    have hrt : (releasesleep s b).ticks = s.ticks := rfl
    rw [hrt] at hbt
    refine ⟨hbt, ?_⟩
    intro j _
    rw [hbt]
    have hr : ((releasesleep s b).buf j).ticks = (s.buf j).ticks := by
      simp only [releasesleep, setBuf_buf]
      split <;> simp [*]
    rcases t2 j with h3 | h3
    · rw [h3, hr]; exact h2 j
    · rw [h3, hrt]
  · rw [e] at hb; cases hb

/-- Witness for C20: a series with three timer interrupts on a three-slot
cache. -/
theorem ticks_ranking_witness :
    runCalls 13 (binit (boot (fun _ _ => []))) demoTicking = some demoTicked ∧
    demoTicking.count Call.tick < UINT ∧
    (demoTicked.ticks = demoTicking.count Call.tick ∧
    (∀ i, (demoTicked.buf i).ticks ≤ demoTicked.ticks) ∧
    (∀ pid b s', brelse demoTicked pid b = Outcome.ret () s' → (s'.buf b).refcnt = 0 →
      (s'.buf b).ticks = demoTicked.ticks ∧
      ∀ j, (s'.buf j).refcnt = 0 → (s'.buf j).ticks ≤ (s'.buf b).ticks)) ∧
    demoTicked.ticks = 3 ∧ (demoTicked.buf 1).ticks = 2 :=
  ⟨rfl, by decide, ticks_ranking 13 (fun _ _ => []) demoTicking demoTicked rfl (by decide),
    by decide, by decide⟩

/-- C15 (scenario 3) fails on the code, by the same race as C4.  Two processes
call `bread(1, 10)` on a fresh two-slot cache and both finish the chain
search before either recycles a slot.  After eight steps each process stands
before the `valid` test of a slot of its own, and both slots have
`valid == 0`; at the end the driver has read the block twice, once into
each slot, and `valid` has gone from 0 to 1 on two slots. -/
theorem bread_race_two_disk_reads :
    (Config.run 13 twoReaders (raceSchedule.take 8)).pcs = [PC.fill 0, PC.fill 1] ∧
    ((Config.run 13 twoReaders (raceSchedule.take 8)).st.buf 0).valid = false ∧
    ((Config.run 13 twoReaders (raceSchedule.take 8)).st.buf 1).valid = false ∧
    (Config.run 13 twoReaders (raceSchedule.take 8)).st.io = [] ∧
    (Config.run 13 twoReaders raceSchedule).pcs = [PC.idle, PC.idle] ∧
    (Config.run 13 twoReaders raceSchedule).st.io.length = 2 ∧
    (Config.run 13 twoReaders raceSchedule).st.io.map Prod.snd = [false, false] ∧
    ((Config.run 13 twoReaders raceSchedule).st.buf 0).valid = true ∧
    ((Config.run 13 twoReaders raceSchedule).st.buf 1).valid = true := by
  decide

/-- C16 (lock-ordering rule 1).  Along the lock events of one process running
`bget`, `bread`, `bwrite`, `brelse`, `bpin` or `bunpin`, in any state: every
release is of the lock acquired last, and at every point the process holds no
spinlock, one bucket lock, `bcache.lock`, or `bcache.lock` acquired first with
one bucket lock inside it; never two bucket locks, whatever the buckets of the
old and the new key. -/
theorem lock_order_nested (BUCKETNUM : Nat) (s : State NBUF) (pid dev blockno : Nat)
    (b : Fin NBUF) :
    NestedLocks (bget_tr BUCKETNUM s pid dev blockno).2 ∧
    NestedLocks (bread_tr BUCKETNUM s pid dev blockno).2 ∧
    NestedLocks (bwrite_tr s pid b).2 ∧
    NestedLocks (brelse_tr BUCKETNUM s pid b).2 ∧
    NestedLocks (bpin_tr BUCKETNUM s b).2 ∧
    NestedLocks (bunpin_tr BUCKETNUM s b).2 :=
  ⟨nestedLocks_of_wellLocked _ (bget_tr_wellLocked BUCKETNUM s pid dev blockno),
    nestedLocks_of_wellLocked _ (bread_tr_wellLocked BUCKETNUM s pid dev blockno),
    nestedLocks_of_wellLocked _ (bwrite_tr_wellLocked s pid b),
    nestedLocks_of_wellLocked _ (brelse_tr_wellLocked BUCKETNUM s pid b),
    nestedLocks_of_wellLocked _ (bpin_tr_wellLocked BUCKETNUM s b),
    nestedLocks_of_wellLocked _ (bunpin_tr_wellLocked BUCKETNUM s b)⟩

/-- Witness for C16: in `demoBusy` a miss on `(1, 33)` recycles slot 1, whose
old block number 0 hashes to bucket 0 while 33 hashes to bucket 7; after four
events the process holds `bcache.lock` and, inside it, the lock of bucket 0. -/
theorem lock_order_nested_witness :
    locksHeld [] ((bget_tr 13 demoBusy 8 1 33).2.take 4) =
      some [Lock.bcache, Lock.bucket 0] ∧
    (bget_tr 13 demoBusy 8 1 33).2.length = 9 ∧
    NestedLocks (bget_tr 13 demoBusy 8 1 33).2 :=
  ⟨by decide, by decide, (lock_order_nested 13 demoBusy 8 1 33 0).1⟩

/-- C17 (lock-ordering rule 2).  Along the events of one process running
`bget`, `bread`, `bwrite` or `brelse`, in any state, the process holds neither
`bcache.lock` nor a bucket lock at any call of `acquiresleep` or
`virtio_disk_rw`. -/
theorem no_spinlock_at_blocking_call (BUCKETNUM : Nat) (s : State NBUF)
    (pid dev blockno : Nat) (b : Fin NBUF) :
    NoLockAtBlocking (bget_tr BUCKETNUM s pid dev blockno).2 ∧
    NoLockAtBlocking (bread_tr BUCKETNUM s pid dev blockno).2 ∧
    NoLockAtBlocking (bwrite_tr s pid b).2 ∧
    NoLockAtBlocking (brelse_tr BUCKETNUM s pid b).2 :=
  ⟨noLockAtBlocking_of_wellLocked _ (bget_tr_wellLocked BUCKETNUM s pid dev blockno),
    noLockAtBlocking_of_wellLocked _ (bread_tr_wellLocked BUCKETNUM s pid dev blockno),
    noLockAtBlocking_of_wellLocked _ (bwrite_tr_wellLocked s pid b),
    noLockAtBlocking_of_wellLocked _ (brelse_tr_wellLocked BUCKETNUM s pid b)⟩

/-- Witness for C17: the `bread(1, 33)` of process 8 in `demoBusy` calls
`acquiresleep` as its ninth event and the driver as its tenth, both with no
spinlock held. -/
theorem no_spinlock_at_blocking_call_witness :
    (bread_tr 13 demoBusy 8 1 33).2.get? 8 = some (Event.acquiresleep 1) ∧
    (bread_tr 13 demoBusy 8 1 33).2.get? 9 = some (Event.virtio_disk_rw 1 false) ∧
    locksHeld [] ((bread_tr 13 demoBusy 8 1 33).2.take 8) = some [] ∧
    locksHeld [] ((bread_tr 13 demoBusy 8 1 33).2.take 9) = some [] :=
  ⟨by decide, by decide,
    (no_spinlock_at_blocking_call 13 demoBusy 8 1 33 0).2.1 8 (Event.acquiresleep 1)
      (by decide) rfl,
    (no_spinlock_at_blocking_call 13 demoBusy 8 1 33 0).2.1 9 (Event.virtio_disk_rw 1 false)
      (by decide) rfl⟩

end Bio

namespace Kalloc

/-! ## The claims on the allocator -/

/-- C18 (`kalloc` availability).  On CPU `c < NCPU`, `kalloc` returns the null
pointer exactly when the free list of every CPU is empty.  Otherwise it
returns a page `r` that was on the free list of some CPU; every page occurs on
the lists afterwards as often as before, except `r`, which occurs once less;
so when no page occurred twice before, `r` is on no free list afterwards and
still no page occurs twice. -/
theorem kalloc_availability (NCPU : Nat) (kmem : Kmem) (c : Nat) (hc : c < NCPU) :
    ((kalloc NCPU kmem c).1 = none ↔ ∀ i, i < NCPU → kmem i = []) ∧
    (∀ r, (kalloc NCPU kmem c).1 = some r →
      (∃ i, i < NCPU ∧ r ∈ kmem i) ∧
      (∀ a, pageCount NCPU kmem a =
        pageCount NCPU (kalloc NCPU kmem c).2 a + (if a = r then 1 else 0)) ∧
      ((∀ a, pageCount NCPU kmem a ≤ 1) →
        (∀ i, i < NCPU → r ∉ (kalloc NCPU kmem c).2 i) ∧
        ∀ a, pageCount NCPU (kalloc NCPU kmem c).2 a ≤ 1)) := by
  have hcons : ∀ r, (kalloc NCPU kmem c).1 = some r →
      ∀ a, pageCount NCPU kmem a =
        pageCount NCPU (kalloc NCPU kmem c).2 a + (if a = r then 1 else 0) := by
    intro r hr a
    rcases kalloc_cases NCPU kmem c with ⟨r', rest, h1, e⟩ | ⟨r', rest, _, h2, e⟩ | ⟨_, _, e⟩
    · rw [e] at hr ⊢
      simp only [Option.some.injEq] at hr
      subst hr
      have := pageCount_update NCPU kmem c rest a hc
      rw [h1, count_cons_ite] at this
      simp only
      omega
    · rw [e] at hr ⊢
      simp only [Option.some.injEq] at hr
      subst hr
      have := pageCount_update NCPU (mem_steal NCPU kmem c) c rest a hc
      rw [h2, count_cons_ite, mem_steal_pageCount NCPU kmem c a hc] at this
      simp only
      omega
    · rw [e] at hr; cases hr
  refine ⟨⟨?_, ?_⟩, ?_⟩
  · intro hnone
    rcases kalloc_cases NCPU kmem c with ⟨r, rest, _, e⟩ | ⟨r, rest, _, _, e⟩ | ⟨h1, h2, _⟩
    · rw [e] at hnone; cases hnone
    · rw [e] at hnone; cases hnone
    · rcases mem_steal_self NCPU kmem c with ⟨hf, _⟩ | ⟨v, _, hne⟩
      · intro i hi
        by_cases hic : i = c
        · rw [hic]; exact h1
        · exact findVictim_none NCPU kmem c hf i hi hic
      · exact absurd h2 hne
  · intro hall
    rcases kalloc_cases NCPU kmem c with ⟨r, rest, h1, _⟩ | ⟨r, rest, _, h2, _⟩ | ⟨_, _, e⟩
    · rw [hall c hc] at h1; cases h1
    · rcases mem_steal_self NCPU kmem c with ⟨_, hm⟩ | ⟨v, hf, _⟩
      · rw [hm, hall c hc] at h2; cases h2
      · rw [findVictim_of_all_empty NCPU kmem c hall] at hf; cases hf
    · rw [e]
  · intro r hr
    have hcount := hcons r hr
    refine ⟨?_, hcount, ?_⟩
    · by_contra hno
      push_neg at hno
      have h0 := (pageCount_eq_zero_iff NCPU kmem r).2 hno
      have := hcount r
      rw [h0] at this
      simp at this
    · intro hnd
      have hafter : ∀ a, pageCount NCPU (kalloc NCPU kmem c).2 a ≤ 1 := by
        intro a
        have := hcount a
        have := hnd a
        omega
      refine ⟨?_, hafter⟩
      apply (pageCount_eq_zero_iff NCPU _ r).1
      have := hcount r
      have := hnd r
      simp only [if_true] at *
      omega

/-- Witness for C18: on CPU 0 of `demoKmem`, whose own list is empty, `kalloc`
steals from CPU 2 and returns page 8192. -/
theorem kalloc_availability_witness :
    (0 : Nat) < 4 ∧ (kalloc 4 demoKmem 0).1 = some 8192 ∧
    (∃ i, i < 4 ∧ 8192 ∈ demoKmem i) ∧
    (∀ a, pageCount 4 demoKmem a =
      pageCount 4 (kalloc 4 demoKmem 0).2 a + (if a = 8192 then 1 else 0)) ∧
    (kalloc 4 demoKmem 0).2 0 = [4096] ∧
    (kalloc 4 demoKmem 0).2 2 = [12288, 16384, 20480] :=
  ⟨by decide, by decide,
    ((kalloc_availability 4 demoKmem 0 (by decide)).2 8192 (by decide)).1,
    ((kalloc_availability 4 demoKmem 0 (by decide)).2 8192 (by decide)).2.1,
    by decide, by decide⟩

/-- C21 (`mem_steal`: amount and conservation).  For a stealer `s < NCPU`:
when no other CPU has a free page the free lists are unchanged; otherwise,
with `v` the lowest-indexed CPU other than `s` whose list is not empty and `n`
the length of its list, `mem_steal(s)` takes the first `k` pages of the list
of `v`, where `k` is `n / 2` when `n ≥ 2` and `1` when `n = 1`, and puts them
on the list of `s` in front of the pages it had, leaves the remaining pages of
`v` in their order, and leaves the list of every other CPU as it was.  Every
page occurs on the lists afterwards as often as before, so the set of pages on
the lists is the same, and when no page occurred twice before, none does
afterwards.  On every memory that holds these lists, null-terminated and
sharing no page, the pointer code of `mem_steal` returns, leaves a memory that
holds the lists so described, and writes nothing when no other CPU has a free
page. -/
theorem mem_steal_amount_conservation (NCPU : Nat) (kmem : Kmem) (s : Nat) (hs : s < NCPU) :
    ((∀ i, i < NCPU → i ≠ s → kmem i = []) → mem_steal NCPU kmem s = kmem) ∧
    (∀ v, v < NCPU → v ≠ s → kmem v ≠ [] → (∀ j, j < v → j ≠ s → kmem j = []) →
      ∃ k, (2 ≤ (kmem v).length → k = (kmem v).length / 2) ∧
        ((kmem v).length = 1 → k = 1) ∧
        mem_steal NCPU kmem s s = ((kmem v).take k).reverse ++ kmem s ∧
        mem_steal NCPU kmem s v = (kmem v).drop k ∧
        ∀ i, i ≠ s → i ≠ v → mem_steal NCPU kmem s i = kmem i) ∧
    (∀ a, pageCount NCPU (mem_steal NCPU kmem s) a = pageCount NCPU kmem a) ∧
    (∀ a, (∃ i, i < NCPU ∧ a ∈ mem_steal NCPU kmem s i) ↔ ∃ i, i < NCPU ∧ a ∈ kmem i) ∧
    ((∀ a, pageCount NCPU kmem a ≤ 1) →
      ∀ a, pageCount NCPU (mem_steal NCPU kmem s) a ≤ 1) ∧
    (∀ PHYSTOP m, Represents NCPU PHYSTOP m kmem →
      ∃ m1, Mem.mem_steal NCPU PHYSTOP m s = some m1 ∧
        Represents NCPU PHYSTOP m1 (mem_steal NCPU kmem s) ∧
        ((∀ i, i < NCPU → i ≠ s → kmem i = []) → m1 = m)) := by
  have hcount := fun a => mem_steal_pageCount NCPU kmem s a hs
  refine ⟨?_, ?_, hcount, ?_, ?_, ?_⟩
  · intro hnone
    exact mem_steal_of_no_victim NCPU kmem s (findVictim_eq_none NCPU kmem s hnone)
  · intro v hv hne hnil hleast
    have hf := findVictim_eq_some NCPU kmem s v hv hne hnil hleast
    obtain ⟨h1, h2, h3⟩ := mem_steal_of_victim NCPU kmem s v hf
    refine ⟨stealCount (kmem v).length, ?_, ?_, h1, h2, h3⟩
    · intro h
      unfold stealCount
      rw [if_neg (by omega)]
    · intro h
      unfold stealCount
      rw [if_pos h]
  · intro a
    have h1 := pageCount_eq_zero_iff NCPU (mem_steal NCPU kmem s) a
    have h2 := pageCount_eq_zero_iff NCPU kmem a
    rw [hcount a] at h1
    constructor
    · intro hex
      by_contra hno
      push_neg at hno
      obtain ⟨i, hi, hmem⟩ := hex
      exact (h1.1 (h2.2 hno)) i hi hmem
    · intro hex
      by_contra hno
      push_neg at hno
      obtain ⟨i, hi, hmem⟩ := hex
      exact (h2.1 (h1.2 hno)) i hi hmem
  · intro hnd a
    rw [hcount a]
    exact hnd a
  · intro PHYSTOP m hrep
    obtain ⟨m1, hr, hrep1, hsame⟩ := Mem.mem_steal_refines NCPU PHYSTOP m kmem s hs hrep
    exact ⟨m1, hr, hrep1, fun hnone => hsame (findVictim_eq_none NCPU kmem s hnone)⟩

/-- Witness for C21: in `demoKmem`, CPU 0 steals from CPU 2, the first CPU
with a page: of its five pages the first two go to CPU 0; on the memory
`demoMem`, which holds these lists, the pointer code returns. -/
theorem mem_steal_amount_conservation_witness :
    (0 : Nat) < 4 ∧
    mem_steal 4 demoKmem 0 0 = [8192, 4096] ∧
    mem_steal 4 demoKmem 0 2 = [12288, 16384, 20480] ∧
    mem_steal 4 demoKmem 0 3 = [24576] ∧
    (∃ k, (2 ≤ (demoKmem 2).length → k = (demoKmem 2).length / 2) ∧
      ((demoKmem 2).length = 1 → k = 1) ∧
      mem_steal 4 demoKmem 0 0 = ((demoKmem 2).take k).reverse ++ demoKmem 0 ∧
      mem_steal 4 demoKmem 0 2 = (demoKmem 2).drop k ∧
      ∀ i, i ≠ 0 → i ≠ 2 → mem_steal 4 demoKmem 0 i = demoKmem i) ∧
    (∀ a, pageCount 4 (mem_steal 4 demoKmem 0) a = pageCount 4 demoKmem a) ∧
    Represents 4 32768 demoMem demoKmem ∧
    ∃ m1, Mem.mem_steal 4 32768 demoMem 0 = some m1 ∧
      Represents 4 32768 m1 (mem_steal 4 demoKmem 0) ∧
      ((∀ i, i < 4 → i ≠ 0 → demoKmem i = []) → m1 = demoMem) :=
  ⟨by decide, by decide, by decide, by decide,
    (mem_steal_amount_conservation 4 demoKmem 0 (by decide)).2.1 2
      (by decide) (by decide) (by decide) (by decide),
    (mem_steal_amount_conservation 4 demoKmem 0 (by decide)).2.2.1,
    by decide,
    (mem_steal_amount_conservation 4 demoKmem 0 (by decide)).2.2.2.2.2 32768 demoMem
      (by decide)⟩

end Kalloc
